import Mathlib

/-! cobra: header map, header parser, filter tree and CGI handler.

A shallow embedding of parts of the cobra HTTP server:

* `src/http/header.cc`: `normalize_key`, `header_map` and `parse_headers`;
* `src/http/server.cc`: `http_filter` (constructor, `eval`, `match`);
* `src/http/handler.cc`: `get_cgi_params`, `handle_cgi_response`, `handle_cgi`.

C++ `std::string` is embedded as `String` (a list of characters); `std::toupper`,
`std::tolower` and `std::isalpha` are taken in the "C" locale, where they agree with
`Char.toUpper`, `Char.toLower` and `Char.isAlpha`: only `a`..`z` / `A`..`Z` are letters
and every other character is left unchanged.
-/

namespace cobra

/-! ## header.cc : normalize_key -/

/-- The loop of `normalize_key`: `was_alpha` is the loop-carried flag, the list is the
part of the key that is still to be rewritten.  Note that `was_alpha` is computed from
the character *after* it has been rewritten, as in the source. -/
def normalize_key_loop (was_alpha : Bool) : List Char → List Char
  | [] => []
  | ch :: rest =>
    let ch1 := if was_alpha then ch.toLower else ch.toUpper
    ch1 :: normalize_key_loop ch1.isAlpha rest

/-- `static header_map::key_type normalize_key(header_map::key_type key)`. -/
def normalize_key (key : String) : String :=
  String.mk (normalize_key_loop false key.data)

/-! ## header.cc : header_map -/

/-- Modelled from the spec: the class `header_map` has one member, `map`, of type
`map_type`, whose declaration (`cobra/http.hh`) is not part of the sources at hand.  The
spec describes a map from normalized keys to values; it is embedded as an association
list in which a key is looked up from the front and a new key is added at the back. -/
structure header_map where
  map : List (String × String)
  deriving DecidableEq

/-- `map.find(key)`: the first entry stored under `key`. -/
def map_find (key : String) : List (String × String) → Option String
  | [] => none
  | (k, v) :: rest => if k = key then some v else map_find key rest

/-- `map.emplace(make_pair(key, value))` followed by the update applied to the mapped
value when the key was already there (`result.second == false`); `on_present old` is the
new mapped value in that case.  Returns the new association list and the mapped value
the returned reference points at. -/
def map_emplace_or (on_present : String → String) (key value : String) :
    List (String × String) → List (String × String) × String
  | [] => ([(key, value)], value)
  | (k, v) :: rest =>
    if k = key then ((k, on_present v) :: rest, on_present v)
    else
      let r := map_emplace_or on_present key value rest
      ((k, v) :: r.1, r.2)

namespace header_map

/-- `header_map()`: the empty map. -/
def empty : header_map := ⟨[]⟩

/-- `header_map::insert_or_assign`: returns the new map and the mapped value. -/
def insert_or_assign (m : header_map) (key value : String) : header_map × String :=
  let r := map_emplace_or (fun _ => value) (normalize_key key) value m.map
  (⟨r.1⟩, r.2)

/-- `header_map::insert_or_append`: returns the new map and the mapped value.  On an
existing key the stored value gets `push_back(' ')` and then `+= value`. -/
def insert_or_append (m : header_map) (key value : String) : header_map × String :=
  let r := map_emplace_or (fun old => (old.push ' ') ++ value) (normalize_key key) value m.map
  (⟨r.1⟩, r.2)

/-- `header_map::at`: `none` stands for the `std::out_of_range` thrown by `map.at`. -/
def «at» (m : header_map) (key : String) : Option String :=
  map_find (normalize_key key) m.map

/-- `header_map::contains`. -/
def contains (m : header_map) (key : String) : Bool :=
  (map_find (normalize_key key) m.map).isSome

/-- `header_map::size`. -/
def size (m : header_map) : Nat :=
  m.map.length

end header_map

/-- Two keys differ only in ASCII letter case: same length and, position by position,
the same character once letters are folded to lower case. -/
def same_up_to_case (k1 k2 : String) : Prop :=
  k1.data.map Char.toLower = k2.data.map Char.toLower

instance (k1 k2 : String) : Decidable (same_up_to_case k1 k2) := by
  unfold same_up_to_case
  infer_instance

/-! ## server.cc : the filter tree

The declarations of `config::config`, `basic_socket_stream`, `http_request` and
`uri_abs_path` are not part of the sources at hand; they are embedded with the members
that `server.cc` and `handler.cc` use. -/

/-- Modelled from the spec: `uri_abs_path` (declared outside the sources at hand), a
normalized absolute path, is the sequence of its segments. -/
abbrev uri_abs_path := List String

/-- Modelled from the spec: `uri_origin` (declared outside the sources at hand), the
origin form of a request target, with `path()` and the optional `query()`. -/
structure uri_origin where
  path : String
  query : Option String

/-- Modelled from the spec: `uri` (declared outside the sources at hand), a request
target; `get<uri_origin>()` is non-null exactly on `origin`. -/
inductive uri where
  | origin (org : uri_origin)
  | other (text : String)

/-- Modelled from the spec: `http_request` (declared outside the sources at hand) with
the members that are used: `method()`, `uri()`, `header_map()`. -/
structure http_request where
  method : String
  uri : uri
  header_map : header_map

/-- Modelled from the spec: `http_request::has_header` (defined outside the sources at
hand) is a lookup in the request's case-normalized header map. -/
def http_request.has_header (request : http_request) (key : String) : Bool :=
  request.header_map.contains key

/-- Modelled from the spec: `http_request::header` (defined outside the sources at hand)
is a lookup in the request's case-normalized header map (`none` when the header is absent
and the lookup throws). -/
def http_request.header (request : http_request) (key : String) : Option String :=
  request.header_map.at key

/-- Modelled from the spec: `basic_socket_stream` (declared outside the sources at hand)
with the member that is used: `server_name()`, the SNI name of a TLS connection, absent
on a plain connection. -/
structure basic_socket_stream where
  server_name : Option String

/-- Modelled from the spec: the alternatives of the `handler` variant of a config
(declared outside the sources at hand) that `handle_request` tests. -/
inductive handler_config where
  | cgi_config (command : String)
  | fast_cgi_config (node : String) (service : String)
  | static_file_config

/-- Modelled from the spec: `config::config` (declared outside the sources at hand) with
the members that are used: the server-name set, the path segments of the location, the
method set, the optional handler, `root`, `index` and the child configs. -/
structure config where
  server_names : List String
  location : List String
  methods : List String
  handler : Option handler_config
  root : Option String
  index : Option String
  sub_configs : List config

/-- The class `http_filter` with the members its constructors initialise: `_config`,
`_sub_filters`, `_match_count`. -/
structure http_filter where
  _config : config
  _sub_filters : List http_filter
  _match_count : Nat

mutual
/-- `http_filter::http_filter(config, match_count)`: the node's match count is the
inherited one plus the length of its own location; the children inherit the node's. -/
def http_filter.of_config (match_count : Nat) : config → http_filter
  | ⟨server_names, location, methods, handler, root, index, sub_configs⟩ =>
    { _config := ⟨server_names, location, methods, handler, root, index, sub_configs⟩
      _sub_filters := http_filter.of_sub_configs (match_count + location.length) sub_configs
      _match_count := match_count + location.length }
/-- The loop of the constructor over `_config->sub_configs`. -/
def http_filter.of_sub_configs (match_count : Nat) : List config → List http_filter
  | [] => []
  | sub_filter :: rest =>
    http_filter.of_config match_count sub_filter :: http_filter.of_sub_configs match_count rest
end

/-- `http_filter::http_filter(config)`, which delegates with match count `0`. -/
def http_filter.mk_root (cfg : config) : http_filter :=
  http_filter.of_config 0 cfg

/-- `http_filter::http_filter(config, filters)`: the given filters under a node of match
count `0`. -/
def http_filter.with_filters (cfg : config) (filters : List http_filter) : http_filter :=
  { _config := cfg, _sub_filters := filters, _match_count := 0 }

/-- `new config::config()`: the default-constructed config the server's root filter has. -/
def config.default : config :=
  ⟨[], [], [], none, none, none, []⟩

/-- Subtraction of two `std::size_t` values (both below `2 ^ 64`): it wraps around. -/
def size_t_sub (a b : Nat) : Nat :=
  if b ≤ a then a - b else a + 2 ^ 64 - b

/-- The loop of `eval` over `config().location`: `it` is what lies between the iterator
and `normalized.end()`, the second list the parts of the location still to compare. -/
def eval_location : List String → List String → Bool
  | _, [] => true
  | [], _ :: _ => false
  | seg :: it, part :: parts =>
    if seg != part then false else eval_location it parts

/-- `http_filter::eval`.  The iterator `normalized.begin() + already_matched` is embedded
as `normalized.drop already_matched`; the source leaves it undefined when
`already_matched` exceeds `normalized.size()`, here it is then the end iterator. -/
def http_filter.eval (f : http_filter) (socket : basic_socket_stream) (request : http_request)
    (normalized : uri_abs_path) : Bool :=
  if !f._config.server_names.isEmpty &&
      (match socket.server_name with
       | some name => !f._config.server_names.contains name
       | none =>
         !request.has_header "host" ||
           (match request.header "host" with
            | some host => !f._config.server_names.contains host
            | none => true)) then
    false
  else if !f._config.location.isEmpty &&
      !eval_location (normalized.drop (size_t_sub f._match_count f._config.location.length))
        f._config.location then
    false
  else if !f._config.methods.isEmpty && !f._config.methods.contains request.method then
    false
  else
    true

mutual
/-- `http_filter::match`.  The returned pointer is embedded as the path of child indices
that leads from the node `match` is called on to the returned node (`this` is the empty
path); `none` is `nullptr`. -/
def http_filter.«match» (socket : basic_socket_stream) (request : http_request)
    (normalized : uri_abs_path) : http_filter → Option (List Nat)
  | ⟨cfg, sub_filters, match_count⟩ =>
    if http_filter.eval ⟨cfg, sub_filters, match_count⟩ socket request normalized then
      match http_filter.match_sub_filters socket request normalized 0 sub_filters with
      | some m => some m
      | none => some []
    else
      none
/-- The loop of `match` over `_sub_filters`; `i` is the index of the first filter of the
list among the children. -/
def http_filter.match_sub_filters (socket : basic_socket_stream) (request : http_request)
    (normalized : uri_abs_path) (i : Nat) : List http_filter → Option (List Nat)
  | [] => none
  | filter :: rest =>
    match http_filter.«match» socket request normalized filter with
    | some m => some (i :: m)
    | none => http_filter.match_sub_filters socket request normalized (i + 1) rest
end

/-- The node a path of child indices leads to. -/
def http_filter.node_at (f : http_filter) : List Nat → Option http_filter
  | [] => some f
  | i :: p =>
    match f._sub_filters[i]? with
    | some c => c.node_at p
    | none => none

/-- A node counts as matching when `eval` is true for it and for every ancestor up to
the node `match` was called on. -/
def http_filter.is_matching (f : http_filter) (socket : basic_socket_stream)
    (request : http_request) (normalized : uri_abs_path) : List Nat → Bool
  | [] => f.eval socket request normalized
  | i :: p =>
    f.eval socket request normalized &&
      (match f._sub_filters[i]? with
       | some c => c.is_matching socket request normalized p
       | none => false)

/-- Declaration (depth-first, child-list) order on nodes: `p` is visited no later than
`q`.  A node comes before its descendants, a child before its later siblings. -/
def dfs_le : List Nat → List Nat → Bool
  | [], _ => true
  | _ :: _, [] => false
  | i :: p, j :: q => decide (i < j) || (i == j && dfs_le p q)

/-- The locations of the nodes on the path from `f` to the node at `p`, `f` first. -/
def http_filter.locations_along (f : http_filter) : List Nat → List (List String)
  | [] => [f._config.location]
  | i :: p =>
    f._config.location ::
      (match f._sub_filters[i]? with
       | some c => c.locations_along p
       | none => [])

/-- A request with the given method for the target `/`, without headers. -/
def example_request (method : String) : http_request :=
  ⟨method, uri.origin ⟨"/", none⟩, header_map.empty⟩

/-- A config that only sets its location and its children. -/
def location_config (location : List String) (sub_configs : List config) : config :=
  ⟨[], location, [], none, none, none, sub_configs⟩

/-- The config `/` with the children `/a` and `/a` and, below the second, `/b`. -/
def example_config : config :=
  location_config [] [location_config ["a"] [], location_config ["a"] [location_config ["b"] []]]

/-- The filter tree built from `example_config`. -/
def example_tree : http_filter :=
  http_filter.mk_root example_config

/-- The node at `p` exists and `eval` is true for every proper ancestor of it (so that
`match` gets to evaluate it, unless an earlier sibling on the way already matched). -/
def http_filter.reached (f : http_filter) (socket : basic_socket_stream)
    (request : http_request) (normalized : uri_abs_path) : List Nat → Bool
  | [] => true
  | i :: p =>
    f.eval socket request normalized &&
      (match f._sub_filters[i]? with
       | some c => c.reached socket request normalized p
       | none => false)

/-- The locations of the proper ancestors of the node at `p`, the root's first. -/
def http_filter.ancestor_locations (f : http_filter) : List Nat → List (List String)
  | [] => []
  | i :: p =>
    f._config.location ::
      (match f._sub_filters[i]? with
       | some c => c.ancestor_locations p
       | none => [])

/-- The name a server-name set is compared with: the SNI server name when the socket has
one, otherwise the value of the `Host` header, which must then be present. -/
def name_in (socket : basic_socket_stream) (request : http_request)
    (server_names : List String) : Prop :=
  match socket.server_name with
  | some name => name ∈ server_names
  | none =>
    match request.header "host" with
    | some host => host ∈ server_names
    | none => False

instance (socket : basic_socket_stream) (request : http_request) (server_names : List String) :
    Decidable (name_in socket request server_names) := by
  unfold name_in
  split
  · infer_instance
  · split <;> infer_instance

/-! ## header.cc : parse_headers

The stream is embedded as the list of characters still to be read. -/

/-- The declarations of `cobra/http.hh` that the header parser uses and that are not part
of the sources at hand: the three limits and the character classes `is_token` and
`is_ctl`.  They are parameters of the parser. -/
structure http_hh where
  max_header_key_length : Nat
  max_header_value_length : Nat
  max_header_count : Nat
  is_token : Char → Bool
  is_ctl : Char → Bool

/-- The members of `http_status_code` that the header parser throws as `http_error`. -/
inductive http_status_code where
  | bad_request
  | request_header_fields_too_large
  deriving DecidableEq, Repr

/-- Modelled from the spec: how a parser fails, with a thrown `http_error`, or because
`get_ch` (defined outside the sources at hand) finds the stream at its end, which
surfaces as a failure of its own. -/
inductive parse_error where
  | http_error (code : http_status_code)
  | end_of_stream
  deriving DecidableEq, Repr

/-- The result of a parser: the value and the rest of the stream, or the failure. -/
abbrev parse_result (α : Type) := Except parse_error (α × List Char)

/-- The `async_while` loop of `parse_key`: `key` is the captured string. -/
def parse_key_loop (h : http_hh) (key : String) : List Char → parse_result String
  | [] => .error .end_of_stream
  | ch :: stream =>
    if ch = ':' then
      .ok (key, stream)
    else if h.is_token ch then
      if (key.push ch).length > h.max_header_key_length then
        .error (.http_error .request_header_fields_too_large)
      else
        parse_key_loop h (key.push ch) stream
    else
      .error (.http_error .bad_request)

/-- `parse_key(stream, first_ch)`: the loop starts from `std::string(1, first_ch)`. -/
def parse_key (h : http_hh) (stream : List Char) (first_ch : Char) : parse_result String :=
  parse_key_loop h (String.singleton first_ch) stream

/-- The `async_while` loop of `parse_value`: `value` and `had_ws` are the captured
state.  The result carries the value and the new `first_ch`. -/
def parse_value_loop (h : http_hh) (value : String) (had_ws : Bool) :
    List Char → parse_result (String × Char)
  | [] => .error .end_of_stream
  | ch :: stream =>
    if ch = '\r' then
      match stream with
      | [] => .error .end_of_stream
      | ch1 :: stream1 =>
        if ch1 ≠ '\n' then
          .error (.http_error .bad_request)
        else
          match stream1 with
          | [] => .error .end_of_stream
          | ch2 :: stream2 =>
            if ch2 = ' ' ∨ ch2 = '\t' then
              parse_value_loop h value (!value.isEmpty) stream2
            else
              .ok ((value, ch2), stream2)
    else if ch = ' ' ∨ ch = '\t' then
      parse_value_loop h value (!value.isEmpty) stream
    else if !h.is_ctl ch then
      if ((if had_ws then value.push ' ' else value).push ch).length
          > h.max_header_value_length then
        .error (.http_error .request_header_fields_too_large)
      else
        parse_value_loop h ((if had_ws then value.push ' ' else value).push ch) false stream
    else
      .error (.http_error .bad_request)

/-- `parse_value(stream, first_ch)`: the loop starts from the empty string and `false`. -/
def parse_value (h : http_hh) (stream : List Char) : parse_result (String × Char) :=
  parse_value_loop h "" false stream

/-- The `async_while` loop of `parse_headers`: `headers` and `first_ch` are the captured
state.  Every round that goes on has read at least one character, so `fuel` rounds are
enough for a stream of fewer than `fuel` characters; `none` is a loop cut off by the
fuel. -/
def parse_headers_loop (h : http_hh) :
    Nat → header_map → Char → List Char → Option (parse_result header_map)
  | 0, _, _, _ => none
  | fuel + 1, headers, first_ch, stream =>
    if first_ch = '\r' then
      match stream with
      | [] => some (.error .end_of_stream)
      | ch :: stream1 =>
        if ch ≠ '\n' then
          some (.error (.http_error .bad_request))
        else
          some (.ok (headers, stream1))
    else if h.is_token first_ch then
      match parse_key h stream first_ch with
      | .error e => some (.error e)
      | .ok (key, stream1) =>
        match parse_value h stream1 with
        | .error e => some (.error e)
        | .ok ((value, first_ch1), stream2) =>
          if (headers.insert_or_append key value).2.length > h.max_header_value_length ∨
              (headers.insert_or_append key value).1.size > h.max_header_count then
            some (.error (.http_error .request_header_fields_too_large))
          else
            parse_headers_loop h fuel (headers.insert_or_append key value).1 first_ch1 stream2
    else
      some (.error (.http_error .bad_request))

/-- `parse_headers(stream)`: reads the first character and runs the loop from the empty
map.  The fuel given is never used up (`parse_headers_loop_fuel`). -/
def parse_headers (h : http_hh) (stream : List Char) : parse_result header_map :=
  match stream with
  | [] => .error .end_of_stream
  | first_ch :: stream1 =>
    match parse_headers_loop h (stream1.length + 1) header_map.empty first_ch stream1 with
    | some r => r
    | none => .error .end_of_stream

/-- One line of `operator<<`: the key, `": "`, the value, `"\r\n"`. -/
def header_line (key value : String) : List Char :=
  key.data ++ ": ".data ++ value.data ++ "\r\n".data

/-- `std::ostream& operator<<(std::ostream& os, const header_map& headers)`: the
characters written to `os`. -/
def header_map.write (headers : header_map) : List Char :=
  (headers.map.map (fun pair => header_line (normalize_key pair.1) pair.2)).flatten
    ++ "\r\n".data

/-- The lines of the given headers, one after the other. -/
def header_lines (headers : List (String × String)) : List Char :=
  (headers.map (fun pair => header_line pair.1 pair.2)).flatten

/-- A header block as it stands on the wire: one line per header, then the empty line. -/
def header_block (headers : List (String × String)) : List Char :=
  header_lines headers ++ "\r\n".data

/-- The entries `parse_headers` stores for headers with different keys: each key in
normalized form with its value, in the order of the lines. -/
def stored (headers : List (String × String)) : List (String × String) :=
  headers.map (fun pair => (normalize_key pair.1, pair.2))

/-- A character that `parse_value` appends to the value as it is: neither CR nor
whitespace nor a control character. -/
def value_char (h : http_hh) (ch : Char) : Bool :=
  ch != '\r' && ch != ' ' && ch != '\t' && !h.is_ctl ch

/-- The characters of a value that `parse_value` reads back unchanged: value characters
and single spaces, a space only between two value characters.  `inner` says that a value
character came before. -/
def value_chars_ok (h : http_hh) : Bool → List Char → Bool
  | _, [] => true
  | inner, ch :: rest =>
    if ch = ' ' then
      inner &&
        (match rest with
         | [] => false
         | ch1 :: rest1 => value_char h ch1 && value_chars_ok h true rest1)
    else
      value_char h ch && value_chars_ok h true rest

/-- A value that `parse_value` reads back unchanged. -/
def value_ok (h : http_hh) (value : String) : Bool :=
  value_chars_ok h false value.data

/-- A key that the parser reads back unchanged: not empty, made of token characters
other than `':'`, and not starting with CR (which `parse_headers` takes for the end of
the block) or with a space or tab (which `parse_value` takes for the continuation of the
line before). -/
def key_ok (h : http_hh) (key : String) : Bool :=
  match key.data with
  | [] => false
  | first_ch :: rest =>
    first_ch != '\r' && first_ch != ' ' && first_ch != '\t' && h.is_token first_ch &&
      first_ch != ':' && rest.all (fun ch => ch != ':' && h.is_token ch)

/-- A header line that is read back as it is and within the limits of key and value. -/
def header_ok (h : http_hh) (pair : String × String) : Bool :=
  key_ok h pair.1 && decide (pair.1.length ≤ h.max_header_key_length) &&
    value_ok h pair.2 && decide (pair.2.length ≤ h.max_header_value_length)

/-- The keys of the headers are pairwise different, also when letter case is ignored. -/
def keys_distinct (headers : List (String × String)) : Prop :=
  ((stored headers).map Prod.fst).Nodup

instance (headers : List (String × String)) : Decidable (keys_distinct headers) := by
  unfold keys_distinct
  infer_instance

/-- The invariant of `header_map` that its inserting members keep: every key is stored in
normalized form, and once. -/
def header_map.wf (m : header_map) : Prop :=
  (∀ pair ∈ m.map, normalize_key pair.1 = pair.1) ∧ (m.map.map Prod.fst).Nodup

instance (m : header_map) : Decidable m.wf := by
  unfold header_map.wf
  infer_instance

/-- Limits and character classes to run the parser with: at most 2 headers, keys of at
most 3 and values of at most 4 characters; tokens are the letters, digits and `-`;
control characters are those below 32 and 127. -/
def example_hh : http_hh :=
  { max_header_key_length := 3
    max_header_value_length := 4
    max_header_count := 2
    is_token := fun ch => ch.isAlphanum || ch == '-'
    is_ctl := fun ch => decide (ch.toNat < 32) || ch == '\x7f' }

/-! ## handler.cc : get_cgi_params

The declarations of `handle_context`, `http_response` and `http_response_writer` are not
part of the sources at hand; they are embedded with the members that `handler.cc` uses. -/

/-- The loop of `get_cgi_params` over the characters of a header key: every character is
pushed onto `key`, `'-'` as `'_'` and any other one through `std::toupper`. -/
def cgi_header_key_loop (key : String) : List Char → String
  | [] => key
  | ch :: rest => cgi_header_key_loop (key.push (if ch = '-' then '_' else ch.toUpper)) rest

/-- The loop of `get_cgi_params` over the request's header map: one pair per header. -/
def cgi_header_params : List (String × String) → List (String × String)
  | [] => []
  | (http_key, http_value) :: rest =>
    (cgi_header_key_loop "HTTP_" http_key.data, http_value) :: cgi_header_params rest

/-- `get_cgi_params(context, path)`: the pairs the generator yields, in order.  The
request is the one of the context.  `none` stands for the use of the null pointer that
`uri().get<uri_origin>()` returns for a target that has no origin form. -/
def get_cgi_params (request : http_request) (path : String) : Option (List (String × String)) :=
  match request.uri with
  | uri.other _ => none
  | uri.origin org =>
    some
      ([("REQUEST_METHOD", request.method),
        ("SCRIPT_FILENAME", path),
        ("PATH_INFO", org.path),
        ("REDIRECT_STATUS", "200")]
      ++ (match org.query with
          | some query => [("QUERY_STRING", query)]
          | none => [])
      ++ (if request.has_header "Content-Length" then
            match request.header "Content-Length" with
            | some value => [("CONTENT_LENGTH", value)]
            | none => []
          else [])
      ++ (if request.has_header "Content-Type" then
            match request.header "Content-Type" with
            | some value => [("CONTENT_TYPE", value)]
            | none => []
          else [])
      ++ cgi_header_params request.header_map.map)

/-- The key the claim gives for a request header: `HTTP_` followed by the header's key
with every `'-'` replaced by `'_'` and every other character in upper case. -/
def cgi_header_key_spec (http_key : String) : String :=
  "HTTP_" ++ String.mk (http_key.data.map (fun ch => if ch = '-' then '_' else ch.toUpper))

/-! ## handler.cc : handle_cgi -/

/-- `std::isspace` in the "C" locale. -/
def isspace (ch : Char) : Bool :=
  ch == ' ' || ch == '\t' || ch == '\n' || ch == '\x0b' || ch == '\x0c' || ch == '\r'

/-- The value of a run of decimal digits. -/
def digits_value (digits : List Char) : Nat :=
  digits.foldl (fun n d => 10 * n + (d.toNat - '0'.toNat)) 0

/-- `std::stoi(str)`: leading whitespace is skipped, an optional sign and the longest run
of decimal digits are read; `none` stands for the `std::invalid_argument` thrown when
there is no digit.  (The strings it is applied to have at most 3 characters, so the
result is in range.) -/
def stoi (str : String) : Option Int :=
  match str.data.dropWhile isspace with
  | '-' :: rest =>
    if rest.takeWhile Char.isDigit = [] then none
    else some (- (digits_value (rest.takeWhile Char.isDigit) : Int))
  | '+' :: rest =>
    if rest.takeWhile Char.isDigit = [] then none
    else some (digits_value (rest.takeWhile Char.isDigit) : Int)
  | rest =>
    if rest.takeWhile Char.isDigit = [] then none
    else some (digits_value (rest.takeWhile Char.isDigit) : Int)

/-- `str.substr(0, 3)`. -/
def substr_0_3 (str : String) : String :=
  String.mk (str.data.take 3)

/-- Modelled from the spec: `http_response` (declared outside the sources at hand), a
response with its code and the headers set on it. -/
structure http_response where
  code : Int
  headers : header_map
  deriving DecidableEq

/-- Modelled from the spec: `http_response::set_header` (defined outside the sources at
hand) stores the value under the key in the response's header map. -/
def http_response.set_header (response : http_response) (key value : String) : http_response :=
  { response with headers := (response.headers.insert_or_assign key value).1 }

/-- What the client's connection has received: the responses sent on it, each with the
index of the try-files candidate whose output is piped after it as the body. -/
abbrev client_stream := List (http_response × Nat)

/-- Modelled from the spec: `http_response_writer` (declared outside the sources at
hand), the single-use response emitter of a connection; a value of it stands for the
right to send one response on the client's connection. -/
structure http_response_writer where
  connection : Unit := ()
  deriving DecidableEq

/-- What `handle_cgi` has done: the candidates whose backend was run (by index, in
order) and what the client has received. -/
structure cgi_effects where
  ran : List Nat
  client : client_stream
  deriving DecidableEq

/-- How `handle_cgi` fails: with the exception of `std::stoi`. -/
inductive cgi_failure where
  | invalid_argument
  deriving DecidableEq

/-- `handle_cgi_response(istream, writer, is_last)`: `cgi_headers` is the result of
`parse_cgi(istream)` (the local `header_map`), `candidate` names the backend the stream
belongs to.  Returns the writer (or `nullopt`) and the client's stream. -/
def handle_cgi_response (cgi_headers : header_map) (candidate : Nat)
    (writer : http_response_writer) (is_last : Bool) (client : client_stream) :
    Except cgi_failure (Option http_response_writer × client_stream) :=
  let code_result : Except cgi_failure Int :=
    if cgi_headers.contains "Status" then
      match cgi_headers.at "Status" with
      | some status =>
        match stoi (substr_0_3 status) with
        | some code => .ok code
        | none => .error .invalid_argument
      | none => .error .invalid_argument
    else .ok 200
  match code_result with
  | .error e => .error e
  | .ok code =>
    let response : http_response := ⟨code, header_map.empty⟩
    let response :=
      if cgi_headers.contains "Location" then
        match cgi_headers.at "Location" with
        | some value => response.set_header "Location" value
        | none => response
      else response
    let response :=
      if cgi_headers.contains "Content-Type" then
        match cgi_headers.at "Content-Type" with
        | some value => response.set_header "Content-Type" value
        | none => response
      else response
    if code ≠ 404 ∨ is_last = true then
      .ok (none, client ++ [(response, candidate)])
    else
      .ok (some writer, client)

/-- The loop of `handle_cgi`: `i` is the loop counter, the list holds
`try_files[i], try_files[i+1], ...`; `size` is `try_files.size()`.  `backend i path` is
the header block that the backend run for candidate `i` sends (through the spawned
command or the FastCGI connection). -/
def handle_cgi_loop (backend : Nat → String → header_map) (size : Nat) :
    Nat → List String → http_response_writer → cgi_effects → Except cgi_failure cgi_effects
  | _, [], _, effects => .ok effects
  | i, path :: rest, writer, effects =>
    let is_last : Bool := i == size - 1
    match handle_cgi_response (backend i path) i writer is_last effects.client with
    | .error e => .error e
    | .ok (some writer1, client) =>
      handle_cgi_loop backend size (i + 1) rest writer1 ⟨effects.ran ++ [i], client⟩
    | .ok (none, client) => .ok ⟨effects.ran ++ [i], client⟩

/-- `handle_cgi(writer, context)`, for a context with the given try-files list. -/
def handle_cgi (backend : Nat → String → header_map) (try_files : List String)
    (writer : http_response_writer) : Except cgi_failure cgi_effects :=
  handle_cgi_loop backend try_files.length 0 try_files writer ⟨[], []⟩

/-- The derived status of a backend header block, in the words of the claim: the first
three characters of its `Status` header read as a number, and 200 when `Status` is
absent; `none` when they are not a number. -/
def derived_status (cgi_headers : header_map) : Option Int :=
  match cgi_headers.at "Status" with
  | some status => stoi (substr_0_3 status)
  | none => some 200

/-- The response `handle_cgi_response` builds from a header block with the given code:
the code, and the block's `Location` and `Content-Type` when present. -/
def cgi_response (cgi_headers : header_map) (code : Int) : http_response :=
  let response : http_response := ⟨code, header_map.empty⟩
  let response :=
    match cgi_headers.at "Location" with
    | some value => response.set_header "Location" value
    | none => response
  match cgi_headers.at "Content-Type" with
  | some value => response.set_header "Content-Type" value
  | none => response

/-- The candidate the claim names: the first one whose derived status is not 404, the
last one when all are 404. -/
def chosen_candidate (statuses : List (Option Int)) : Nat :=
  min (statuses.findIdx (fun s => s != some 404)) (statuses.length - 1)

/-- The header block with the single header `Status`. -/
def status_block (status : String) : header_map :=
  ⟨[("Status", status)]⟩

/-- Two candidates: the backend of the first answers `Status: 404 Not Found`, the one of
the second `Status: 200 OK`. -/
def example_backend (i : Nat) (_path : String) : header_map :=
  if i = 0 then status_block "404 Not Found" else status_block "200 OK"

/-- The derived statuses of the candidates `try_files[i], try_files[i+1], ...`, the list
being what is left of `try_files` from index `i` on. -/
def candidate_statuses (backend : Nat → String → header_map) :
    Nat → List String → List (Option Int)
  | _, [] => []
  | i, path :: rest => derived_status (backend i path) :: candidate_statuses backend (i + 1) rest

/-! ## handler.cc : the FastCGI PARAMS stream

An output stream is embedded as the list of the bytes written to it, a byte as its value
(`0..255`); a character of a `std::string` is the byte of its code. -/

/-- Modelled from the spec: `write_u32_be` (`cobra/serde.hh`, not part of the sources at
hand) takes a 32-bit unsigned value, so its argument is reduced modulo `2 ^ 32`, and
writes it as four bytes, the most significant first. -/
def write_u32_be (stream : List Nat) (value : Nat) : List Nat :=
  stream ++
    [(value % 2 ^ 32) / 2 ^ 24 % 256, (value % 2 ^ 32) / 2 ^ 16 % 256,
     (value % 2 ^ 32) / 2 ^ 8 % 256, (value % 2 ^ 32) % 256]

/-- `ostream.write_all(data.data(), data.size())`: the bytes of the string. -/
def write_all (stream : List Nat) (data : String) : List Nat :=
  stream ++ data.data.map Char.toNat

/-- The body of the loop of `handle_cgi` over `get_cgi_params(context, path)` on a
FastCGI connection: the four writes to `fcgi_pstream` for one pair. -/
def write_fcgi_param (fcgi_pstream : List Nat) (key value : String) : List Nat :=
  let s1 := write_u32_be fcgi_pstream (key.length ||| 0x80000000)
  let s2 := write_u32_be s1 (value.length ||| 0x80000000)
  let s3 := write_all s2 key
  write_all s3 value

/-- The loop of `handle_cgi` over `get_cgi_params(context, path)` on a FastCGI
connection. -/
def write_fcgi_params (fcgi_pstream : List Nat) : List (String × String) → List Nat
  | [] => fcgi_pstream
  | (key, value) :: rest => write_fcgi_params (write_fcgi_param fcgi_pstream key value) rest

/-- The four bytes of a number below `2 ^ 32`, the most significant first. -/
def u32_be (n : Nat) : List Nat :=
  [n / 2 ^ 24 % 256, n / 2 ^ 16 % 256, n / 2 ^ 8 % 256, n % 256]

/-- The number four bytes stand for, the most significant first. -/
def u32_of_be : List Nat → Nat
  | [b3, b2, b1, b0] => b3 * 2 ^ 24 + b2 * 2 ^ 16 + b1 * 2 ^ 8 + b0
  | _ => 0

/-- The length prefix the claim gives: a single byte for a length below 128, otherwise
four bytes, big-endian, of the length with the high bit set. -/
def fcgi_length_spec (length : Nat) : List Nat :=
  if length < 128 then [length] else u32_be (length + 0x80000000)

/-! ## asyncio/event_loop.cc : epoll_event_loop

The declarations of `cobra/asyncio/event_loop.hh` are not part of the sources at hand.
File descriptors are integers, a `time_point` is the number of ticks of `clock` since its
epoch, and a future (`event_handle<void>`) is named by a number. -/

/-- Modelled from the spec: `poll_type` (declared outside the sources at hand), the
direction of a waiter. -/
inductive poll_type where
  | read
  | write
  deriving DecidableEq, Repr

/-- `poll_type operator!(poll_type type)`. -/
def poll_type.not (type : poll_type) : poll_type :=
  if type = poll_type.read then poll_type.write else poll_type.read

/-- Modelled from the spec: `timed_future` (declared outside the sources at hand), a
waiter: the future to complete and the optional deadline. -/
structure timed_future where
  future : Nat
  timeout : Option Nat
  deriving DecidableEq, Repr

/-- Modelled from the spec: `std::unordered_map<int, timed_future>`, embedded as an
association list with one entry per key; a new key is added at the back. -/
abbrev event_map := List (Int × timed_future)

/-- `map.find(fd)`. -/
def event_map_find (fd : Int) : event_map → Option timed_future
  | [] => none
  | (k, v) :: rest => if k = fd then some v else event_map_find fd rest

/-- `map.contains(fd)`. -/
def event_map_contains (fd : Int) (map : event_map) : Bool :=
  (event_map_find fd map).isSome

/-- `map.emplace(std::make_pair(fd, value))`: the new map and `.second`, which is false
when the key is already there (the map is then left as it is). -/
def event_map_emplace (fd : Int) (value : timed_future) (map : event_map) : event_map × Bool :=
  if event_map_contains fd map then (map, false) else (map ++ [(fd, value)], true)

/-- `map.erase(fd)`. -/
def event_map_erase (fd : Int) : event_map → event_map
  | [] => []
  | (k, v) :: rest => if k = fd then event_map_erase fd rest else (k, v) :: event_map_erase fd rest

/-- `EPOLLIN` of `<sys/epoll.h>`. -/
def EPOLLIN : Nat := 0x001

/-- `EPOLLOUT` of `<sys/epoll.h>`. -/
def EPOLLOUT : Nat := 0x004

/-- Modelled from the spec: `event_to_epoll` (defined outside the sources at hand) gives
the epoll event of a direction, `EPOLLIN` for read and `EPOLLOUT` for write. -/
def event_to_epoll (type : poll_type) : Nat :=
  match type with
  | poll_type.read => EPOLLIN
  | poll_type.write => EPOLLOUT

/-- The operation of an `epoll_ctl` call. -/
inductive epoll_op where
  | EPOLL_CTL_ADD
  | EPOLL_CTL_MOD
  | EPOLL_CTL_DEL
  deriving DecidableEq, Repr

/-- An `epoll_ctl` call on `_epoll_fd`: the operation, the fd and the events of the
`epoll_event` passed (0 for the `nullptr` of a deletion). -/
structure epoll_ctl_call where
  op : epoll_op
  fd : Int
  events : Nat
  deriving DecidableEq, Repr

/-- The interest list of the epoll instance: the registered fds with their event mask. -/
abbrev epoll_interest := List (Int × Nat)

/-- The mask an fd is registered with, `none` for an fd that is not registered. -/
def interest_find (fd : Int) : epoll_interest → Option Nat
  | [] => none
  | (k, v) :: rest => if k = fd then some v else interest_find fd rest

/-- The interest list without the fd. -/
def interest_erase (fd : Int) : epoll_interest → epoll_interest
  | [] => []
  | (k, v) :: rest => if k = fd then interest_erase fd rest else (k, v) :: interest_erase fd rest

/-- The kernel side of `epoll_ctl(2)` on the interest list: `none` is the return value
`-1`.  Adding a registered fd fails (`EEXIST`), changing or deleting an fd that is not
registered fails (`ENOENT`). -/
def kernel_epoll_ctl (interest : epoll_interest) (call : epoll_ctl_call) :
    Option epoll_interest :=
  match call.op with
  | epoll_op.EPOLL_CTL_ADD =>
    if (interest_find call.fd interest).isSome then none
    else some (interest ++ [(call.fd, call.events)])
  | epoll_op.EPOLL_CTL_MOD =>
    if (interest_find call.fd interest).isSome then
      some (interest_erase call.fd interest ++ [(call.fd, call.events)])
    else none
  | epoll_op.EPOLL_CTL_DEL =>
    if (interest_find call.fd interest).isSome then some (interest_erase call.fd interest)
    else none

/-- The state of an `epoll_event_loop` and of what it acts on: the two waiter maps, the
interest list of the epoll instance behind `_epoll_fd`, the `epoll_ctl` calls issued so
far, and the futures completed with a `timeout_exception` so far. -/
structure epoll_event_loop where
  _read_events : event_map
  _write_events : event_map
  interest : epoll_interest
  calls : List epoll_ctl_call
  timed_out : List Nat
  deriving DecidableEq, Repr

/-- The loop right after its construction. -/
def epoll_event_loop.empty : epoll_event_loop :=
  ⟨[], [], [], [], []⟩

/-- `get_map(type)`. -/
def epoll_event_loop.get_map (loop : epoll_event_loop) (type : poll_type) : event_map :=
  match type with
  | poll_type.read => loop._read_events
  | poll_type.write => loop._write_events

/-- An assignment through the reference `get_map(type)` returns. -/
def epoll_event_loop.set_map (loop : epoll_event_loop) (type : poll_type) (map : event_map) :
    epoll_event_loop :=
  match type with
  | poll_type.read => { loop with _read_events := map }
  | poll_type.write => { loop with _write_events := map }

/-- The exceptions the loop throws. -/
inductive loop_exception where
  | invalid_argument
  | errno_exception
  deriving DecidableEq, Repr

/-- The call `epoll_ctl(_epoll_fd.fd(), op, fd, &epoll_event)`: `sys` is the system call
(the interest list after it, or `none` for `-1`); the call is recorded, and the interest
list is the one the system call leaves. -/
def epoll_event_loop.epoll_ctl (sys : epoll_interest → epoll_ctl_call → Option epoll_interest)
    (loop : epoll_event_loop) (call : epoll_ctl_call) : Bool × epoll_event_loop :=
  match sys loop.interest call with
  | some interest => (true, { loop with interest := interest, calls := loop.calls ++ [call] })
  | none => (false, { loop with calls := loop.calls ++ [call] })

/-- `epoll_event_loop::add_event(event, timeout, future)`; `now` is the value of
`clock::now()`.  Returns the exception thrown, if any, and the state left. -/
def epoll_event_loop.add_event (sys : epoll_interest → epoll_ctl_call → Option epoll_interest)
    (now : Nat) (loop : epoll_event_loop) (event : Int × poll_type) (timeout : Option Nat)
    (future : Nat) : Option loop_exception × epoll_event_loop :=
  let timeout_point : Option Nat :=
    match timeout with
    | some duration => some (now + duration)
    | none => none
  let is_mod := event_map_contains event.1 (loop.get_map event.2.not)
  let emplaced := event_map_emplace event.1 ⟨future, timeout_point⟩ (loop.get_map event.2)
  if !emplaced.2 then
    (some loop_exception.invalid_argument, loop)
  else
    let loop1 := loop.set_map event.2 emplaced.1
    let rc :=
      if is_mod then
        loop1.epoll_ctl sys
          ⟨epoll_op.EPOLL_CTL_MOD, event.1, event_to_epoll event.2 ||| event_to_epoll event.2.not⟩
      else
        loop1.epoll_ctl sys ⟨epoll_op.EPOLL_CTL_ADD, event.1, event_to_epoll event.2⟩
    if !rc.1 then
      (some loop_exception.errno_exception,
        rc.2.set_map event.2 (event_map_erase event.1 (rc.2.get_map event.2)))
    else
      (none, rc.2)

/-- `epoll_event_loop::remove_event(event)`.  Returns the future (or `nullopt`) or the
exception thrown, and the state left. -/
def epoll_event_loop.remove_event (sys : epoll_interest → epoll_ctl_call → Option epoll_interest)
    (loop : epoll_event_loop) (event : Int × poll_type) :
    Except loop_exception (Option Nat) × epoll_event_loop :=
  let it := event_map_find event.1 (loop.get_map event.2)
  let is_mod := event_map_contains event.1 (loop.get_map event.2.not)
  match it with
  | none => (.ok none, loop)
  | some waiter =>
    let result := waiter.future
    let loop1 := loop.set_map event.2 (event_map_erase event.1 (loop.get_map event.2))
    let rc :=
      if is_mod then
        loop1.epoll_ctl sys ⟨epoll_op.EPOLL_CTL_MOD, event.1, event_to_epoll event.2.not⟩
      else
        loop1.epoll_ctl sys ⟨epoll_op.EPOLL_CTL_DEL, event.1, 0⟩
    if !rc.1 then
      (.error loop_exception.errno_exception, rc.2)
    else
      (.ok (some result), rc.2)

/-- `epoll_event_loop::remove_before(map, point)`: the map left and the futures on which
`set_exception(timeout_exception())` is called, in the order of the iteration.
`time_point_max` is `time_point::max()`. -/
def remove_before_map (time_point_max : Nat) (point : Nat) : event_map → event_map × List Nat
  | [] => ([], [])
  | (fd, waiter) :: rest =>
    let r := remove_before_map time_point_max point rest
    if waiter.timeout.getD time_point_max ≤ point then
      (r.1, waiter.future :: r.2)
    else
      ((fd, waiter) :: r.1, r.2)

/-- `epoll_event_loop::remove_before(point)`: first the read map, then the write map. -/
def epoll_event_loop.remove_before (time_point_max : Nat) (loop : epoll_event_loop)
    (point : Nat) : epoll_event_loop :=
  let r := remove_before_map time_point_max point loop._read_events
  let w := remove_before_map time_point_max point loop._write_events
  { loop with
    _read_events := r.1
    _write_events := w.1
    timed_out := loop.timed_out ++ r.2 ++ w.2 }

/-- The loop of `get_timeout(map)`; `timeout` is the local variable. -/
def get_timeout_loop (timeout : Option Nat) : event_map → Option Nat
  | [] => timeout
  | (_, future) :: rest =>
    match future.timeout with
    | some deadline =>
      match timeout with
      | some current =>
        if deadline < current then get_timeout_loop (some deadline) rest
        else get_timeout_loop (some current) rest
      | none => get_timeout_loop (some deadline) rest
    | none => get_timeout_loop timeout rest

/-- `epoll_event_loop::get_timeout(map)`. -/
def get_timeout_map (map : event_map) : Option Nat :=
  get_timeout_loop none map

/-- `epoll_event_loop::get_timeout()`.  (The local `write` holds the result for the read
map and `read` the one for the write map, as in the source.) -/
def epoll_event_loop.get_timeout (loop : epoll_event_loop) : Option Nat :=
  let write := get_timeout_map (loop.get_map poll_type.read)
  let read := get_timeout_map (loop.get_map poll_type.write)
  match write, read with
  | some w, some r => some (min r w)
  | some w, none => some w
  | none, _ => read

/-- The loop of `poll()` over the events that `poll(10, timeout)` returned: for each
event `remove_event`, and for a future found the task scheduled on the executor that
calls `set_value` on it.  Returns the exception thrown, if any, the futures scheduled
and the state left. -/
def epoll_event_loop.poll_events (sys : epoll_interest → epoll_ctl_call → Option epoll_interest) :
    epoll_event_loop → List (Int × poll_type) → List Nat →
      Option loop_exception × List Nat × epoll_event_loop
  | loop, [], scheduled => (none, scheduled, loop)
  | loop, event :: events, scheduled =>
    match loop.remove_event sys event with
    | (.error e, loop1) => (some e, scheduled, loop1)
    | (.ok (some handle), loop1) =>
      epoll_event_loop.poll_events sys loop1 events (scheduled ++ [handle])
    | (.ok none, loop1) => epoll_event_loop.poll_events sys loop1 events scheduled

/-- The mask the waiter maps ask for on an fd: the OR of the directions for which the fd
has a waiter. -/
def epoll_event_loop.wanted (loop : epoll_event_loop) (fd : Int) : Nat :=
  (if event_map_contains fd loop._read_events then EPOLLIN else 0) |||
    (if event_map_contains fd loop._write_events then EPOLLOUT else 0)

/-- No leaked registration on an fd: an fd without a waiter is not registered, and an fd
with a waiter is registered with the OR of its waiters' directions. -/
def epoll_event_loop.registered_as_wanted (loop : epoll_event_loop) (fd : Int) : Prop :=
  interest_find fd loop.interest = (if loop.wanted fd = 0 then none else some (loop.wanted fd))

instance (loop : epoll_event_loop) (fd : Int) : Decidable (loop.registered_as_wanted fd) := by
  unfold epoll_event_loop.registered_as_wanted
  infer_instance

/-- A waiter is expired at `now`: it has a deadline and the deadline is not after `now`. -/
def timed_future.expired (now : Nat) (waiter : timed_future) : Bool :=
  match waiter.timeout with
  | some deadline => decide (deadline ≤ now)
  | none => false

/-- A loop with a read waiter (future 1, deadline 40) and a write waiter (future 2, no
deadline) on fd 3 and a read waiter (future 5, deadline 90) on fd 4, all registered. -/
def example_loop : epoll_event_loop :=
  { _read_events := [(3, ⟨1, some 40⟩), (4, ⟨5, some 90⟩)]
    _write_events := [(3, ⟨2, none⟩)]
    interest := [(3, 5), (4, 1)]
    calls := []
    timed_out := [] }

/-- The `epoll_ctl` call that `add_event` issues for a new waiter: a change to both
directions when the fd has a waiter of the opposite direction, otherwise an addition. -/
def epoll_event_loop.add_event_call (loop : epoll_event_loop) (event : Int × poll_type) :
    epoll_ctl_call :=
  if event_map_contains event.1 (loop.get_map event.2.not) then
    ⟨epoll_op.EPOLL_CTL_MOD, event.1, event_to_epoll event.2 ||| event_to_epoll event.2.not⟩
  else
    ⟨epoll_op.EPOLL_CTL_ADD, event.1, event_to_epoll event.2⟩

/-! ## task.hh : the completion handoff

The awaiting side runs `task::await_ready` and, when that returns `false`,
`task::await_suspend`; the completing side is the awaited task, which ends in
`task_final_suspend::await_suspend`.  Each access to the promise (`flag().test()`,
`set_next`, `flag().test_and_set()`, `next().resume()`) is one atomic action, and the two
sides are interleaved in any order (`std::atomic_flag` operations are sequentially
consistent). -/

/-- Modelled from the spec: `HTTP_BAD_REQUEST` (declared outside the sources at hand). -/
def HTTP_BAD_REQUEST : Int := 400

/-- Modelled from the spec: `HTTP_NOT_FOUND` (declared outside the sources at hand). -/
def HTTP_NOT_FOUND : Int := 404

/-- Modelled from the spec: `HTTP_INTERNAL_SERVER_ERROR` (declared outside the sources
at hand). -/
def HTTP_INTERNAL_SERVER_ERROR : Int := 500

/-- What is thrown inside the `try` block of `on_connect`, by the `catch` clause that
takes it. -/
inductive thrown where
  | http_parse_error
  | uri_parse_error
  | std_exception
  | unknown
  deriving DecidableEq, Repr

/-- Who invokes `send` on the request's writer. -/
inductive sender where
  | on_connect
  | handler
  deriving DecidableEq, Repr

/-- What the call of `handle_request` does with the writer it is given: the codes of the
responses it sends, and the exception it ends with, if any. -/
structure handler_result where
  sent : List Int
  failure : Option thrown
  deriving DecidableEq, Repr

/-- What `on_connect` does: the `send` calls on the request's writer, in order, each with
who made it and the code sent, and the filter `handle_request` was invoked with (as the
path of child indices from the server's root filter), if it was invoked. -/
structure on_connect_effects where
  sends : List (sender × Int)
  handled : Option (List Nat)
  deriving DecidableEq, Repr

/-- Modelled from the spec: `http_response_writer::send` (declared outside the sources at
hand), as `on_connect` invokes it on the request's writer: the call is recorded on the
connection with the code of the response. -/
def on_connect_effects.send (effects : on_connect_effects) (code : Int) : on_connect_effects :=
  { effects with sends := effects.sends ++ [(sender.on_connect, code)] }

/-- How the `try` block of `on_connect` is left: by `co_return`, by reaching its end, or
by an exception. -/
inductive try_exit where
  | co_return
  | fell_through
  | caught (e : thrown)
  deriving DecidableEq, Repr

/-- The `try` block of `server::on_connect`.  `srv` is the server (its root filter),
`parsed` the outcome of `co_await parse_http_request(socket_istream)`, `normalize` the
function `uri_abs_path::normalize` applied to the path of the origin form, and
`handle_request` what the call of `server::handle_request` does.  The pointer `match`
returns is the node at the returned path, which always exists. -/
def server.on_connect_try (srv : http_filter) (socket : basic_socket_stream)
    (parsed : Except thrown http_request)
    (normalize : String → Except thrown uri_abs_path)
    (handle_request : http_filter → http_request → uri_abs_path → handler_result) :
    on_connect_effects × try_exit :=
  match parsed with
  | .error e => (⟨[], none⟩, try_exit.caught e)
  | .ok request =>
    match request.uri with
    | uri.other _ =>
      (on_connect_effects.send ⟨[], none⟩ HTTP_BAD_REQUEST, try_exit.co_return)
    | uri.origin org =>
      match normalize org.path with
      | .error e => (⟨[], none⟩, try_exit.caught e)
      | .ok normalized =>
        match srv.«match» socket request normalized with
        | none => (on_connect_effects.send ⟨[], none⟩ HTTP_NOT_FOUND, try_exit.co_return)
        | some p =>
          match srv.node_at p with
          | none => (on_connect_effects.send ⟨[], none⟩ HTTP_NOT_FOUND, try_exit.co_return)
          | some filter =>
            match filter._config.handler with
            | none =>
              (on_connect_effects.send ⟨[], none⟩ HTTP_NOT_FOUND, try_exit.co_return)
            | some _ =>
              let result := handle_request filter request normalized
              (⟨result.sent.map (fun code => (sender.handler, code)), some p⟩,
                match result.failure with
                | some e => try_exit.caught e
                | none => try_exit.fell_through)

/-- `server::on_connect`: the `try` block, the flags `bad_request` and `unknown_error`
that the `catch` clauses set, and the `send` that follows them. -/
def server.on_connect (srv : http_filter) (socket : basic_socket_stream)
    (parsed : Except thrown http_request)
    (normalize : String → Except thrown uri_abs_path)
    (handle_request : http_filter → http_request → uri_abs_path → handler_result) :
    on_connect_effects :=
  let r := server.on_connect_try srv socket parsed normalize handle_request
  match r.2 with
  | try_exit.co_return => r.1
  | try_exit.fell_through => r.1
  | try_exit.caught e =>
    let bad_request : Bool := e = thrown.http_parse_error || e = thrown.uri_parse_error
    let unknown_error : Bool := e = thrown.std_exception || e = thrown.unknown
    if bad_request then
      r.1.send HTTP_BAD_REQUEST
    else if unknown_error then
      r.1.send HTTP_INTERNAL_SERVER_ERROR
    else r.1

/-- A server with one filter, `/` with the static handler. -/
def example_server : http_filter :=
  http_filter.with_filters config.default
    [http_filter.mk_root ⟨[], [], [], some handler_config.static_file_config, none, none, []⟩]

/-- A handler that sends its `200` response and then fails with a `std::exception` (as
`handle_static` does when `pipe` fails after `send`). -/
def send_then_fail (_ : http_filter) (_ : http_request) (_ : uri_abs_path) : handler_result :=
  ⟨[200], some thrown.std_exception⟩

/-- A handler that sends its `200` response and returns. -/
def send_and_return (_ : http_filter) (_ : http_request) (_ : uri_abs_path) : handler_result :=
  ⟨[200], none⟩

/-- A normalization for the examples: the path `/` has no segments. -/
def example_normalize (_ : String) : Except thrown uri_abs_path :=
  .ok []

/-! ## server.cc : the residual path of handle_request, and handler.cc : handle_redirect -/

/-- `std::filesystem::path::append(source)` on a POSIX system, on the native strings: an
absolute `source` replaces the path; otherwise a separator is put in between unless the
path is empty or ends with one. -/
def fs_path_append (path source : String) : String :=
  if source.data.head? = some '/' then source
  else if path.data.getLast? = none ∨ path.data.getLast? = some '/' then path ++ source
  else path ++ "/" ++ source

/-- The loop of `handle_request` over `normalized[i]`, from `i = filt.match_count()`:
the list holds the segments still to append. -/
def handle_request_file_loop (file : String) : List String → String
  | [] => file
  | segment :: rest => handle_request_file_loop (fs_path_append file segment) rest

/-- The first statements of `server::handle_request`: the value of `file.string()` after
the loop. -/
def server.handle_request_file (filt : http_filter) (normalized : uri_abs_path) : String :=
  handle_request_file_loop "/" (normalized.drop filt._match_count)

/-- Modelled from the spec: `redirect_config` (declared outside the sources at hand)
with the members `handle_redirect` uses: `root()` and `code()`. -/
structure redirect_config where
  root : String
  code : Int
  deriving DecidableEq

/-- Modelled from the spec: `handle_context<redirect_config>` (declared outside the
sources at hand) with the members `handle_redirect` uses: `config()` and `file()`, the
latter being the `file.string()` that `handle_request` puts into a context. -/
structure redirect_context where
  config : redirect_config
  file : String
  deriving DecidableEq

/-- `handle_redirect(writer, context)`: the response it sends on the writer. -/
def handle_redirect (_writer : http_response_writer) (context : redirect_context) :
    http_response :=
  let path := context.config.root ++ context.file
  let response : http_response := ⟨context.config.code, header_map.empty⟩
  response.set_header "Location" path

/-- What path normalization leaves: no segment is empty and none contains a `/`. -/
def segments_normalized (segments : List String) : Prop :=
  ∀ segment ∈ segments, segment ≠ "" ∧ '/' ∉ segment.data

/-- The filter `/api` below the root `/` (its match count is 1). -/
def example_api_filter : http_filter :=
  http_filter.of_config 0 (location_config ["api"] [])

/-! ## server.cc : the calls of eval during match -/

mutual
/-- The calls of `eval` made during `match`, in the order `match` makes them, each given
by the node it is made on, as the path of child indices from the node `match` is called
on (`this` is the empty path).  `match` calls `eval` on `this` and, when it is true,
calls `match` on the children in order until one returns a node. -/
def http_filter.eval_calls (socket : basic_socket_stream) (request : http_request)
    (normalized : uri_abs_path) : http_filter → List (List Nat)
  | ⟨cfg, sub_filters, match_count⟩ =>
    [] ::
      (if http_filter.eval ⟨cfg, sub_filters, match_count⟩ socket request normalized then
        http_filter.eval_calls_sub_filters socket request normalized 0 sub_filters
      else
        [])
/-- The calls of `eval` made by the loop of `match` over `_sub_filters`; `i` is the index
of the first filter of the list among the children. -/
def http_filter.eval_calls_sub_filters (socket : basic_socket_stream) (request : http_request)
    (normalized : uri_abs_path) (i : Nat) : List http_filter → List (List Nat)
  | [] => []
  | filter :: rest =>
    (http_filter.eval_calls socket request normalized filter).map (fun p => i :: p) ++
      (match http_filter.«match» socket request normalized filter with
       | some _ => []
       | none => http_filter.eval_calls_sub_filters socket request normalized (i + 1) rest)
end

/-! # Theorems -/

/-! ## Character facts ("C" locale) -/

theorem char_cases (P : Char → Prop) (hlow : ∀ n : Fin 128, P (Char.ofNat n.val))
    (hhigh : ∀ c : Char, 128 ≤ c.toNat → P c) : ∀ c : Char, P c := by
  intro c
  by_cases h : c.toNat < 128
  · have := hlow ⟨c.toNat, h⟩
    simpa using this
  · exact hhigh c (by omega)

theorem toUpper_of_high (c : Char) (h : 128 ≤ c.toNat) : c.toUpper = c := by
  unfold Char.toUpper
  simp only
  rw [if_neg]
  omega

theorem toLower_of_high (c : Char) (h : 128 ≤ c.toNat) : c.toLower = c := by
  unfold Char.toLower
  simp only
  rw [if_neg]
  omega

theorem isAlpha_of_high (c : Char) (h : 128 ≤ c.toNat) : c.isAlpha = false := by
  have h1 : (128 : Nat) ≤ c.val.toNat := h
  simp only [Char.isAlpha, Char.isUpper, Char.isLower, Bool.or_eq_false_iff,
    Bool.and_eq_false_iff, decide_eq_false_iff_not, UInt32.le_def, ge_iff_le, BitVec.le_def,
    not_le]
  constructor
  · right
    show (90 : Nat) < c.val.toNat
    omega
  · right
    show (122 : Nat) < c.val.toNat
    omega

theorem isLower_of_high (c : Char) (h : 128 ≤ c.toNat) : c.isLower = false := by
  have h1 := isAlpha_of_high c h
  simp only [Char.isAlpha, Bool.or_eq_false_iff] at h1
  exact h1.2

theorem isAlpha_toUpper (c : Char) : c.toUpper.isAlpha = c.isAlpha := by
  revert c
  apply char_cases
  · decide
  · intro c h
    rw [toUpper_of_high c h]

theorem isAlpha_toLower (c : Char) : c.toLower.isAlpha = c.isAlpha := by
  revert c
  apply char_cases
  · decide
  · intro c h
    rw [toLower_of_high c h]

theorem toUpper_toUpper (c : Char) : c.toUpper.toUpper = c.toUpper := by
  revert c
  apply char_cases
  · decide
  · intro c h
    rw [toUpper_of_high c h, toUpper_of_high c h]

theorem toLower_toLower (c : Char) : c.toLower.toLower = c.toLower := by
  revert c
  apply char_cases
  · decide
  · intro c h
    rw [toLower_of_high c h, toLower_of_high c h]

theorem toUpper_toLower (c : Char) : c.toLower.toUpper = c.toUpper := by
  revert c
  apply char_cases
  · decide
  · intro c h
    rw [toLower_of_high c h]

theorem toLower_toUpper (c : Char) : c.toUpper.toLower = c.toLower := by
  revert c
  apply char_cases
  · decide
  · intro c h
    rw [toUpper_of_high c h]

theorem isLower_toUpper (c : Char) : c.toUpper.isLower = false := by
  revert c
  apply char_cases
  · decide
  · intro c h
    rw [toUpper_of_high c h]
    exact isLower_of_high c h

/-- The rewritten character of `normalize_key` is a letter exactly when the original is. -/
theorem isAlpha_normalized (b : Bool) (c : Char) :
    (if b then c.toLower else c.toUpper).isAlpha = c.isAlpha := by
  cases b
  · simpa using isAlpha_toUpper c
  · simpa using isAlpha_toLower c

theorem normalize_key_loop_length (b : Bool) (l : List Char) :
    (normalize_key_loop b l).length = l.length := by
  induction l generalizing b with
  | nil => rfl
  | cons c l ih => simp [normalize_key_loop, ih]

theorem normalize_key_loop_get (b : Bool) (l : List Char) (i : Nat) (h : i < l.length) :
    (normalize_key_loop b l)[i]? =
      some (if (if i = 0 then b else (l.getD (i - 1) ' ').isAlpha)
              then (l.getD i ' ').toLower else (l.getD i ' ').toUpper) := by
  induction l generalizing b i with
  | nil => simp at h
  | cons c l ih =>
    cases i with
    | zero => simp [normalize_key_loop]
    | succ j =>
      have hj : j < l.length := by simpa using h
      simp only [normalize_key_loop, List.getElem?_cons_succ]
      rw [ih _ j hj, isAlpha_normalized]
      cases j with
      | zero => simp
      | succ k => simp

/-- C4: `normalize_key k` has the length of `k`; its character at position `i` is the
upper-case form of `k[i]` when `i = 0` or `k[i-1]` is not an ASCII letter and the
lower-case form of `k[i]` otherwise; and `"accept-encoding"` becomes `"Accept-Encoding"`. -/
theorem normalize_key_spec (k : String) :
    (normalize_key k).length = k.length ∧
    (∀ (i : Nat) (h : i < k.data.length),
      (normalize_key k).data[i]? =
        some (if i = 0 ∨ (k.data.get ⟨i - 1, by omega⟩).isAlpha = false
                then (k.data.get ⟨i, h⟩).toUpper else (k.data.get ⟨i, h⟩).toLower)) ∧
    normalize_key "accept-encoding" = "Accept-Encoding" := by
  refine ⟨?_, ?_, by decide⟩
  · exact normalize_key_loop_length false k.data
  · intro i h
    have h1 : i - 1 < k.data.length := by omega
    simp only [normalize_key]
    rw [normalize_key_loop_get false k.data i h]
    simp only [List.getD_eq_getElem?_getD, List.getElem?_eq_getElem h, List.getElem?_eq_getElem h1, Option.getD_some, List.get_eq_getElem]
    by_cases h0 : i = 0
    · simp [h0]
    · cases hb : (k.data[i - 1]).isAlpha <;> simp [h0, hb]

theorem normalize_key_loop_idem (b : Bool) (l : List Char) :
    normalize_key_loop b (normalize_key_loop b l) = normalize_key_loop b l := by
  induction l generalizing b with
  | nil => rfl
  | cons c l ih =>
    simp only [normalize_key_loop]
    have h1 : (if b then (if b then c.toLower else c.toUpper).toLower
                else (if b then c.toLower else c.toUpper).toUpper)
              = (if b then c.toLower else c.toUpper) := by
      cases b
      · simpa using toUpper_toUpper c
      · simpa using toLower_toLower c
    rw [h1, ih]

theorem normalize_key_idem (k : String) : normalize_key (normalize_key k) = normalize_key k := by
  simp only [normalize_key]
  rw [normalize_key_loop_idem]

theorem normalize_key_loop_congr (b : Bool) (l1 l2 : List Char)
    (h : l1.map Char.toLower = l2.map Char.toLower) :
    normalize_key_loop b l1 = normalize_key_loop b l2 := by
  induction l1 generalizing b l2 with
  | nil =>
    cases l2 with
    | nil => rfl
    | cons c l2 => simp at h
  | cons c1 l1 ih =>
    cases l2 with
    | nil => simp at h
    | cons c2 l2 =>
      simp only [List.map_cons, List.cons.injEq] at h
      have hu : c1.toUpper = c2.toUpper := by
        rw [← toUpper_toLower c1, ← toUpper_toLower c2, h.1]
      have ha : c1.isAlpha = c2.isAlpha := by
        rw [← isAlpha_toLower c1, ← isAlpha_toLower c2, h.1]
      simp only [normalize_key_loop, isAlpha_normalized, hu, h.1, ha]
      rw [ih _ l2 h.2]

theorem normalize_key_congr (k1 k2 : String) (h : same_up_to_case k1 k2) :
    normalize_key k1 = normalize_key k2 := by
  simp only [normalize_key]
  rw [normalize_key_loop_congr false k1.data k2.data h]

/-- C5: header-map lookup is case-insensitive.  `contains` and `at` give the same result
on `k` and on `normalize_key k` (because `normalize_key` is idempotent), and the same
result on any two keys that differ only in ASCII letter case. -/
theorem header_lookup_case_insensitive (m : header_map) :
    (∀ k : String, m.contains k = m.contains (normalize_key k) ∧ m.at k = m.at (normalize_key k)) ∧
    (∀ k : String, normalize_key (normalize_key k) = normalize_key k) ∧
    (∀ k1 k2 : String, same_up_to_case k1 k2 →
      m.contains k1 = m.contains k2 ∧ m.at k1 = m.at k2) := by
  refine ⟨?_, normalize_key_idem, ?_⟩
  · intro k
    simp only [header_map.contains, header_map.at, normalize_key_idem, and_self]
  · intro k1 k2 h
    simp only [header_map.contains, header_map.at, normalize_key_congr k1 k2 h, and_self]

theorem map_find_emplace_same (f : String → String) (key value : String)
    (l : List (String × String)) :
    map_find key (map_emplace_or f key value l).1
      = some (match map_find key l with
              | some old => f old
              | none => value) := by
  induction l with
  | nil => simp [map_emplace_or, map_find]
  | cons kv l ih =>
    obtain ⟨k, v⟩ := kv
    by_cases h : k = key
    · simp [map_emplace_or, map_find, h]
    · simp [map_emplace_or, map_find, h, ih]

theorem map_emplace_snd (f : String → String) (key value : String)
    (l : List (String × String)) :
    (map_emplace_or f key value l).2
      = (match map_find key l with
         | some old => f old
         | none => value) := by
  induction l with
  | nil => simp [map_emplace_or, map_find]
  | cons kv l ih =>
    obtain ⟨k, v⟩ := kv
    by_cases h : k = key
    · simp [map_emplace_or, map_find, h]
    · simp [map_emplace_or, map_find, h, ih]

theorem map_find_emplace_other (f : String → String) (key value k2 : String)
    (l : List (String × String)) (hne : k2 ≠ key) :
    map_find k2 (map_emplace_or f key value l).1 = map_find k2 l := by
  induction l with
  | nil => simp [map_emplace_or, map_find, Ne.symm hne]
  | cons kv l ih =>
    obtain ⟨k, v⟩ := kv
    by_cases h : k = key
    · have h2 : ¬ k = k2 := fun e => hne (e ▸ h)
      simp [map_emplace_or, map_find, h, h2, Ne.symm hne]
    · by_cases h3 : k = k2
      · subst h3
        simp [map_emplace_or, map_find, h]
      · simp [map_emplace_or, map_find, h, h3, ih]

theorem map_emplace_length (f : String → String) (key value : String)
    (l : List (String × String)) :
    (map_emplace_or f key value l).1.length
      = if (map_find key l).isSome then l.length else l.length + 1 := by
  induction l with
  | nil => simp [map_emplace_or, map_find]
  | cons kv l ih =>
    obtain ⟨k, v⟩ := kv
    by_cases h : k = key
    · simp [map_emplace_or, map_find, h]
    · simp only [map_emplace_or, map_find, h, if_false, List.length_cons, ih]
      split <;> rfl

theorem push_space_append (old v : String) : (old.push ' ') ++ v = old ++ " " ++ v := by
  apply String.ext
  simp [String.data_append]

/-- C6: after `insert_or_append k v` the value stored under `normalize_key k` is
`old ++ " " ++ v` when the map held `old` under that key and `v` otherwise; the size
grows by one only in the second case; every entry under another key is unchanged; the
returned reference is the stored value. -/
theorem insert_or_append_spec (m : header_map) (k v : String) :
    (∀ old : String, map_find (normalize_key k) m.map = some old →
      map_find (normalize_key k) (m.insert_or_append k v).1.map = some (old ++ " " ++ v) ∧
      (m.insert_or_append k v).1.size = m.size) ∧
    (map_find (normalize_key k) m.map = none →
      map_find (normalize_key k) (m.insert_or_append k v).1.map = some v ∧
      (m.insert_or_append k v).1.size = m.size + 1) ∧
    (∀ k2 : String, k2 ≠ normalize_key k →
      map_find k2 (m.insert_or_append k v).1.map = map_find k2 m.map) ∧
    map_find (normalize_key k) (m.insert_or_append k v).1.map
      = some (m.insert_or_append k v).2 := by
  simp only [header_map.insert_or_append, header_map.size]
  refine ⟨?_, ?_, ?_, ?_⟩
  · intro old hold
    rw [map_find_emplace_same, map_emplace_length, hold]
    simp [push_space_append]
  · intro hnone
    rw [map_find_emplace_same, map_emplace_length, hnone]
    simp
  · intro k2 hne
    exact map_find_emplace_other _ _ _ _ _ hne
  · rw [map_find_emplace_same, map_emplace_snd]



/-! ## The matcher -/

theorem match_unfold (socket : basic_socket_stream) (request : http_request)
    (normalized : uri_abs_path) (f : http_filter) :
    f.«match» socket request normalized =
      if f.eval socket request normalized then
        (match http_filter.match_sub_filters socket request normalized 0 f._sub_filters with
         | some m => some m
         | none => some [])
      else none := by
  cases f
  simp only [http_filter.match]

theorem match_eq_none_iff (socket : basic_socket_stream) (request : http_request)
    (normalized : uri_abs_path) (f : http_filter) :
    f.«match» socket request normalized = none ↔ f.eval socket request normalized = false := by
  rw [match_unfold]
  cases h : f.eval socket request normalized
  · simp
  · simp only [if_true]
    cases http_filter.match_sub_filters socket request normalized 0 f._sub_filters <;> simp

theorem match_sub_filters_none (socket : basic_socket_stream) (request : http_request)
    (normalized : uri_abs_path) (i : Nat) (l : List http_filter) :
    http_filter.match_sub_filters socket request normalized i l = none ↔
      ∀ (j : Nat) (c : http_filter), l[j]? = some c → c.eval socket request normalized = false := by
  induction l generalizing i with
  | nil => simp [http_filter.match_sub_filters]
  | cons c l ih =>
    simp only [http_filter.match_sub_filters]
    cases hc : c.«match» socket request normalized with
    | none =>
      simp only [ih]
      have hc1 := (match_eq_none_iff socket request normalized c).1 hc
      constructor
      · intro h j d hj
        cases j with
        | zero => simp at hj; subst hj; exact hc1
        | succ j => exact h j d (by simpa using hj)
      · intro h j d hj
        exact h (j + 1) d (by simpa using hj)
    | some m =>
      simp only [reduceCtorEq, false_iff, not_forall]
      refine ⟨0, c, by simp, ?_⟩
      intro he
      have := (match_eq_none_iff socket request normalized c).2 he
      rw [hc] at this
      exact Option.noConfusion this

theorem match_sub_filters_some (socket : basic_socket_stream) (request : http_request)
    (normalized : uri_abs_path) (i : Nat) (l : List http_filter) (r : List Nat)
    (h : http_filter.match_sub_filters socket request normalized i l = some r) :
    ∃ j c p, r = (i + j) :: p ∧ l[j]? = some c ∧ c.«match» socket request normalized = some p ∧
      ∀ (j1 : Nat) (d : http_filter), j1 < j → l[j1]? = some d → d.eval socket request normalized = false := by
  induction l generalizing i with
  | nil => simp [http_filter.match_sub_filters] at h
  | cons c l ih =>
    simp only [http_filter.match_sub_filters] at h
    cases hc : c.«match» socket request normalized with
    | none =>
      rw [hc] at h
      simp only at h
      obtain ⟨j, d, p, hr, hj, hm, hlt⟩ := ih (i + 1) h
      refine ⟨j + 1, d, p, by rw [hr]; congr 1; omega, by simpa using hj, hm, ?_⟩
      intro j1 e hj1 he
      cases j1 with
      | zero =>
        simp at he
        subst he
        exact (match_eq_none_iff socket request normalized c).1 hc
      | succ j1 => exact hlt j1 e (by omega) (by simpa using he)
    | some m =>
      rw [hc] at h
      simp only [Option.some.injEq] at h
      refine ⟨0, c, m, by rw [← h]; rfl, by simp, hc, ?_⟩
      intro j1 d hj1
      omega

/-- What `match` returns, one level at a time: on the empty path no child evaluates
true; on `i :: p` the child `i` is the first that evaluates true and returns `p`. -/
theorem match_some_cases (socket : basic_socket_stream) (request : http_request)
    (normalized : uri_abs_path) (f : http_filter) (r : List Nat)
    (h : f.«match» socket request normalized = some r) :
    f.eval socket request normalized = true ∧
    ((r = [] ∧ ∀ (j : Nat) (c : http_filter), f._sub_filters[j]? = some c → c.eval socket request normalized = false) ∨
     (∃ i c p, r = i :: p ∧ f._sub_filters[i]? = some c ∧
        c.«match» socket request normalized = some p ∧
        ∀ (j : Nat) (d : http_filter), j < i → f._sub_filters[j]? = some d →
          d.eval socket request normalized = false)) := by
  rw [match_unfold] at h
  cases he : f.eval socket request normalized
  · rw [he] at h
    simp at h
  · rw [he] at h
    simp only [if_true] at h
    refine ⟨rfl, ?_⟩
    cases hs : http_filter.match_sub_filters socket request normalized 0 f._sub_filters with
    | none =>
      rw [hs] at h
      simp only [Option.some.injEq] at h
      exact Or.inl ⟨h.symm, (match_sub_filters_none socket request normalized 0 _).1 hs⟩
    | some m =>
      rw [hs] at h
      simp only [Option.some.injEq] at h
      subst h
      obtain ⟨j, c, p, hr, hj, hm, hlt⟩ := match_sub_filters_some socket request normalized 0 _ _ hs
      exact Or.inr ⟨j, c, p, by simpa using hr, hj, hm, hlt⟩

theorem is_matching_eval (socket : basic_socket_stream) (request : http_request)
    (normalized : uri_abs_path) (f : http_filter) (q : List Nat)
    (h : f.is_matching socket request normalized q = true) :
    f.eval socket request normalized = true := by
  cases q with
  | nil => exact h
  | cons i q =>
    simp only [http_filter.is_matching, Bool.and_eq_true] at h
    exact h.1

theorem match_is_matching (socket : basic_socket_stream) (request : http_request)
    (normalized : uri_abs_path) (p : List Nat) :
    ∀ f : http_filter, f.«match» socket request normalized = some p →
      f.is_matching socket request normalized p = true ∧
      ∀ i, f.is_matching socket request normalized (p ++ [i]) = false := by
  induction p with
  | nil =>
    intro f h
    obtain ⟨he, hcases⟩ := match_some_cases socket request normalized f [] h
    rcases hcases with ⟨_, hnone⟩ | ⟨i, c, p, hr, _⟩
    · refine ⟨he, ?_⟩
      intro i
      simp only [List.nil_append, http_filter.is_matching, he, Bool.true_and]
      cases hc : f._sub_filters[i]? with
      | none => rfl
      | some c => exact hnone i c hc
    · exact absurd hr (by simp)
  | cons i p ih =>
    intro f h
    obtain ⟨he, hcases⟩ := match_some_cases socket request normalized f (i :: p) h
    rcases hcases with ⟨hr, _⟩ | ⟨i1, c, p1, hr, hc, hm, _⟩
    · exact absurd hr (by simp)
    · simp only [List.cons.injEq] at hr
      obtain ⟨rfl, rfl⟩ := hr
      obtain ⟨h1, h2⟩ := ih c hm
      simp only [http_filter.is_matching, he, hc, Bool.true_and, List.cons_append]
      exact ⟨h1, h2⟩

theorem match_dfs_first (socket : basic_socket_stream) (request : http_request)
    (normalized : uri_abs_path) (p : List Nat) :
    ∀ (f : http_filter) (q : List Nat), f.«match» socket request normalized = some p →
      f.is_matching socket request normalized q = true →
      (∀ i, f.is_matching socket request normalized (q ++ [i]) = false) →
      dfs_le p q = true := by
  induction p with
  | nil => intro f q _ _ _; rfl
  | cons i p ih =>
    intro f q h hq hmax
    obtain ⟨he, hcases⟩ := match_some_cases socket request normalized f (i :: p) h
    rcases hcases with ⟨hr, _⟩ | ⟨i1, c, p1, hr, hc, hm, hlt⟩
    · exact absurd hr (by simp)
    · simp only [List.cons.injEq] at hr
      obtain ⟨rfl, rfl⟩ := hr
      cases q with
      | nil =>
        have := hmax i
        simp only [List.nil_append, http_filter.is_matching, he, hc, Bool.true_and] at this
        have hce := (match_eq_none_iff socket request normalized c).2 this
        rw [hm] at hce
        exact Option.noConfusion hce
      | cons j q =>
        simp only [http_filter.is_matching, he, Bool.true_and] at hq
        cases hd : f._sub_filters[j]? with
        | none => rw [hd] at hq; exact Bool.noConfusion hq
        | some d =>
          rw [hd] at hq
          simp only at hq
          simp only [dfs_le, Bool.or_eq_true, decide_eq_true_eq, Bool.and_eq_true, beq_iff_eq]
          rcases Nat.lt_trichotomy i j with hij | hij | hij
          · exact Or.inl hij
          · subst hij
            rw [hc] at hd
            simp only [Option.some.injEq] at hd
            subst hd
            refine Or.inr ⟨rfl, ih c q hm hq ?_⟩
            intro k
            have := hmax k
            simpa only [List.cons_append, http_filter.is_matching, he, hc, Bool.true_and]
              using this
          · have hde := hlt j d hij hd
            have := is_matching_eval socket request normalized d q hq
            rw [hde] at this
            exact Bool.noConfusion this

/-- C1 (as stated, refuted): in the tree `/` with children `/a` and `/a` (the second one
with a child `/b`), for the path `/a/b`, `match` returns the first child, which has depth
1, although the node `/b` below the second child is a matching node of depth 2. -/
theorem match_not_deepest :
    example_tree.«match» ⟨none⟩ (example_request "GET") ["a", "b"] = some [0] ∧
    example_tree.is_matching ⟨none⟩ (example_request "GET") ["a", "b"] [1, 0] = true ∧
    [0].length < [1, 0].length := by
  decide

/-- C1 (amended): `match` returns `nullptr` exactly when `eval` is false on the node it
is called on; otherwise it returns a matching node that has no matching child, and among
all matching nodes without a matching child the returned one is the first in declaration
(depth-first, child-list) order. -/
theorem match_first_maximal (socket : basic_socket_stream) (request : http_request)
    (normalized : uri_abs_path) (f : http_filter) :
    (f.«match» socket request normalized = none ↔ f.eval socket request normalized = false) ∧
    (∀ p : List Nat, f.«match» socket request normalized = some p →
      f.is_matching socket request normalized p = true ∧
      (∀ i, f.is_matching socket request normalized (p ++ [i]) = false) ∧
      (∀ q : List Nat, f.is_matching socket request normalized q = true →
        (∀ i, f.is_matching socket request normalized (q ++ [i]) = false) →
        dfs_le p q = true)) := by
  refine ⟨match_eq_none_iff socket request normalized f, ?_⟩
  intro p hp
  obtain ⟨h1, h2⟩ := match_is_matching socket request normalized p f hp
  exact ⟨h1, h2, fun q hq hmax => match_dfs_first socket request normalized p f q hp hq hmax⟩

/-! ## eval and the match count -/

theorem eval_location_iff (it parts : List String) :
    eval_location it parts = true ↔ parts <+: it := by
  induction parts generalizing it with
  | nil => simp [eval_location]
  | cons part parts ih =>
    cases it with
    | nil => simp [eval_location]
    | cons seg it =>
      simp only [eval_location, List.cons_prefix_cons]
      by_cases h : seg = part
      · subst h
        simp [ih]
      · have h2 : ¬ part = seg := fun e => h e.symm
        simp [h, h2]

/-- The three conditions of `eval`, for every filter node. -/
theorem eval_iff (f : http_filter) (socket : basic_socket_stream) (request : http_request)
    (normalized : uri_abs_path) :
    f.eval socket request normalized = true ↔
      (f._config.server_names = [] ∨ name_in socket request f._config.server_names) ∧
      f._config.location <+:
        normalized.drop (size_t_sub f._match_count f._config.location.length) ∧
      (f._config.methods = [] ∨ request.method ∈ f._config.methods) := by
  have hloc : (f._config.location.isEmpty = false ∧
        eval_location (normalized.drop (size_t_sub f._match_count f._config.location.length))
          f._config.location = false) ↔
      ¬ f._config.location <+:
        normalized.drop (size_t_sub f._match_count f._config.location.length) := by
    rw [← eval_location_iff]
    cases hl : f._config.location with
    | nil => simp [eval_location]
    | cons a l => simp
  have hname : (f._config.server_names.isEmpty = false ∧
      (match socket.server_name with
       | some name => !f._config.server_names.contains name
       | none =>
         !request.has_header "host" ||
           (match request.header "host" with
            | some host => !f._config.server_names.contains host
            | none => true)) = true) ↔
      ¬ (f._config.server_names = [] ∨ name_in socket request f._config.server_names) := by
    unfold name_in
    cases hs : f._config.server_names with
    | nil => simp
    | cons a l =>
      cases hn : socket.server_name with
      | some name => simp
      | none =>
        cases hh : request.header "host" with
        | none => simp
        | some host =>
          have : request.has_header "host" = true := by
            simp only [http_request.has_header, header_map.contains]
            simp only [http_request.header, header_map.at] at hh
            rw [hh]
            rfl
          simp [this]
  have hmeth : (f._config.methods.isEmpty = false ∧
      f._config.methods.contains request.method = false) ↔
      ¬ (f._config.methods = [] ∨ request.method ∈ f._config.methods) := by
    cases hm : f._config.methods with
    | nil => simp
    | cons a l => simp
  unfold http_filter.eval
  by_cases h1 : (f._config.server_names = [] ∨ name_in socket request f._config.server_names)
  · have h1n := (not_congr hname).2 (not_not.2 h1)
    by_cases h2 : f._config.location <+:
        normalized.drop (size_t_sub f._match_count f._config.location.length)
    · have h2n := (not_congr hloc).2 (not_not.2 h2)
      by_cases h3 : (f._config.methods = [] ∨ request.method ∈ f._config.methods)
      · have h3n := (not_congr hmeth).2 (not_not.2 h3)
        simp only [Bool.and_eq_true, Bool.not_eq_true', h1n, h2n, h3n, if_false, h1, h2, h3,
          and_self]
      · have h3n := hmeth.2 h3
        simp only [Bool.and_eq_true, Bool.not_eq_true', h1n, h2n, h3n, if_false, h1, h2, h3,
          and_self, if_true, and_false, Bool.false_eq_true]
    · have h2n := hloc.2 h2
      simp only [Bool.and_eq_true, Bool.not_eq_true', h1n, h2n, if_false, h1, h2,
          and_self, if_true, and_false, false_and, Bool.false_eq_true]
  · have h1n := hname.2 h1
    simp only [Bool.and_eq_true, Bool.not_eq_true', h1n, if_true, h1, false_and,
      Bool.false_eq_true, and_self]

theorem prefix_drop_append (A B N : List String) (mc : Nat) (hA : A <+: N.drop mc) :
    B <+: N.drop (mc + A.length) ↔ A ++ B <+: N.drop mc := by
  obtain ⟨t, ht⟩ := hA
  have h1 : N.drop (mc + A.length) = t := by
    rw [← List.drop_drop, ← ht, List.drop_left]
  rw [h1, ← ht, List.prefix_append_right_inj]

theorem size_t_sub_add (mc len : Nat) : size_t_sub (mc + len) len = mc := by
  unfold size_t_sub
  rw [if_pos (by omega)]
  omega

theorem of_config_config (mc : Nat) (cfg : config) : (http_filter.of_config mc cfg)._config = cfg := by
  cases cfg
  simp only [http_filter.of_config]

theorem of_config_match_count (mc : Nat) (cfg : config) :
    (http_filter.of_config mc cfg)._match_count = mc + cfg.location.length := by
  cases cfg
  simp only [http_filter.of_config]

theorem of_config_sub_filters (mc : Nat) (cfg : config) :
    (http_filter.of_config mc cfg)._sub_filters
      = http_filter.of_sub_configs (mc + cfg.location.length) cfg.sub_configs := by
  cases cfg
  simp only [http_filter.of_config]

theorem of_sub_configs_get (mc : Nat) (l : List config) (i : Nat) :
    (http_filter.of_sub_configs mc l)[i]? = (l[i]?).map (http_filter.of_config mc) := by
  induction l generalizing i with
  | nil => simp [http_filter.of_sub_configs]
  | cons c l ih =>
    cases i with
    | zero => simp [http_filter.of_sub_configs]
    | succ i => simp [http_filter.of_sub_configs, ih]

/-- In a tree built by the constructor from a config, a node whose proper ancestors all
evaluate true is itself built with, as inherited match count, the number of segments of
its ancestors' locations, and those segments are a prefix of the path. -/
theorem built_reached (socket : basic_socket_stream) (request : http_request)
    (normalized : uri_abs_path) (p : List Nat) :
    ∀ (mc : Nat) (cfg : config) (F : http_filter),
      (http_filter.of_config mc cfg).reached socket request normalized p = true →
      (http_filter.of_config mc cfg).node_at p = some F →
      (∃ cfg1, F = http_filter.of_config
          (mc + ((http_filter.of_config mc cfg).ancestor_locations p).flatten.length) cfg1) ∧
      ((http_filter.of_config mc cfg).ancestor_locations p).flatten <+: normalized.drop mc := by
  induction p with
  | nil =>
    intro mc cfg F _ hF
    simp only [http_filter.node_at, Option.some.injEq] at hF
    subst hF
    simp only [http_filter.ancestor_locations, List.flatten_nil, List.length_nil, Nat.add_zero,
      List.nil_prefix, and_true]
    exact ⟨cfg, rfl⟩
  | cons i p ih =>
    intro mc cfg F hr hF
    simp only [http_filter.reached, Bool.and_eq_true] at hr
    simp only [http_filter.node_at] at hF
    simp only [http_filter.ancestor_locations]
    rw [of_config_sub_filters, of_sub_configs_get] at hr hF ⊢
    obtain ⟨he, hr⟩ := hr
    have hloc := ((eval_iff _ socket request normalized).1 he).2.1
    rw [of_config_config, of_config_match_count, size_t_sub_add] at hloc
    rw [of_config_config]
    cases hc : cfg.sub_configs[i]? with
    | none =>
      simp [hc] at hF
    | some c =>
      simp only [hc, Option.map_some'] at hF hr ⊢
      obtain ⟨⟨cfg1, h1⟩, h2⟩ := ih (mc + cfg.location.length) c F hr hF
      constructor
      · refine ⟨cfg1, ?_⟩
        rw [h1, List.flatten_cons, List.length_append, Nat.add_assoc]
      · rw [List.flatten_cons]
        exact (prefix_drop_append _ _ _ mc hloc).1 h2

theorem is_matching_reached (socket : basic_socket_stream) (request : http_request)
    (normalized : uri_abs_path) (p : List Nat) :
    ∀ f : http_filter, f.is_matching socket request normalized p = true →
      f.reached socket request normalized p = true ∧
      ∃ F, f.node_at p = some F ∧ F.eval socket request normalized = true := by
  induction p with
  | nil =>
    intro f h
    exact ⟨rfl, f, rfl, h⟩
  | cons i p ih =>
    intro f h
    simp only [http_filter.is_matching, Bool.and_eq_true] at h
    simp only [http_filter.reached, http_filter.node_at, h.1, Bool.true_and]
    cases hc : f._sub_filters[i]? with
    | none =>
      rw [hc] at h
      exact absurd h.2 (by simp)
    | some c =>
      rw [hc] at h
      exact ih c h.2

theorem locations_along_eq (p : List Nat) :
    ∀ (f F : http_filter), f.node_at p = some F →
      f.locations_along p = f.ancestor_locations p ++ [F._config.location] := by
  induction p with
  | nil =>
    intro f F h
    simp only [http_filter.node_at, Option.some.injEq] at h
    subst h
    rfl
  | cons i p ih =>
    intro f F h
    simp only [http_filter.node_at] at h
    simp only [http_filter.locations_along, http_filter.ancestor_locations]
    cases hc : f._sub_filters[i]? with
    | none =>
      rw [hc] at h
      simp at h
    | some c =>
      rw [hc] at h
      simp only at h ⊢
      rw [ih c F h, List.cons_append]

/-- C2: in a tree built by `http_filter(config)`, when `match` returns the node `F`
then `F.match_count` is the sum of the location lengths of the nodes on the path from the
root to `F`, the path `N` has at least that many segments, and its first
`F.match_count` segments are the concatenation, root first, of those locations. -/
theorem match_count_spec (cfg : config) (socket : basic_socket_stream)
    (request : http_request) (normalized : uri_abs_path) (p : List Nat)
    (h : (http_filter.mk_root cfg).«match» socket request normalized = some p) :
    ∃ F : http_filter, (http_filter.mk_root cfg).node_at p = some F ∧
      F._match_count = (((http_filter.mk_root cfg).locations_along p).map List.length).sum ∧
      F._match_count ≤ normalized.length ∧
      normalized.take F._match_count = ((http_filter.mk_root cfg).locations_along p).flatten := by
  obtain ⟨hm, _⟩ := match_is_matching socket request normalized p _ h
  obtain ⟨hr, F, hF, he⟩ := is_matching_reached socket request normalized p _ hm
  unfold http_filter.mk_root at *
  obtain ⟨⟨cfg1, h1⟩, h2⟩ := built_reached socket request normalized p 0 cfg F hr hF
  have hloc := ((eval_iff _ socket request normalized).1 he).2.1
  have hmc : F._match_count
      = ((http_filter.of_config 0 cfg).ancestor_locations p).flatten.length
        + F._config.location.length := by
    rw [h1, of_config_match_count, of_config_config, Nat.zero_add]
  rw [hmc, size_t_sub_add] at hloc
  have h3 := (prefix_drop_append _ _ normalized 0 h2).1 (by simpa using hloc)
  rw [List.drop_zero] at h3
  have hfl : ((http_filter.of_config 0 cfg).locations_along p).flatten
      = ((http_filter.of_config 0 cfg).ancestor_locations p).flatten ++ F._config.location := by
    rw [locations_along_eq p _ F hF]
    simp
  have hlen : F._match_count = ((http_filter.of_config 0 cfg).locations_along p).flatten.length := by
    rw [hfl, List.length_append, hmc]
  refine ⟨F, hF, ?_, ?_, ?_⟩
  · rw [hlen, List.length_flatten]
  · rw [hlen, hfl]
    exact h3.length_le
  · rw [hlen, hfl]
    exact (List.prefix_iff_eq_take.1 h3).symm

/-- C2 at a concrete input: the tree built from `example_config` and the path `/a/b`,
where `match` returns the first child. -/
theorem match_count_spec_witness :
    ∃ F : http_filter, (http_filter.mk_root example_config).node_at [0] = some F ∧
      F._match_count
        = (((http_filter.mk_root example_config).locations_along [0]).map List.length).sum ∧
      F._match_count ≤ ["a", "b"].length ∧
      ["a", "b"].take F._match_count
        = ((http_filter.mk_root example_config).locations_along [0]).flatten :=
  match_count_spec example_config ⟨none⟩ (example_request "GET") ["a", "b"] [0] (by decide)

theorem take_append_prefix_iff (N loc : List String) (k : Nat) :
    N.take k ++ loc <+: N ↔ loc <+: N.drop k := by
  by_cases hk : k ≤ N.length
  · conv_lhs => rhs; rw [← List.take_append_drop k N]
    exact List.prefix_append_right_inj _
  · have h1 : N.take k = N := List.take_of_length_le (by omega)
    have h2 : N.drop k = [] := List.drop_of_length_le (by omega)
    rw [h1, h2, List.prefix_nil]
    constructor
    · intro h
      have := h.length_le
      rw [List.length_append] at this
      exact List.length_eq_zero.1 (by omega)
    · intro h
      rw [h, List.append_nil]

/-- C3: `eval` is true on a node `F` if and only if (a) its server-name set is empty or
contains the SNI name, or without SNI the value of the present `Host` header, (b) the
already-matched prefix (the first `match_count - location.size()` segments of the path)
extended by the node's location is a prefix of the path, and (c) its method set is empty
or contains the request method.  In a tree built by `http_filter(config)`, for a node all
of whose proper ancestors evaluate true, the subtraction does not wrap and the
already-matched prefix is the concatenation of the ancestors' locations. -/
theorem eval_spec (socket : basic_socket_stream) (request : http_request)
    (normalized : uri_abs_path) (F : http_filter) :
    (F.eval socket request normalized = true ↔
      (F._config.server_names = [] ∨ name_in socket request F._config.server_names) ∧
      (normalized.take (size_t_sub F._match_count F._config.location.length)
          ++ F._config.location <+: normalized) ∧
      (F._config.methods = [] ∨ request.method ∈ F._config.methods)) ∧
    (∀ (cfg : config) (p : List Nat),
      (http_filter.mk_root cfg).reached socket request normalized p = true →
      (http_filter.mk_root cfg).node_at p = some F →
      F._config.location.length ≤ F._match_count ∧
      normalized.take (size_t_sub F._match_count F._config.location.length)
        = ((http_filter.mk_root cfg).ancestor_locations p).flatten) := by
  constructor
  · rw [eval_iff, take_append_prefix_iff]
  · intro cfg p hr hF
    unfold http_filter.mk_root at *
    obtain ⟨⟨cfg1, h1⟩, h2⟩ := built_reached socket request normalized p 0 cfg F hr hF
    have hmc : F._match_count
        = ((http_filter.of_config 0 cfg).ancestor_locations p).flatten.length
          + F._config.location.length := by
      rw [h1, of_config_match_count, of_config_config, Nat.zero_add]
    rw [List.drop_zero] at h2
    refine ⟨by omega, ?_⟩
    rw [hmc, size_t_sub_add]
    exact (List.prefix_iff_eq_take.1 h2).symm

/-- C3 at a concrete input: the node `/b` below the second child of `example_config`,
for the path `/a/b`: it evaluates true, and its already-matched prefix is `/a`. -/
theorem eval_spec_witness :
    http_filter.eval ⟨location_config ["b"] [], [], 2⟩ ⟨none⟩ (example_request "GET")
        ["a", "b"] = true ∧
    ["a", "b"].take (size_t_sub 2 1) = ["a"] :=
  ⟨by decide,
   ((eval_spec ⟨none⟩ (example_request "GET") ["a", "b"] ⟨location_config ["b"] [], [], 2⟩).2
      example_config [1, 0] (by decide) rfl).2⟩


/-! ## The header parser -/

theorem isEmpty_eq_false_of_data (s : String) (c : Char) (l : List Char)
    (h : s.data = l ++ [c]) : s.isEmpty = false := by
  rw [Bool.eq_false_iff]
  intro he
  rw [String.isEmpty_iff] at he
  rw [he] at h
  simp at h

theorem isEmpty_push (s : String) (c : Char) : (s.push c).isEmpty = false :=
  isEmpty_eq_false_of_data _ c s.data (String.data_push s c)

theorem string_mk_data_append_nil (s : String) : String.mk (s.data ++ []) = s := by
  rw [List.append_nil]

theorem string_push_eq (s : String) (c : Char) : s.push c = String.mk (s.data ++ [c]) := by
  apply String.ext
  rw [String.data_push]

theorem parse_value_loop_cons (h : http_hh) (value : String) (had_ws : Bool) (ch : Char)
    (stream : List Char) :
    parse_value_loop h value had_ws (ch :: stream) =
    if ch = '\r' then
      match stream with
      | [] => .error .end_of_stream
      | ch1 :: stream1 =>
        if ch1 ≠ '\n' then
          .error (.http_error .bad_request)
        else
          match stream1 with
          | [] => .error .end_of_stream
          | ch2 :: stream2 =>
            if ch2 = ' ' ∨ ch2 = '\t' then
              parse_value_loop h value (!value.isEmpty) stream2
            else
              .ok ((value, ch2), stream2)
    else if ch = ' ' ∨ ch = '\t' then
      parse_value_loop h value (!value.isEmpty) stream
    else if !h.is_ctl ch then
      if ((if had_ws then value.push ' ' else value).push ch).length
          > h.max_header_value_length then
        .error (.http_error .request_header_fields_too_large)
      else
        parse_value_loop h ((if had_ws then value.push ' ' else value).push ch) false stream
    else
      .error (.http_error .bad_request) := by
  rcases stream with _ | ⟨c1, _ | ⟨c2, s2⟩⟩ <;> rfl

theorem parse_key_loop_cons (h : http_hh) (key : String) (ch : Char) (stream : List Char) :
    parse_key_loop h key (ch :: stream) =
    if ch = ':' then
      .ok (key, stream)
    else if h.is_token ch then
      if (key.push ch).length > h.max_header_key_length then
        .error (.http_error .request_header_fields_too_large)
      else
        parse_key_loop h (key.push ch) stream
    else
      .error (.http_error .bad_request) := by
  rfl

/-- `parse_key` reads the rest of a key made of token characters up to the colon. -/
theorem parse_key_loop_ok (h : http_hh) (cs : List Char) :
    ∀ (acc : String) (s : List Char),
      (∀ c ∈ cs, c ≠ ':' ∧ h.is_token c = true) →
      acc.length + cs.length ≤ h.max_header_key_length →
      parse_key_loop h acc (cs ++ ':' :: s) = .ok (String.mk (acc.data ++ cs), s) := by
  induction cs with
  | nil =>
    intro acc s _ _
    simp [parse_key_loop]
  | cons c cs ih =>
    intro acc s hcs hlen
    have hc := hcs c (List.mem_cons_self _ _)
    simp only [List.length_cons] at hlen
    rw [List.cons_append, parse_key_loop_cons, if_neg hc.1, if_pos hc.2, String.length_push,
      if_neg (by omega)]
    rw [ih (acc.push c) s (fun d hd => hcs d (List.mem_cons_of_mem _ hd))
      (by rw [String.length_push]; omega)]
    rw [String.data_push, List.append_assoc]
    rfl

/-- `parse_key` throws as soon as the key has one character more than the limit. -/
theorem parse_key_loop_too_large (h : http_hh) (cs : List Char) :
    ∀ (acc : String) (s : List Char),
      (∀ c ∈ cs, c ≠ ':' ∧ h.is_token c = true) →
      cs ≠ [] →
      h.max_header_key_length < acc.length + cs.length →
      parse_key_loop h acc (cs ++ s)
        = .error (.http_error .request_header_fields_too_large) := by
  induction cs with
  | nil =>
    intro acc s _ hne _
    exact absurd rfl hne
  | cons c cs ih =>
    intro acc s hcs _ hlen
    have hc := hcs c (List.mem_cons_self _ _)
    simp only [List.length_cons] at hlen
    rw [List.cons_append, parse_key_loop_cons, if_neg hc.1, if_pos hc.2, String.length_push]
    by_cases hbig : acc.length + 1 > h.max_header_key_length
    · rw [if_pos hbig]
    · rw [if_neg hbig]
      have hne : cs ≠ [] := by
        intro he
        rw [he] at hlen
        simp only [List.length_nil] at hlen
        omega
      exact ih (acc.push c) s (fun d hd => hcs d (List.mem_cons_of_mem _ hd)) hne
        (by rw [String.length_push]; omega)

theorem value_chars_ok_cons (h : http_hh) (inner : Bool) (ch : Char) (rest : List Char) :
    value_chars_ok h inner (ch :: rest) =
      if ch = ' ' then
        inner &&
          (match rest with
           | [] => false
           | ch1 :: rest1 => value_char h ch1 && value_chars_ok h true rest1)
      else
        value_char h ch && value_chars_ok h true rest := by
  cases rest <;> rfl

theorem value_char_iff (h : http_hh) (ch : Char) :
    value_char h ch = true ↔ ch ≠ '\r' ∧ ch ≠ ' ' ∧ ch ≠ '\t' ∧ h.is_ctl ch = false := by
  simp [value_char, and_assoc]

/-- One value character read by `parse_value` when no whitespace is pending. -/
theorem parse_value_loop_char (h : http_hh) (acc : String) (ch : Char) (s : List Char)
    (hch : value_char h ch = true) :
    parse_value_loop h acc false (ch :: s) =
      if (acc.push ch).length > h.max_header_value_length then
        .error (.http_error .request_header_fields_too_large)
      else parse_value_loop h (acc.push ch) false s := by
  obtain ⟨h1, h2, h3, h4⟩ := (value_char_iff h ch).1 hch
  rw [parse_value_loop_cons, if_neg h1, if_neg (by simp [h2, h3]), if_pos (by simp [h4])]
  rfl

/-- A space and a value character read by `parse_value` after a non-empty value. -/
theorem parse_value_loop_space_char (h : http_hh) (acc : String) (ch : Char) (s : List Char)
    (hacc : acc.isEmpty = false) (hch : value_char h ch = true) :
    parse_value_loop h acc false (' ' :: ch :: s) =
      if ((acc.push ' ').push ch).length > h.max_header_value_length then
        .error (.http_error .request_header_fields_too_large)
      else parse_value_loop h ((acc.push ' ').push ch) false s := by
  obtain ⟨h1, h2, h3, h4⟩ := (value_char_iff h ch).1 hch
  have e : parse_value_loop h acc false (' ' :: ch :: s)
      = parse_value_loop h acc true (ch :: s) := by
    rw [parse_value_loop_cons, if_neg (by decide), if_pos (by simp), hacc]
    rfl
  rw [e, parse_value_loop_cons, if_neg h1, if_neg (by simp [h2, h3]), if_pos (by simp [h4])]
  rfl

/-- The end of a value: CR LF and a character that does not continue the line. -/
theorem parse_value_loop_end (h : http_hh) (acc : String) (b : Bool) (ch : Char)
    (s : List Char) (h1 : ch ≠ ' ') (h2 : ch ≠ '\t') :
    parse_value_loop h acc b ('\r' :: '\n' :: ch :: s) = .ok ((acc, ch), s) := by
  rw [parse_value_loop_cons, if_pos rfl]
  simp [h1, h2]

/-- `parse_value` reads back a well-formed value that stays within the limit. -/
theorem parse_value_loop_ok (h : http_hh) (n : Nat) :
    ∀ (l : List Char) (acc : String) (ch : Char) (s : List Char), l.length ≤ n →
      value_chars_ok h (!acc.isEmpty) l = true →
      acc.length + l.length ≤ h.max_header_value_length →
      ch ≠ ' ' → ch ≠ '\t' →
      parse_value_loop h acc false (l ++ '\r' :: '\n' :: ch :: s)
        = .ok ((String.mk (acc.data ++ l), ch), s) := by
  induction n with
  | zero =>
    intro l acc ch s hn _ _ h1 h2
    have : l = [] := List.length_eq_zero.1 (by omega)
    subst this
    rw [List.nil_append, parse_value_loop_end h acc false ch s h1 h2, List.append_nil]
  | succ n ih =>
    intro l acc ch s hn hok hlen h1 h2
    cases l with
    | nil => rw [List.nil_append, parse_value_loop_end h acc false ch s h1 h2, List.append_nil]
    | cons c l =>
      simp only [List.length_cons] at hn hlen
      by_cases hsp : c = ' '
      · subst hsp
        cases l with
        | nil => simp [value_chars_ok] at hok
        | cons c1 l1 =>
          simp only [value_chars_ok, if_true, Bool.and_eq_true, Bool.not_eq_true'] at hok
          obtain ⟨hacc, hc1, hrest⟩ := hok
          simp only [List.length_cons] at hn hlen
          rw [List.cons_append, List.cons_append, parse_value_loop_space_char h acc c1 _ hacc hc1]
          rw [if_neg (by simp only [String.length_push]; omega)]
          rw [ih l1 ((acc.push ' ').push c1) ch s (by omega)
            (by rw [isEmpty_push]; exact hrest)
            (by simp only [String.length_push]; omega) h1 h2]
          simp only [String.data_push, List.append_assoc, List.singleton_append,
            List.cons_append, List.nil_append]
      · rw [value_chars_ok_cons, if_neg hsp, Bool.and_eq_true] at hok
        obtain ⟨hc, hrest⟩ := hok
        rw [List.cons_append, parse_value_loop_char h acc c _ hc]
        rw [if_neg (by simp only [String.length_push]; omega)]
        rw [ih l (acc.push c) ch s (by omega)
          (by rw [isEmpty_push]; exact hrest)
          (by simp only [String.length_push]; omega) h1 h2]
        simp only [String.data_push, List.append_assoc, List.singleton_append]

/-- `parse_value` throws on a well-formed value that is longer than the limit. -/
theorem parse_value_loop_too_large (h : http_hh) (n : Nat) :
    ∀ (l : List Char) (acc : String) (s : List Char), l.length ≤ n →
      value_chars_ok h (!acc.isEmpty) l = true →
      l ≠ [] →
      h.max_header_value_length < acc.length + l.length →
      parse_value_loop h acc false (l ++ s)
        = .error (.http_error .request_header_fields_too_large) := by
  induction n with
  | zero =>
    intro l acc s hn _ hne _
    exact absurd (List.length_eq_zero.1 (by omega)) hne
  | succ n ih =>
    intro l acc s hn hok hne hlen
    cases l with
    | nil => exact absurd rfl hne
    | cons c l =>
      simp only [List.length_cons] at hn hlen
      by_cases hsp : c = ' '
      · subst hsp
        cases l with
        | nil => simp [value_chars_ok] at hok
        | cons c1 l1 =>
          simp only [value_chars_ok, if_true, Bool.and_eq_true, Bool.not_eq_true'] at hok
          obtain ⟨hacc, hc1, hrest⟩ := hok
          simp only [List.length_cons] at hn hlen
          rw [List.cons_append, List.cons_append, parse_value_loop_space_char h acc c1 _ hacc hc1]
          by_cases hbig : ((acc.push ' ').push c1).length > h.max_header_value_length
          · rw [if_pos hbig]
          · rw [if_neg hbig]
            simp only [String.length_push] at hbig
            have hne1 : l1 ≠ [] := by
              intro he
              rw [he] at hlen
              simp only [List.length_nil] at hlen
              omega
            exact ih l1 ((acc.push ' ').push c1) s (by omega)
              (by rw [isEmpty_push]; exact hrest) hne1
              (by simp only [String.length_push]; omega)
      · rw [value_chars_ok_cons, if_neg hsp, Bool.and_eq_true] at hok
        obtain ⟨hc, hrest⟩ := hok
        rw [List.cons_append, parse_value_loop_char h acc c _ hc]
        by_cases hbig : (acc.push c).length > h.max_header_value_length
        · rw [if_pos hbig]
        · rw [if_neg hbig]
          simp only [String.length_push] at hbig
          have hne1 : l ≠ [] := by
            intro he
            rw [he] at hlen
            simp only [List.length_nil] at hlen
            omega
          exact ih l (acc.push c) s (by omega)
            (by rw [isEmpty_push]; exact hrest) hne1
            (by simp only [String.length_push]; omega)

theorem map_find_eq_none_of_not_mem (key : String) (l : List (String × String))
    (h : key ∉ l.map Prod.fst) : map_find key l = none := by
  induction l with
  | nil => rfl
  | cons kv l ih =>
    obtain ⟨k, v⟩ := kv
    simp only [List.map_cons, List.mem_cons, not_or] at h
    have hk : ¬ k = key := fun e => h.1 e.symm
    simp only [map_find, hk, if_false]
    exact ih h.2

theorem map_emplace_fresh (f : String → String) (key value : String)
    (l : List (String × String)) (h : map_find key l = none) :
    map_emplace_or f key value l = (l ++ [(key, value)], value) := by
  induction l with
  | nil => rfl
  | cons kv l ih =>
    obtain ⟨k, v⟩ := kv
    by_cases hk : k = key
    · simp [map_find, hk] at h
    · simp only [map_find, hk, if_false] at h
      simp only [map_emplace_or, hk, if_false, ih h, List.cons_append]

theorem insert_or_append_fresh (m : header_map) (k v : String)
    (h : normalize_key k ∉ m.map.map Prod.fst) :
    m.insert_or_append k v = (⟨m.map ++ [(normalize_key k, v)]⟩, v) := by
  simp only [header_map.insert_or_append,
    map_emplace_fresh _ _ _ _ (map_find_eq_none_of_not_mem _ _ h)]

theorem parse_headers_loop_succ (h : http_hh) (fuel : Nat) (headers : header_map)
    (first_ch : Char) (stream : List Char) :
    parse_headers_loop h (fuel + 1) headers first_ch stream =
    if first_ch = '\r' then
      match stream with
      | [] => some (.error .end_of_stream)
      | ch :: stream1 =>
        if ch ≠ '\n' then
          some (.error (.http_error .bad_request))
        else
          some (.ok (headers, stream1))
    else if h.is_token first_ch then
      match parse_key h stream first_ch with
      | .error e => some (.error e)
      | .ok (key, stream1) =>
        match parse_value h stream1 with
        | .error e => some (.error e)
        | .ok ((value, first_ch1), stream2) =>
          if (headers.insert_or_append key value).2.length > h.max_header_value_length ∨
              (headers.insert_or_append key value).1.size > h.max_header_count then
            some (.error (.http_error .request_header_fields_too_large))
          else
            parse_headers_loop h fuel (headers.insert_or_append key value).1 first_ch1 stream2
    else
      some (.error (.http_error .bad_request)) := by
  rfl

theorem key_ok_cons (h : http_hh) (k : String) (hk : key_ok h k = true) :
    ∃ c cs, k.data = c :: cs ∧ c ≠ '\r' ∧ c ≠ ' ' ∧ c ≠ '\t' ∧ h.is_token c = true ∧
      ∀ d ∈ c :: cs, d ≠ ':' ∧ h.is_token d = true := by
  unfold key_ok at hk
  cases hd : k.data with
  | nil => rw [hd] at hk; exact absurd hk (by simp)
  | cons c cs =>
    rw [hd] at hk
    simp only [Bool.and_eq_true, bne_iff_ne, ne_eq, List.all_eq_true] at hk
    obtain ⟨⟨⟨⟨⟨h1, h2⟩, h3⟩, h4⟩, h5⟩, h6⟩ := hk
    refine ⟨c, cs, rfl, h1, h2, h3, h4, ?_⟩
    intro d hdm
    rcases List.mem_cons.1 hdm with rfl | hdm
    · exact ⟨h5, h4⟩
    · exact h6 d hdm

theorem parse_key_ok (h : http_hh) (k : String) (c : Char) (cs s : List Char)
    (hd : k.data = c :: cs) (hall : ∀ d ∈ c :: cs, d ≠ ':' ∧ h.is_token d = true)
    (hlen : k.length ≤ h.max_header_key_length) :
    parse_key h (cs ++ ':' :: s) c = .ok (k, s) := by
  have hl : k.length = cs.length + 1 := by
    show k.data.length = _
    rw [hd, List.length_cons]
  unfold parse_key
  rw [parse_key_loop_ok h cs (String.singleton c) s
    (fun d hdm => hall d (List.mem_cons_of_mem _ hdm))
    (by show [c].length + cs.length ≤ _
        simp only [List.length_singleton]
        omega)]
  have : String.mk ((String.singleton c).data ++ cs) = k := by
    apply String.ext
    rw [hd]
    rfl
  rw [this]

theorem parse_value_ok (h : http_hh) (v : String) (ch : Char) (s : List Char)
    (hv : value_ok h v = true) (hlen : v.length ≤ h.max_header_value_length)
    (h1 : ch ≠ ' ') (h2 : ch ≠ '\t') :
    parse_value h (' ' :: (v.data ++ '\r' :: '\n' :: ch :: s)) = .ok ((v, ch), s) := by
  unfold parse_value
  rw [parse_value_loop_cons, if_neg (by decide), if_pos (by simp)]
  have e : (!("" : String).isEmpty) = false := by decide
  rw [e, parse_value_loop_ok h v.data.length v.data "" ch s (Nat.le_refl _)
    (by rw [e]; exact hv)
    (by show ([] : List Char).length + v.data.length ≤ _
        simp only [List.length_nil, Nat.zero_add]
        exact hlen) h1 h2]
  rfl

/-- One round of the loop of `parse_headers` on a well-formed header line. -/
theorem parse_headers_loop_line (h : http_hh) (fuel : Nat) (m : header_map) (k v : String)
    (c : Char) (cs : List Char) (ch : Char) (t : List Char)
    (hd : k.data = c :: cs) (hk : key_ok h k = true)
    (hklen : k.length ≤ h.max_header_key_length)
    (hv : value_ok h v = true) (hvlen : v.length ≤ h.max_header_value_length)
    (h1 : ch ≠ ' ') (h2 : ch ≠ '\t') :
    parse_headers_loop h (fuel + 1) m c
        (cs ++ ':' :: ' ' :: (v.data ++ '\r' :: '\n' :: ch :: t)) =
      if (m.insert_or_append k v).2.length > h.max_header_value_length ∨
          (m.insert_or_append k v).1.size > h.max_header_count then
        some (.error (.http_error .request_header_fields_too_large))
      else
        parse_headers_loop h fuel (m.insert_or_append k v).1 ch t := by
  obtain ⟨c1, cs1, hd1, hc1, _, _, hc4, hall⟩ := key_ok_cons h k hk
  rw [hd] at hd1
  simp only [List.cons.injEq] at hd1
  obtain ⟨rfl, rfl⟩ := hd1
  rw [parse_headers_loop_succ, if_neg hc1, if_pos hc4, parse_key_ok h k c cs _ hd hall hklen]
  simp only
  rw [parse_value_ok h v ch t hv hvlen h1 h2]

theorem header_line_eq (k v : String) (c : Char) (cs : List Char) (hd : k.data = c :: cs)
    (t : List Char) :
    header_line k v ++ t = c :: (cs ++ ':' :: ' ' :: (v.data ++ '\r' :: '\n' :: t)) := by
  unfold header_line
  rw [hd]
  simp

theorem header_lines_cons (p : String × String) (hs : List (String × String)) :
    header_lines (p :: hs) = header_line p.1 p.2 ++ header_lines hs := by
  simp [header_lines]

/-- What follows a header line begins with a character that does not continue it. -/
theorem header_lines_head (h : http_hh) (hs : List (String × String)) (ch : Char)
    (t : List Char) (hok : ∀ p ∈ hs, key_ok h p.1 = true) (h1 : ch ≠ ' ') (h2 : ch ≠ '\t') :
    ∃ ch1 t1, header_lines hs ++ ch :: t = ch1 :: t1 ∧ ch1 ≠ ' ' ∧ ch1 ≠ '\t' := by
  cases hs with
  | nil => exact ⟨ch, t, by simp [header_lines], h1, h2⟩
  | cons p hs =>
    obtain ⟨c, cs, hd, _, hc2, hc3, _, _⟩ := key_ok_cons h p.1 (hok p (List.mem_cons_self _ _))
    refine ⟨c, cs ++ ':' :: ' ' :: (p.2.data ++ '\r' :: '\n' :: (header_lines hs ++ ch :: t)),
      ?_, hc2, hc3⟩
    rw [header_lines_cons, List.append_assoc, header_line_eq p.1 p.2 c cs hd]

theorem header_ok_iff (h : http_hh) (p : String × String) :
    header_ok h p = true ↔
      key_ok h p.1 = true ∧ p.1.length ≤ h.max_header_key_length ∧
      value_ok h p.2 = true ∧ p.2.length ≤ h.max_header_value_length := by
  simp [header_ok, and_assoc]

/-- The loop of `parse_headers` over well-formed header lines with fresh keys: each line
adds its entry at the end of the map. -/
theorem parse_headers_loop_lines (h : http_hh) (pre : List (String × String)) :
    ∀ (m : header_map) (fuel : Nat) (c : Char) (stream : List Char) (ch : Char)
      (t : List Char),
      (∀ p ∈ pre, header_ok h p = true) →
      (m.map.map Prod.fst ++ (stored pre).map Prod.fst).Nodup →
      m.size + pre.length ≤ h.max_header_count →
      ch ≠ ' ' → ch ≠ '\t' →
      c :: stream = header_lines pre ++ ch :: t →
      parse_headers_loop h (fuel + pre.length) m c stream
        = parse_headers_loop h fuel ⟨m.map ++ stored pre⟩ ch t := by
  induction pre with
  | nil =>
    intro m fuel c stream ch t _ _ _ _ _ heq
    simp only [header_lines, List.map_nil, List.flatten_nil, List.nil_append,
      List.cons.injEq] at heq
    obtain ⟨rfl, rfl⟩ := heq
    simp [stored]
  | cons p pre ih =>
    intro m fuel c stream ch t hok hnd hsize h1 h2 heq
    obtain ⟨k, v⟩ := p
    obtain ⟨hk, hklen, hv, hvlen⟩ := (header_ok_iff h (k, v)).1 (hok _ (List.mem_cons_self _ _))
    simp only at hk hklen hv hvlen
    obtain ⟨c0, cs, hd, _⟩ := key_ok_cons h k hk
    obtain ⟨ch1, t1, hnext, hn1, hn2⟩ := header_lines_head h pre ch t
      (fun q hq => ((header_ok_iff h q).1 (hok q (List.mem_cons_of_mem _ hq))).1) h1 h2
    rw [header_lines_cons, List.append_assoc, header_line_eq k v c0 cs hd, hnext] at heq
    simp only [List.cons.injEq] at heq
    obtain ⟨rfl, rfl⟩ := heq
    simp only [List.length_cons] at hsize ⊢
    have hfresh : normalize_key k ∉ m.map.map Prod.fst := by
      intro hmem
      simp only [stored, List.map_cons, List.map_map] at hnd
      rw [List.nodup_append] at hnd
      exact hnd.2.2 hmem (List.mem_cons_self _ _)
    rw [← Nat.add_assoc, parse_headers_loop_line h (fuel + pre.length) m k v c cs ch1 t1 hd hk
      hklen hv hvlen hn1 hn2, insert_or_append_fresh m k v hfresh]
    simp only [header_map.size, List.length_append, List.length_singleton]
    rw [if_neg (by
      intro hor
      rcases hor with hbig | hbig
      · omega
      · have : m.map.length + 1 ≤ h.max_header_count := by
          simp only [header_map.size] at hsize
          omega
        omega)]
    rw [ih ⟨m.map ++ [(normalize_key k, v)]⟩ fuel ch1 t1 ch t
      (fun q hq => hok q (List.mem_cons_of_mem _ hq))
      (by simpa [stored, List.map_append, List.append_assoc] using hnd)
      (by simp only [header_map.size, List.length_append, List.length_singleton] at hsize ⊢
          omega)
      h1 h2 hnext.symm]
    simp [stored, List.append_assoc]

theorem header_lines_length (hs : List (String × String)) :
    hs.length ≤ (header_lines hs).length := by
  induction hs with
  | nil => simp [header_lines]
  | cons p hs ih =>
    rw [header_lines_cons, List.length_append, List.length_cons]
    have : 1 ≤ (header_line p.1 p.2).length := by
      simp only [header_line, List.length_append, List.length_cons, List.length_nil]
      omega
    omega

/-- `parse_headers` on well-formed header lines with different keys, followed by
anything that does not continue the last line: the loop gets to what follows with the
lines' entries in the map and with fuel left for all of the remaining stream. -/
theorem parse_headers_after_lines (h : http_hh) (pre : List (String × String)) (ch : Char)
    (t : List Char) (hok : ∀ p ∈ pre, header_ok h p = true) (hnd : keys_distinct pre)
    (hsize : pre.length ≤ h.max_header_count) (h1 : ch ≠ ' ') (h2 : ch ≠ '\t') :
    ∃ fuel, parse_headers h (header_lines pre ++ ch :: t) =
      (match parse_headers_loop h (fuel + t.length + 1) ⟨stored pre⟩ ch t with
       | some r => r
       | none => .error .end_of_stream) := by
  obtain ⟨c, stream, heq, _, _⟩ := header_lines_head h pre ch t
    (fun q hq => ((header_ok_iff h q).1 (hok q hq)).1) h1 h2
  have hlen : stream.length + 1 = (header_lines pre).length + (t.length + 1) := by
    have := congrArg List.length heq
    simp only [List.length_append, List.length_cons] at this
    omega
  have hl := header_lines_length pre
  refine ⟨(header_lines pre).length - pre.length, ?_⟩
  rw [heq]
  simp only [parse_headers]
  have hfuel : stream.length + 1
      = ((header_lines pre).length - pre.length + t.length + 1) + pre.length := by omega
  rw [hfuel, parse_headers_loop_lines h pre header_map.empty _ c stream ch t hok
    (by simpa [header_map.empty] using hnd)
    (by simpa [header_map.size, header_map.empty] using hsize) h1 h2 heq.symm]
  simp [header_map.empty]

theorem header_block_append (hs : List (String × String)) (rest : List Char) :
    header_block hs ++ rest = header_lines hs ++ '\r' :: '\n' :: rest := by
  simp [header_block]

theorem header_lines_append (pre post : List (String × String)) :
    header_lines (pre ++ post) = header_lines pre ++ header_lines post := by
  simp [header_lines]

/-- A block of well-formed headers within the limits and with different keys is parsed
into the map of its entries. -/
theorem parse_headers_block_ok (h : http_hh) (hs : List (String × String))
    (rest : List Char) (hok : ∀ p ∈ hs, header_ok h p = true) (hnd : keys_distinct hs)
    (hsize : hs.length ≤ h.max_header_count) :
    parse_headers h (header_block hs ++ rest) = .ok (⟨stored hs⟩, rest) := by
  obtain ⟨fuel, hp⟩ := parse_headers_after_lines h hs '\r' ('\n' :: rest) hok hnd hsize
    (by decide) (by decide)
  rw [header_block_append, hp, parse_headers_loop_succ]
  simp

/-- A header line whose key is one character too long makes the parser throw. -/
theorem parse_headers_key_too_large (h : http_hh) (pre : List (String × String))
    (p : String × String) (t : List Char) (hok : ∀ q ∈ pre, header_ok h q = true)
    (hnd : keys_distinct pre) (hsize : pre.length ≤ h.max_header_count)
    (hk : key_ok h p.1 = true) (hlen : h.max_header_key_length < p.1.length)
    (hK : 1 ≤ h.max_header_key_length) :
    parse_headers h (header_lines pre ++ (header_line p.1 p.2 ++ t))
      = .error (.http_error .request_header_fields_too_large) := by
  obtain ⟨c, cs, hd, hc1, hc2, hc3, hc4, hall⟩ := key_ok_cons h p.1 hk
  have hl : p.1.length = cs.length + 1 := by
    show p.1.data.length = _
    rw [hd, List.length_cons]
  rw [header_line_eq p.1 p.2 c cs hd]
  obtain ⟨fuel, hp⟩ := parse_headers_after_lines h pre c
    (cs ++ ':' :: ' ' :: (p.2.data ++ '\r' :: '\n' :: t)) hok hnd hsize hc2 hc3
  rw [hp, parse_headers_loop_succ, if_neg hc1, if_pos hc4]
  unfold parse_key
  rw [parse_key_loop_too_large h cs (String.singleton c) _
    (fun d hdm => hall d (List.mem_cons_of_mem _ hdm))
    (by intro he; rw [he] at hl; simp only [List.length_nil] at hl; omega)
    (by show h.max_header_key_length < [c].length + cs.length
        simp only [List.length_singleton]
        omega)]

/-- A header line whose value is one character too long makes the parser throw. -/
theorem parse_headers_value_too_large (h : http_hh) (pre : List (String × String))
    (p : String × String) (t : List Char) (hok : ∀ q ∈ pre, header_ok h q = true)
    (hnd : keys_distinct pre) (hsize : pre.length ≤ h.max_header_count)
    (hk : key_ok h p.1 = true) (hklen : p.1.length ≤ h.max_header_key_length)
    (hv : value_ok h p.2 = true) (hlen : h.max_header_value_length < p.2.length) :
    parse_headers h (header_lines pre ++ (header_line p.1 p.2 ++ t))
      = .error (.http_error .request_header_fields_too_large) := by
  obtain ⟨c, cs, hd, hc1, hc2, hc3, hc4, hall⟩ := key_ok_cons h p.1 hk
  rw [header_line_eq p.1 p.2 c cs hd]
  obtain ⟨fuel, hp⟩ := parse_headers_after_lines h pre c
    (cs ++ ':' :: ' ' :: (p.2.data ++ '\r' :: '\n' :: t)) hok hnd hsize hc2 hc3
  rw [hp, parse_headers_loop_succ, if_neg hc1, if_pos hc4,
    parse_key_ok h p.1 c cs _ hd hall hklen]
  simp only
  have hvl : p.2.length = p.2.data.length := rfl
  have e : (!("" : String).isEmpty) = false := by decide
  have hpv : parse_value h (' ' :: (p.2.data ++ '\r' :: '\n' :: t))
      = .error (.http_error .request_header_fields_too_large) := by
    unfold parse_value
    rw [parse_value_loop_cons, if_neg (by decide), if_pos (by simp), e]
    exact parse_value_loop_too_large h p.2.data.length p.2.data "" _ (Nat.le_refl _)
      (by rw [e]; exact hv)
      (by intro he; rw [he] at hvl; simp only [List.length_nil] at hvl; omega)
      (by show h.max_header_value_length < ([] : List Char).length + p.2.data.length
          simp only [List.length_nil, Nat.zero_add]
          omega)
  rw [hpv]

/-- A well-formed header line with a new key, after as many headers as the limit allows,
makes the parser throw. -/
theorem parse_headers_count_too_large (h : http_hh) (hs : List (String × String))
    (rest : List Char) (hok : ∀ p ∈ hs, header_ok h p = true) (hnd : keys_distinct hs)
    (hsize : hs.length = h.max_header_count + 1) :
    parse_headers h (header_block hs ++ rest)
      = .error (.http_error .request_header_fields_too_large) := by
  obtain ⟨pre, p, rfl⟩ : ∃ pre p, hs = pre ++ [p] := by
    cases hs using List.reverseRecOn with
    | nil => simp at hsize
    | append_singleton pre p => exact ⟨pre, p, rfl⟩
  simp only [List.length_append, List.length_singleton, Nat.add_right_cancel_iff] at hsize
  have hokpre : ∀ q ∈ pre, header_ok h q = true :=
    fun q hq => hok q (List.mem_append_left _ hq)
  obtain ⟨hk, hklen, hv, hvlen⟩ := (header_ok_iff h p).1 (hok p (by simp))
  have hnd1 : ((stored pre).map Prod.fst ++ [normalize_key p.1]).Nodup := by
    simpa [keys_distinct, stored] using hnd
  have hndpre : keys_distinct pre := (List.nodup_append.1 hnd1).1
  have hfresh : normalize_key p.1 ∉ (stored pre).map Prod.fst := by
    intro hmem
    exact (List.nodup_append.1 hnd1).2.2 hmem (List.mem_singleton_self _)
  obtain ⟨c, cs, hd, hc1, hc2, hc3, hc4, hall⟩ := key_ok_cons h p.1 hk
  rw [header_block_append, header_lines_append, List.append_assoc]
  have e1 : header_lines [p] ++ '\r' :: '\n' :: rest
      = c :: (cs ++ ':' :: ' ' :: (p.2.data ++ '\r' :: '\n' :: '\r' :: '\n' :: rest)) := by
    rw [header_lines_cons, List.append_assoc, header_line_eq p.1 p.2 c cs hd]
    simp [header_lines]
  rw [e1]
  obtain ⟨fuel, hp⟩ := parse_headers_after_lines h pre c
    (cs ++ ':' :: ' ' :: (p.2.data ++ '\r' :: '\n' :: '\r' :: '\n' :: rest)) hokpre hndpre
    (by omega) hc2 hc3
  rw [hp, parse_headers_loop_line h _ ⟨stored pre⟩ p.1 p.2 c cs '\r' ('\n' :: rest) hd hk hklen
    hv hvlen (by decide) (by decide), insert_or_append_fresh ⟨stored pre⟩ p.1 p.2 hfresh]
  rw [if_pos (by
    right
    simp only [header_map.size, List.length_append, List.length_singleton, stored,
      List.length_map]
    omega)]

/-- A second header line with the key of the first one is folded into its value and
makes the parser throw when the folded value is longer than the limit. -/
theorem parse_headers_duplicate_too_large (h : http_hh) (k v k1 v1 : String)
    (post : List (String × String)) (rest : List Char)
    (hok : header_ok h (k, v) = true) (hok1 : header_ok h (k1, v1) = true)
    (hsame : normalize_key k1 = normalize_key k)
    (hpost : ∀ q ∈ post, key_ok h q.1 = true) (hcount : 1 ≤ h.max_header_count)
    (hlen : h.max_header_value_length < v.length + 1 + v1.length) :
    parse_headers h (header_block ((k, v) :: (k1, v1) :: post) ++ rest)
      = .error (.http_error .request_header_fields_too_large) := by
  obtain ⟨hk, hklen, hv, hvlen⟩ := (header_ok_iff h (k1, v1)).1 hok1
  simp only at hk hklen hv hvlen
  obtain ⟨c, cs, hd, hc1, hc2, hc3, hc4, hall⟩ := key_ok_cons h k1 hk
  obtain ⟨ch1, t1, hnext, hn1, hn2⟩ := header_lines_head h post '\r' ('\n' :: rest) hpost
    (by decide) (by decide)
  have e1 : header_block ((k, v) :: (k1, v1) :: post) ++ rest
      = header_lines [(k, v)] ++
          c :: (cs ++ ':' :: ' ' :: (v1.data ++ '\r' :: '\n' :: ch1 :: t1)) := by
    rw [header_block_append, ← hnext, header_lines_cons, header_lines_cons,
      List.append_assoc, List.append_assoc, header_line_eq k1 v1 c cs hd]
    simp [header_lines]
  obtain ⟨fuel, hp⟩ := parse_headers_after_lines h [(k, v)] c
    (cs ++ ':' :: ' ' :: (v1.data ++ '\r' :: '\n' :: ch1 :: t1))
    (by intro p hp; rw [List.mem_singleton.1 hp]; exact hok)
    (by simp [keys_distinct, stored])
    (by simpa using hcount) hc2 hc3
  rw [e1, hp, parse_headers_loop_line h _ _ k1 v1 c cs ch1 t1 hd hk hklen hv hvlen hn1 hn2]
  rw [if_pos (by
    left
    simp only [header_map.insert_or_append, stored, List.map_cons, List.map_nil, hsame,
      map_emplace_or, if_true, String.length_append, String.length_push]
    omega)]

/-- C7 (as stated, refuted): with the limits of `example_hh` (2 headers, keys of 3 and
values of 4 characters), the block of the two headers `Abc: wxyz` and `abC: wxyz` has
exactly 2 headers with keys of exactly 3 and values of exactly 4 characters, and
`parse_headers` throws `request_header_fields_too_large` on it: the second header is
folded into the first, whose value then has 9 characters.  The same happens for all
limits and character classes as soon as a key comes twice. -/
theorem parse_headers_exact_block_fails :
    ([("Abc", "wxyz"), ("abC", "wxyz")].length = example_hh.max_header_count ∧
      (∀ p ∈ [("Abc", "wxyz"), ("abC", "wxyz")],
        String.length p.1 = example_hh.max_header_key_length ∧
        String.length p.2 = example_hh.max_header_value_length) ∧
      parse_headers example_hh (header_block [("Abc", "wxyz"), ("abC", "wxyz")])
        = .error (.http_error .request_header_fields_too_large)) ∧
    (∀ (h : http_hh) (k v : String) (post : List (String × String)) (rest : List Char),
      header_ok h (k, v) = true → (∀ q ∈ post, key_ok h q.1 = true) →
      1 ≤ h.max_header_count → v.length = h.max_header_value_length →
      parse_headers h (header_block ((k, v) :: (k, v) :: post) ++ rest)
        = .error (.http_error .request_header_fields_too_large)) := by
  refine ⟨⟨rfl, by decide, rfl⟩, ?_⟩
  intro h k v post rest hok hpost hcount hv
  exact parse_headers_duplicate_too_large h k v k v post rest hok hok rfl hpost hcount
    (by omega)

/-- C7 (amended): for well-formed headers (keys of token characters, values of value
characters joined by single spaces) whose keys differ also when letter case is ignored,
the limits are exact: a block of at most `max_header_count` headers with keys of at most
`max_header_key_length` and values of at most `max_header_value_length` characters is
parsed; a block with one header more, or with a key one character longer (for a key
limit of at least 1), or with a value one character longer, makes `parse_headers` throw
`request_header_fields_too_large`. -/
theorem parse_headers_limits (h : http_hh) :
    (∀ (hs : List (String × String)) (rest : List Char),
      (∀ p ∈ hs, header_ok h p = true) → keys_distinct hs →
      hs.length ≤ h.max_header_count →
      parse_headers h (header_block hs ++ rest) = .ok (⟨stored hs⟩, rest)) ∧
    (∀ (hs : List (String × String)) (rest : List Char),
      (∀ p ∈ hs, header_ok h p = true) → keys_distinct hs →
      hs.length = h.max_header_count + 1 →
      parse_headers h (header_block hs ++ rest)
        = .error (.http_error .request_header_fields_too_large)) ∧
    (∀ (pre : List (String × String)) (p : String × String) (post : List (String × String))
        (rest : List Char),
      (∀ q ∈ pre, header_ok h q = true) → keys_distinct pre →
      pre.length ≤ h.max_header_count →
      key_ok h p.1 = true → p.1.length = h.max_header_key_length + 1 →
      1 ≤ h.max_header_key_length →
      parse_headers h (header_block (pre ++ p :: post) ++ rest)
        = .error (.http_error .request_header_fields_too_large)) ∧
    (∀ (pre : List (String × String)) (p : String × String) (post : List (String × String))
        (rest : List Char),
      (∀ q ∈ pre, header_ok h q = true) → keys_distinct pre →
      pre.length ≤ h.max_header_count →
      key_ok h p.1 = true → p.1.length ≤ h.max_header_key_length →
      value_ok h p.2 = true → p.2.length = h.max_header_value_length + 1 →
      parse_headers h (header_block (pre ++ p :: post) ++ rest)
        = .error (.http_error .request_header_fields_too_large)) := by
  refine ⟨?_, ?_, ?_, ?_⟩
  · intro hs rest hok hnd hsize
    exact parse_headers_block_ok h hs rest hok hnd hsize
  · intro hs rest hok hnd hsize
    exact parse_headers_count_too_large h hs rest hok hnd hsize
  · intro pre p post rest hok hnd hsize hk hlen hK
    have e : header_block (pre ++ p :: post) ++ rest
        = header_lines pre ++ (header_line p.1 p.2
            ++ (header_lines post ++ '\r' :: '\n' :: rest)) := by
      rw [header_block_append, header_lines_append, header_lines_cons]
      simp only [List.append_assoc]
    rw [e]
    exact parse_headers_key_too_large h pre p _ hok hnd hsize hk (by omega) hK
  · intro pre p post rest hok hnd hsize hk hklen hv hlen
    have e : header_block (pre ++ p :: post) ++ rest
        = header_lines pre ++ (header_line p.1 p.2
            ++ (header_lines post ++ '\r' :: '\n' :: rest)) := by
      rw [header_block_append, header_lines_append, header_lines_cons]
      simp only [List.append_assoc]
    rw [e]
    exact parse_headers_value_too_large h pre p _ hok hnd hsize hk hklen hv (by omega)

/-- C7 at concrete inputs, with the limits of `example_hh`: two headers at the limits are
parsed; a third header, a key of 4 characters and a value of 5 characters are refused. -/
theorem parse_headers_limits_witness :
    parse_headers example_hh (header_block [("Abc", "wxyz"), ("d-e", "a bc")] ++ "body".data)
      = .ok (⟨[("Abc", "wxyz"), ("D-E", "a bc")]⟩, "body".data) ∧
    parse_headers example_hh (header_block [("Abc", "wxyz"), ("d-e", "a bc"), ("f", "g")] ++ [])
      = .error (.http_error .request_header_fields_too_large) ∧
    parse_headers example_hh (header_block ([("Abc", "wxyz")] ++ ("defg", "x") :: []) ++ [])
      = .error (.http_error .request_header_fields_too_large) ∧
    parse_headers example_hh (header_block ([("Abc", "wxyz")] ++ ("def", "vwxyz") :: []) ++ [])
      = .error (.http_error .request_header_fields_too_large) :=
  ⟨(parse_headers_limits example_hh).1 [("Abc", "wxyz"), ("d-e", "a bc")] "body".data
      (by decide) (by decide) (by decide),
   (parse_headers_limits example_hh).2.1 [("Abc", "wxyz"), ("d-e", "a bc"), ("f", "g")] []
      (by decide) (by decide) (by decide),
   (parse_headers_limits example_hh).2.2.1 [("Abc", "wxyz")] ("defg", "x") [] []
      (by decide) (by decide) (by decide) (by decide) (by decide) (by decide),
   (parse_headers_limits example_hh).2.2.2 [("Abc", "wxyz")] ("def", "vwxyz") [] []
      (by decide) (by decide) (by decide) (by decide) (by decide) (by decide) (by decide)⟩

theorem write_eq_header_block (m : header_map) :
    m.write = header_block (stored m.map) := by
  simp [header_map.write, header_block, header_lines, stored, List.map_map, Function.comp_def]

theorem stored_of_wf (l : List (String × String))
    (h : ∀ pair ∈ l, normalize_key pair.1 = pair.1) : stored l = l := by
  induction l with
  | nil => rfl
  | cons p l ih =>
    simp only [stored, List.map_cons]
    rw [h p (List.mem_cons_self _ _)]
    have := ih (fun q hq => h q (List.mem_cons_of_mem _ hq))
    simp only [stored] at this
    rw [this]

/-- C8 (as stated, refuted): the header map with the single entry `A` ↦ `" "` (one
space; it is what `parse_headers` returns for the two lines `A:` and `A:`) is within all
limits of at least 1, is written as `A:  ` and is parsed back with the empty value,
whatever the limits are, when `A` is a token character. -/
theorem parse_write_not_identity :
    (∀ h : http_hh, h.is_token 'A' = true → 1 ≤ h.max_header_count →
      1 ≤ h.max_header_value_length →
      parse_headers h "A:\r\nA:\r\n\r\n".data = .ok (⟨[("A", " ")]⟩, []) ∧
      parse_headers h (header_map.write ⟨[("A", " ")]⟩) = .ok (⟨[("A", "")]⟩, [])) ∧
    header_map.at ⟨[("A", "")]⟩ "A" ≠ header_map.at ⟨[("A", " ")]⟩ "A" := by
  refine ⟨?_, by decide⟩
  intro h hA hcount hvalue
  have hn : normalize_key (String.singleton 'A') = "A" := by decide
  have hn1 : normalize_key "A" = "A" := by decide
  have hcount1 : ¬ (1 > h.max_header_count) := by omega
  have hvalue1 : ¬ (h.max_header_value_length = 0) := by omega
  constructor
  · simp [parse_headers, parse_headers_loop, parse_key, parse_key_loop, parse_value,
      parse_value_loop, hA, header_map.insert_or_append, hn, map_emplace_or,
      header_map.empty, header_map.size, hcount1, hvalue1]
    rfl
  · simp [parse_headers, parse_headers_loop, parse_key, parse_key_loop, parse_value,
      parse_value_loop, hA, header_map.insert_or_append, hn, hn1, map_emplace_or,
      header_map.empty, header_map.size, hcount1, header_map.write, header_line]

/-- C8 (amended): for every header map that satisfies the invariant of the class (keys
normalized and stored once), whose entries are well-formed headers within the limits of
key and value and whose size is within the limit of the count, `parse_headers` applied to
what `operator<<` writes (followed by any `rest`) succeeds and returns the same map and
`rest`. -/
theorem parse_write_roundtrip (h : http_hh) (m : header_map) (rest : List Char)
    (hwf : m.wf) (hok : ∀ p ∈ m.map, header_ok h p = true)
    (hsize : m.size ≤ h.max_header_count) :
    parse_headers h (m.write ++ rest) = .ok (m, rest) := by
  have hst := stored_of_wf m.map hwf.1
  rw [write_eq_header_block, hst,
    parse_headers_block_ok h m.map rest hok (by rw [keys_distinct, hst]; exact hwf.2) hsize,
    hst]

/-- C8 at a concrete input, with the limits of `example_hh`. -/
theorem parse_write_roundtrip_witness :
    parse_headers example_hh
        (header_map.write ⟨[("Abc", "wxyz"), ("D-E", "a b")]⟩ ++ "body".data)
      = .ok (⟨[("Abc", "wxyz"), ("D-E", "a b")]⟩, "body".data) :=
  parse_write_roundtrip example_hh ⟨[("Abc", "wxyz"), ("D-E", "a b")]⟩ "body".data
    (by decide) (by decide) (by decide)

/-! ### The fuel of `parse_headers` is never used up -/

theorem parse_key_loop_shorter (h : http_hh) (s : List Char) :
    ∀ (key k : String) (s1 : List Char),
      parse_key_loop h key s = .ok (k, s1) → s1.length < s.length := by
  induction s with
  | nil =>
    intro key k s1 hp
    simp [parse_key_loop] at hp
  | cons c s ih =>
    intro key k s1 hp
    rw [parse_key_loop_cons] at hp
    by_cases hc : c = ':'
    · rw [if_pos hc] at hp
      simp only [Except.ok.injEq, Prod.mk.injEq] at hp
      rw [← hp.2, List.length_cons]
      omega
    · rw [if_neg hc] at hp
      by_cases ht : h.is_token c = true
      · rw [if_pos ht] at hp
        by_cases hbig : (key.push c).length > h.max_header_key_length
        · rw [if_pos hbig] at hp
          exact Except.noConfusion hp
        · rw [if_neg hbig] at hp
          have := ih _ _ _ hp
          rw [List.length_cons]
          omega
      · rw [if_neg ht] at hp
        exact Except.noConfusion hp

theorem parse_value_loop_shorter (h : http_hh) (n : Nat) :
    ∀ (s : List Char) (value : String) (b : Bool) (r : String × Char) (s1 : List Char),
      s.length ≤ n → parse_value_loop h value b s = .ok (r, s1) → s1.length < s.length := by
  induction n with
  | zero =>
    intro s value b r s1 hn hp
    have : s = [] := List.length_eq_zero.1 (by omega)
    subst this
    simp [parse_value_loop] at hp
  | succ n ih =>
    intro s value b r s1 hn hp
    cases s with
    | nil => simp [parse_value_loop] at hp
    | cons c s =>
      rw [parse_value_loop_cons] at hp
      simp only [List.length_cons] at hn ⊢
      by_cases hc : c = '\r'
      · rw [if_pos hc] at hp
        rcases s with _ | ⟨c1, _ | ⟨c2, s2⟩⟩
        · exact Except.noConfusion hp
        · simp only at hp
          split at hp <;> exact Except.noConfusion hp
        · simp only at hp
          simp only [List.length_cons] at hn ⊢
          by_cases hc1 : c1 ≠ '\n'
          · rw [if_pos hc1] at hp
            exact Except.noConfusion hp
          · rw [if_neg hc1] at hp
            by_cases hc2 : c2 = ' ' ∨ c2 = '\t'
            · rw [if_pos hc2] at hp
              have := ih s2 _ _ _ _ (by omega) hp
              omega
            · rw [if_neg hc2] at hp
              simp only [Except.ok.injEq, Prod.mk.injEq] at hp
              rw [← hp.2]
              omega
      · rw [if_neg hc] at hp
        by_cases hws : c = ' ' ∨ c = '\t'
        · rw [if_pos hws] at hp
          have := ih s _ _ _ _ (by omega) hp
          omega
        · rw [if_neg hws] at hp
          by_cases hctl : (!h.is_ctl c) = true
          · rw [if_pos hctl] at hp
            generalize (if b = true then value.push ' ' else value).push c = v1 at hp
            by_cases hbig : v1.length > h.max_header_value_length
            · rw [if_pos hbig] at hp
              exact Except.noConfusion hp
            · rw [if_neg hbig] at hp
              have := ih s _ _ _ _ (by omega) hp
              omega
          · rw [if_neg hctl] at hp
            exact Except.noConfusion hp

/-- With more fuel than the stream has characters the loop of `parse_headers` comes to a
result: `parse_headers` never takes the branch of a loop cut off by the fuel. -/
theorem parse_headers_loop_fuel (h : http_hh) (fuel : Nat) :
    ∀ (m : header_map) (c : Char) (s : List Char), s.length < fuel →
      ∃ r, parse_headers_loop h fuel m c s = some r := by
  induction fuel with
  | zero =>
    intro m c s hs
    omega
  | succ fuel ih =>
    intro m c s hs
    rw [parse_headers_loop_succ]
    by_cases hc : c = '\r'
    · rw [if_pos hc]
      cases s with
      | nil => exact ⟨_, rfl⟩
      | cons c1 s1 =>
        simp only
        split <;> exact ⟨_, rfl⟩
    · rw [if_neg hc]
      by_cases ht : h.is_token c = true
      · rw [if_pos ht]
        cases hk : parse_key h s c with
        | error e => exact ⟨_, rfl⟩
        | ok r1 =>
          obtain ⟨key, s1⟩ := r1
          simp only
          have hs1 := parse_key_loop_shorter h s _ _ _ hk
          cases hv : parse_value h s1 with
          | error e => exact ⟨_, rfl⟩
          | ok r2 =>
            obtain ⟨⟨value, c2⟩, s2⟩ := r2
            simp only
            have hs2 := parse_value_loop_shorter h s1.length s1 _ _ _ _ (Nat.le_refl _) hv
            split
            · exact ⟨_, rfl⟩
            · exact ih _ c2 s2 (by omega)
      · rw [if_neg ht]
        exact ⟨_, rfl⟩

/-- `parse_headers` returns what its loop computes: the loop is not cut off. -/
theorem parse_headers_eq_loop (h : http_hh) (c : Char) (s : List Char) :
    parse_headers_loop h (s.length + 1) header_map.empty c s = some (parse_headers h (c :: s)) := by
  obtain ⟨r, hr⟩ := parse_headers_loop_fuel h (s.length + 1) header_map.empty c s (by omega)
  simp only [parse_headers, hr]


/-! ## The CGI parameters -/

theorem cgi_header_key_loop_eq (l : List Char) :
    ∀ key : String, cgi_header_key_loop key l
      = String.mk (key.data ++ l.map (fun ch => if ch = '-' then '_' else ch.toUpper)) := by
  induction l with
  | nil =>
    intro key
    simp [cgi_header_key_loop]
  | cons c l ih =>
    intro key
    simp only [cgi_header_key_loop, ih, String.data_push, List.map_cons, List.append_assoc,
      List.singleton_append]

theorem cgi_header_key_eq (http_key : String) :
    cgi_header_key_loop "HTTP_" http_key.data = cgi_header_key_spec http_key := by
  rw [cgi_header_key_loop_eq]
  rfl

theorem cgi_header_params_eq (l : List (String × String)) :
    cgi_header_params l = l.map (fun kv => (cgi_header_key_spec kv.1, kv.2)) := by
  induction l with
  | nil => rfl
  | cons kv l ih =>
    obtain ⟨k, v⟩ := kv
    simp only [cgi_header_params, cgi_header_key_eq, ih, List.map_cons]

theorem cgi_header_key_upper (http_key : String) :
    ∀ c ∈ (cgi_header_key_spec http_key).data, c.isLower = false := by
  intro c hc
  simp only [cgi_header_key_spec, String.data_append, List.mem_append, List.mem_map] at hc
  rcases hc with hc | ⟨d, _, hd⟩
  · have : ∀ x ∈ "HTTP_".data, x.isLower = false := by decide
    exact this c hc
  · by_cases hdash : d = '-'
    · rw [if_pos hdash] at hd
      rw [← hd]
      decide
    · rw [if_neg hdash] at hd
      rw [← hd]
      exact isLower_toUpper d

/-- C10: for a request with an origin-form target, `get_cgi_params` yields, in order,
`REQUEST_METHOD`, `SCRIPT_FILENAME`, `PATH_INFO`, `REDIRECT_STATUS` = `"200"`, then
`QUERY_STRING` exactly when the target has a query, `CONTENT_LENGTH` and `CONTENT_TYPE`
exactly when the request has that header, then for every request header `(k, v)` the pair
of `HTTP_` followed by `k` with `'-'` replaced by `'_'` and the other characters in upper
case, and `v`; no yielded key contains a lower-case ASCII letter. -/
theorem get_cgi_params_spec (method path : String) (org : uri_origin) (headers : header_map) :
    get_cgi_params ⟨method, uri.origin org, headers⟩ path
      = some
        ([("REQUEST_METHOD", method), ("SCRIPT_FILENAME", path), ("PATH_INFO", org.path),
          ("REDIRECT_STATUS", "200")]
        ++ (org.query.map (fun query => ("QUERY_STRING", query))).toList
        ++ ((headers.at "Content-Length").map (fun value => ("CONTENT_LENGTH", value))).toList
        ++ ((headers.at "Content-Type").map (fun value => ("CONTENT_TYPE", value))).toList
        ++ headers.map.map (fun kv => (cgi_header_key_spec kv.1, kv.2))) ∧
    (∀ params, get_cgi_params ⟨method, uri.origin org, headers⟩ path = some params →
      ∀ kv ∈ params, ∀ c ∈ kv.1.data, c.isLower = false) := by
  have hmain : get_cgi_params ⟨method, uri.origin org, headers⟩ path
      = some
        ([("REQUEST_METHOD", method), ("SCRIPT_FILENAME", path), ("PATH_INFO", org.path),
          ("REDIRECT_STATUS", "200")]
        ++ (org.query.map (fun query => ("QUERY_STRING", query))).toList
        ++ ((headers.at "Content-Length").map (fun value => ("CONTENT_LENGTH", value))).toList
        ++ ((headers.at "Content-Type").map (fun value => ("CONTENT_TYPE", value))).toList
        ++ headers.map.map (fun kv => (cgi_header_key_spec kv.1, kv.2))) := by
    simp only [get_cgi_params, http_request.has_header, http_request.header,
      header_map.contains, header_map.at, cgi_header_params_eq]
    congr 2
    congr 1
    · congr 1
      · congr 1
        cases org.query <;> rfl
      · cases h1 : map_find (normalize_key "Content-Length") headers.map <;> simp
    · cases h2 : map_find (normalize_key "Content-Type") headers.map <;> simp
  refine ⟨hmain, ?_⟩
  intro params hp kv hkv c hc
  rw [hmain] at hp
  simp only [Option.some.injEq] at hp
  subst hp
  simp only [List.mem_append, List.mem_cons, List.mem_singleton, List.not_mem_nil, or_false,
    Option.mem_toList, Option.mem_def, Option.map_eq_some', List.mem_map] at hkv
  rcases hkv with (((hfix | ⟨q, _, hq⟩) | ⟨v, _, hv⟩) | ⟨v, _, hv⟩) | ⟨p, _, hp⟩
  · rcases hfix with rfl | rfl | rfl | rfl
    · have : ∀ x ∈ "REQUEST_METHOD".data, x.isLower = false := by decide
      exact this c hc
    · have : ∀ x ∈ "SCRIPT_FILENAME".data, x.isLower = false := by decide
      exact this c hc
    · have : ∀ x ∈ "PATH_INFO".data, x.isLower = false := by decide
      exact this c hc
    · have : ∀ x ∈ "REDIRECT_STATUS".data, x.isLower = false := by decide
      exact this c hc
  · rw [← hq] at hc
    have : ∀ x ∈ "QUERY_STRING".data, x.isLower = false := by decide
    exact this c hc
  · rw [← hv] at hc
    have : ∀ x ∈ "CONTENT_LENGTH".data, x.isLower = false := by decide
    exact this c hc
  · rw [← hv] at hc
    have : ∀ x ∈ "CONTENT_TYPE".data, x.isLower = false := by decide
    exact this c hc
  · rw [← hp] at hc
    exact cgi_header_key_upper p.1 c hc

/-! ## The CGI fallback -/

theorem handle_cgi_response_eq (cgi_headers : header_map) (candidate : Nat)
    (writer : http_response_writer) (is_last : Bool) (client : client_stream) :
    handle_cgi_response cgi_headers candidate writer is_last client =
      match derived_status cgi_headers with
      | none => .error .invalid_argument
      | some code =>
        if code ≠ 404 ∨ is_last = true then
          .ok (none, client ++ [(cgi_response cgi_headers code, candidate)])
        else .ok (some writer, client) := by
  unfold handle_cgi_response derived_status cgi_response
  simp only [header_map.contains, header_map.at]
  cases map_find (normalize_key "Status") cgi_headers.map with
  | none =>
    simp only [Option.isSome_none, Bool.false_eq_true, if_false]
    cases map_find (normalize_key "Location") cgi_headers.map <;>
      cases map_find (normalize_key "Content-Type") cgi_headers.map <;> simp
  | some status =>
    simp only [Option.isSome_some, if_true]
    cases stoi (substr_0_3 status) with
    | none => rfl
    | some code =>
      cases map_find (normalize_key "Location") cgi_headers.map <;>
        cases map_find (normalize_key "Content-Type") cgi_headers.map <;> simp

theorem candidate_statuses_get (backend : Nat → String → header_map) (l : List String) :
    ∀ i j, (candidate_statuses backend i l)[j]?
      = (l[j]?).map (fun path => derived_status (backend (i + j) path)) := by
  induction l with
  | nil => intro i j; simp [candidate_statuses]
  | cons p l ih =>
    intro i j
    cases j with
    | zero => simp [candidate_statuses]
    | succ j =>
      simp only [candidate_statuses, List.getElem?_cons_succ, ih]
      congr 1
      funext path
      congr 2
      omega

theorem candidate_statuses_length (backend : Nat → String → header_map) (l : List String) :
    ∀ i, (candidate_statuses backend i l).length = l.length := by
  induction l with
  | nil => intro i; rfl
  | cons p l ih => intro i; simp [candidate_statuses, ih]

theorem chosen_candidate_cons_404 (rest : List (Option Int)) (hne : rest ≠ []) :
    chosen_candidate (some 404 :: rest) = chosen_candidate rest + 1 := by
  have hl : 1 ≤ rest.length := by
    cases rest with
    | nil => exact absurd rfl hne
    | cons a r => simp
  simp only [chosen_candidate, List.findIdx_cons, bne_self_eq_false, cond_false,
    List.length_cons]
  omega

theorem chosen_candidate_cons_other (s : Option Int) (rest : List (Option Int))
    (hs : s ≠ some 404) : chosen_candidate (s :: rest) = 0 := by
  have : (s != some 404) = true := by simpa using hs
  simp [chosen_candidate, List.findIdx_cons, this]

/-- The loop of `handle_cgi` from candidate `i` on: it runs the candidates up to the
chosen one and sends the chosen one's response. -/
theorem handle_cgi_loop_spec (backend : Nat → String → header_map) (size : Nat)
    (l : List String) :
    ∀ (i : Nat) (writer : http_response_writer) (effects : cgi_effects),
      l ≠ [] → size = i + l.length →
      (∀ s ∈ candidate_statuses backend i l, s ≠ none) →
      ∃ path code,
        l[chosen_candidate (candidate_statuses backend i l)]? = some path ∧
        derived_status (backend (i + chosen_candidate (candidate_statuses backend i l)) path)
          = some code ∧
        handle_cgi_loop backend size i l writer effects =
          .ok ⟨effects.ran ++
                (List.range (chosen_candidate (candidate_statuses backend i l) + 1)).map
                  (fun n => i + n),
               effects.client ++
                [(cgi_response
                    (backend (i + chosen_candidate (candidate_statuses backend i l)) path) code,
                  i + chosen_candidate (candidate_statuses backend i l))]⟩ := by
  induction l with
  | nil =>
    intro i writer effects hne
    exact absurd rfl hne
  | cons path rest ih =>
    intro i writer effects _ hsize hst
    simp only [candidate_statuses, List.mem_cons, forall_eq_or_imp] at hst
    obtain ⟨hs0, hrest⟩ := hst
    obtain ⟨code, hcode⟩ := Option.ne_none_iff_exists'.1 hs0
    simp only [List.length_cons] at hsize
    simp only [candidate_statuses, handle_cgi_loop, handle_cgi_response_eq, hcode]
    by_cases h404 : code = 404
    · subst h404
      cases rest with
      | nil =>
        have hlast : (i == size - 1) = true := by
          simp only [List.length_nil] at hsize
          simp only [beq_iff_eq]
          omega
        refine ⟨path, 404, ?_, ?_, ?_⟩
        · simp [chosen_candidate, candidate_statuses]
        · simpa [chosen_candidate, candidate_statuses] using hcode
        · simp only [hlast, or_true, if_true, chosen_candidate, candidate_statuses,
            List.findIdx_cons, bne_self_eq_false, cond_false, List.findIdx_nil,
            List.length_singleton, Nat.sub_self, Nat.min_zero, Nat.add_zero, Nat.zero_add]
          rfl
      | cons path1 rest1 =>
        have hlast : (i == size - 1) = false := by
          simp only [List.length_cons] at hsize
          simp only [beq_eq_false_iff_ne, ne_eq]
          omega
        have hne : candidate_statuses backend (i + 1) (path1 :: rest1) ≠ [] := by
          simp [candidate_statuses]
        obtain ⟨p, c, hp, hc, hloop⟩ := ih (i + 1) writer ⟨effects.ran ++ [i], effects.client⟩
          (by simp) (by simp only [List.length_cons] at hsize ⊢; omega) hrest
        rw [chosen_candidate_cons_404 _ hne]
        refine ⟨p, c, ?_, ?_, ?_⟩
        · simpa using hp
        · rw [← hc]
          congr 2
          omega
        · simp only [hlast, ne_eq, not_true_eq_false, Bool.false_eq_true, or_self, if_false,
            hloop]
          congr 1
          rw [cgi_effects.mk.injEq]
          constructor
          · rw [List.range_succ_eq_map (chosen_candidate _ + 1)]
            simp only [List.map_cons, List.map_map, List.append_assoc, List.singleton_append,
              Nat.add_zero, List.cons.injEq, true_and, List.append_cancel_left_eq]
            apply List.map_congr_left
            intro n _
            simp only [Function.comp_apply]
            omega
          · have e : i + 1 + chosen_candidate (candidate_statuses backend (i + 1) (path1 :: rest1))
                = i + (chosen_candidate (candidate_statuses backend (i + 1) (path1 :: rest1)) + 1) := by
              omega
            rw [e]
    · have hs : (some code : Option Int) ≠ some 404 := by simpa using h404
      rw [chosen_candidate_cons_other _ _ hs]
      refine ⟨path, code, by simp, by simpa using hcode, ?_⟩
      simp only [ne_eq, h404, not_false_eq_true, true_or, if_true, Nat.add_zero, Nat.zero_add]
      rfl

/-- C9: for a try-files list of length at least 1 whose backend header blocks all have a
derived status that is a number, `handle_cgi` sends exactly one response to the client:
the response of the candidate `j` that is the first one whose derived status is not 404,
or the last one when all are 404 (with the body piped from that candidate); it runs the
candidates `0..j` and none after `j`. -/
theorem handle_cgi_fallback (backend : Nat → String → header_map) (try_files : List String)
    (writer : http_response_writer) (hk : 1 ≤ try_files.length)
    (hst : ∀ s ∈ candidate_statuses backend 0 try_files, s ≠ none) :
    ∃ path code,
      try_files[chosen_candidate (candidate_statuses backend 0 try_files)]? = some path ∧
      derived_status (backend (chosen_candidate (candidate_statuses backend 0 try_files)) path)
        = some code ∧
      (∀ i, i < chosen_candidate (candidate_statuses backend 0 try_files) →
        (candidate_statuses backend 0 try_files)[i]? = some (some 404)) ∧
      (code ≠ 404 ∨
        chosen_candidate (candidate_statuses backend 0 try_files) = try_files.length - 1) ∧
      handle_cgi backend try_files writer =
        .ok ⟨List.range (chosen_candidate (candidate_statuses backend 0 try_files) + 1),
             [(cgi_response
                (backend (chosen_candidate (candidate_statuses backend 0 try_files)) path) code,
               chosen_candidate (candidate_statuses backend 0 try_files))]⟩ := by
  have hne : try_files ≠ [] := by
    intro he
    rw [he] at hk
    simp at hk
  obtain ⟨path, code, hp, hc, hloop⟩ := handle_cgi_loop_spec backend try_files.length try_files
    0 writer ⟨[], []⟩ hne (by omega) hst
  simp only [Nat.zero_add, List.nil_append] at hc hloop
  have hlen := candidate_statuses_length backend try_files 0
  have hget : (candidate_statuses backend 0 try_files)[chosen_candidate
      (candidate_statuses backend 0 try_files)]? = some (some code) := by
    rw [candidate_statuses_get, hp, Option.map_some', Nat.zero_add, hc]
  refine ⟨path, code, hp, hc, ?_, ?_, ?_⟩
  · intro i hi
    have hi1 : i < List.findIdx (fun s => s != some 404) (candidate_statuses backend 0 try_files) :=
      Nat.lt_of_lt_of_le hi (Nat.min_le_left _ _)
    have hi2 : i < (candidate_statuses backend 0 try_files).length :=
      Nat.lt_of_lt_of_le hi1 (List.findIdx_le_length _)
    have := List.not_of_lt_findIdx hi1
    rw [List.getElem?_eq_getElem hi2]
    simpa using this
  · by_cases hf : List.findIdx (fun s => s != some 404) (candidate_statuses backend 0 try_files)
        ≤ try_files.length - 1
    · left
      have hch : chosen_candidate (candidate_statuses backend 0 try_files)
          = List.findIdx (fun s => s != some 404) (candidate_statuses backend 0 try_files) := by
        simp only [chosen_candidate, hlen]
        omega
      have hlt : List.findIdx (fun s => s != some 404) (candidate_statuses backend 0 try_files)
          < (candidate_statuses backend 0 try_files).length := by
        rw [hlen]
        omega
      have hfound := @List.findIdx_getElem _ (fun s => s != some 404)
        (candidate_statuses backend 0 try_files) hlt
      rw [hch, List.getElem?_eq_getElem hlt, Option.some.injEq] at hget
      rw [hget] at hfound
      simpa using hfound
    · right
      simp only [chosen_candidate, hlen]
      omega
  · unfold handle_cgi
    rw [hloop]
    simp

/-- C9 at a concrete input: of the two candidates `a.php` (backend answers `Status: 404`)
and `b.php` (backend answers `Status: 200`) both are run and the client receives one
response, the 200 of the second. -/
theorem handle_cgi_fallback_witness :
    handle_cgi example_backend ["a.php", "b.php"] {}
      = .ok ⟨[0, 1], [(⟨200, header_map.empty⟩, 1)]⟩ := by
  obtain ⟨path, code, hp, hc, _, _, h⟩ :=
    handle_cgi_fallback example_backend ["a.php", "b.php"] {} (by decide) (by decide)
  have hj : chosen_candidate (candidate_statuses example_backend 0 ["a.php", "b.php"]) = 1 := by
    decide
  rw [hj] at hp hc h
  have hpath : path = "b.php" := by
    simpa using hp.symm
  subst hpath
  have hs : derived_status (example_backend 1 "b.php") = some 200 := by decide
  rw [hs, Option.some.injEq] at hc
  subst hc
  rw [h]
  rfl


/-! ## The FastCGI PARAMS stream -/

theorem lor_high_bit (n : Nat) (h : n < 2 ^ 31) : (n ||| 0x80000000) % 2 ^ 32 = n + 2 ^ 31 := by
  have e : (0x80000000 : Nat) = 2 ^ 31 * 1 := by norm_num
  rw [e, Nat.lor_comm, ← Nat.mul_add_lt_is_or h 1]
  rw [Nat.mod_eq_of_lt (by omega)]
  omega

theorem u32_of_be_u32_be (n : Nat) (h : n < 2 ^ 32) : u32_of_be (u32_be n) = n := by
  simp only [u32_be, u32_of_be]
  omega

theorem write_fcgi_param_eq (fcgi_pstream : List Nat) (key value : String) :
    write_fcgi_param fcgi_pstream key value =
      fcgi_pstream ++ u32_be ((key.length ||| 0x80000000) % 2 ^ 32)
        ++ u32_be ((value.length ||| 0x80000000) % 2 ^ 32)
        ++ key.data.map Char.toNat ++ value.data.map Char.toNat := by
  simp [write_fcgi_param, write_u32_be, write_all, u32_be]

/-- C11 (as stated, refuted): for the pair (`"A"`, `"b"`), whose lengths are 1, the
PARAMS stream gets the two prefixes `80 00 00 01`, four bytes each, and not the single
byte `01` the claim gives for a length below 128. -/
theorem fcgi_short_length_four_bytes :
    write_fcgi_param [] "A" "b" = [0x80, 0, 0, 1, 0x80, 0, 0, 1, 65, 98] ∧
    write_fcgi_param [] "A" "b"
      ≠ fcgi_length_spec 1 ++ fcgi_length_spec 1 ++ [65] ++ [98] := by
  decide

/-- C11 (amended): for every pair `(key, value)` written to the PARAMS stream, each of
the two lengths is written as four bytes, big-endian, of the length with the high bit
`0x80000000` set, whatever the length is (also below 128), and the two prefixes are
followed by the bytes of the key and then those of the value.  For a length below
`2 ^ 31` the four bytes stand for the length plus `2 ^ 31`; the loop writes the pairs one
after the other. -/
theorem write_fcgi_param_spec (fcgi_pstream : List Nat) (key value : String) :
    write_fcgi_param fcgi_pstream key value =
      fcgi_pstream ++ u32_be ((key.length ||| 0x80000000) % 2 ^ 32)
        ++ u32_be ((value.length ||| 0x80000000) % 2 ^ 32)
        ++ key.data.map Char.toNat ++ value.data.map Char.toNat ∧
    (∀ n : Nat, n < 2 ^ 31 →
      (n ||| 0x80000000) % 2 ^ 32 = n + 2 ^ 31 ∧
      u32_of_be (u32_be ((n ||| 0x80000000) % 2 ^ 32)) = n + 2 ^ 31 ∧
      (u32_be ((n ||| 0x80000000) % 2 ^ 32)).length = 4) ∧
    (∀ rest : List (String × String),
      write_fcgi_params fcgi_pstream ((key, value) :: rest)
        = write_fcgi_params (write_fcgi_param fcgi_pstream key value) rest) := by
  refine ⟨write_fcgi_param_eq fcgi_pstream key value, ?_, fun rest => rfl⟩
  intro n hn
  have h1 := lor_high_bit n hn
  refine ⟨h1, ?_, rfl⟩
  rw [h1]
  exact u32_of_be_u32_be _ (by omega)


/-! ## The event loop -/

theorem event_map_find_append (fd k : Int) (v : timed_future) (m : event_map) :
    event_map_find fd (m ++ [(k, v)])
      = match event_map_find fd m with
        | some w => some w
        | none => if k = fd then some v else none := by
  induction m with
  | nil => simp [event_map_find]
  | cons e m ih =>
    obtain ⟨k1, v1⟩ := e
    by_cases h : k1 = fd
    · simp [event_map_find, h]
    · simp [event_map_find, h, ih]

theorem event_map_find_erase_self (fd : Int) (m : event_map) :
    event_map_find fd (event_map_erase fd m) = none := by
  induction m with
  | nil => rfl
  | cons e m ih =>
    obtain ⟨k1, v1⟩ := e
    by_cases h : k1 = fd
    · simp [event_map_erase, h, ih]
    · simp [event_map_erase, event_map_find, h, ih]

theorem event_map_find_erase_other (fd k : Int) (m : event_map) (h : k ≠ fd) :
    event_map_find k (event_map_erase fd m) = event_map_find k m := by
  induction m with
  | nil => rfl
  | cons e m ih =>
    obtain ⟨k1, v1⟩ := e
    by_cases h1 : k1 = fd
    · have h2 : ¬ k1 = k := fun e => h (e ▸ h1)
      simp only [event_map_erase, h1, if_true, event_map_find, ih]
      rw [if_neg (fun e => h e.symm)]
    · by_cases h2 : k1 = k
      · subst h2
        simp [event_map_erase, event_map_find, h1]
      · simp only [event_map_erase, h1, if_false, event_map_find, h2, ih]

theorem event_map_erase_of_find_none (fd : Int) (m : event_map)
    (h : event_map_find fd m = none) : event_map_erase fd m = m := by
  induction m with
  | nil => rfl
  | cons e m ih =>
    obtain ⟨k1, v1⟩ := e
    by_cases h1 : k1 = fd
    · simp [event_map_find, h1] at h
    · simp only [event_map_find, h1, if_false] at h
      simp [event_map_erase, h1, ih h]

theorem event_map_erase_append_new (fd : Int) (v : timed_future) (m : event_map)
    (h : event_map_find fd m = none) : event_map_erase fd (m ++ [(fd, v)]) = m := by
  induction m with
  | nil => simp [event_map_erase]
  | cons e m ih =>
    obtain ⟨k1, v1⟩ := e
    by_cases h1 : k1 = fd
    · simp [event_map_find, h1] at h
    · simp only [event_map_find, h1, if_false] at h
      simp [event_map_erase, h1, ih h]

theorem get_set_map_same (loop : epoll_event_loop) (type : poll_type) (m : event_map) :
    (loop.set_map type m).get_map type = m := by
  cases type <;> rfl

theorem get_set_map_not (loop : epoll_event_loop) (type : poll_type) (m : event_map) :
    (loop.set_map type m).get_map type.not = loop.get_map type.not := by
  cases type <;> rfl

theorem set_map_get_map (loop : epoll_event_loop) (type : poll_type) :
    loop.set_map type (loop.get_map type) = loop := by
  cases type <;> rfl

theorem interest_set_map (loop : epoll_event_loop) (type : poll_type) (m : event_map) :
    (loop.set_map type m).interest = loop.interest ∧ (loop.set_map type m).calls = loop.calls ∧
    (loop.set_map type m).timed_out = loop.timed_out := by
  cases type <;> exact ⟨rfl, rfl, rfl⟩

theorem set_map_set_map (loop : epoll_event_loop) (type : poll_type) (m1 m2 : event_map) :
    (loop.set_map type m1).set_map type m2 = loop.set_map type m2 := by
  cases type <;> rfl

theorem add_event_call_eq (sys : epoll_interest → epoll_ctl_call → Option epoll_interest)
    (now : Nat) (loop : epoll_event_loop) (event : Int × poll_type) (timeout : Option Nat)
    (future : Nat) (hnew : event_map_contains event.1 (loop.get_map event.2) = false) :
    loop.add_event sys now event timeout future =
      match sys loop.interest (loop.add_event_call event) with
      | none =>
        (some loop_exception.errno_exception,
          { loop with calls := loop.calls ++ [loop.add_event_call event] })
      | some interest =>
        (none,
          { (loop.set_map event.2
              (loop.get_map event.2 ++
                [(event.1, ⟨future, timeout.map (fun duration => now + duration)⟩)])) with
            interest := interest
            calls := loop.calls ++ [loop.add_event_call event] }) := by
  have hfind : event_map_find event.1 (loop.get_map event.2) = none := by
    simpa [event_map_contains] using hnew
  have htp : (match timeout with
      | some duration => some (now + duration)
      | none => none) = timeout.map (fun duration => now + duration) := by
    cases timeout <;> rfl
  unfold epoll_event_loop.add_event epoll_event_loop.add_event_call
  simp only [event_map_emplace, hnew, Bool.false_eq_true, if_false, Bool.not_true, htp]
  rw [← apply_ite (epoll_event_loop.epoll_ctl sys _)]
  generalize (if event_map_contains event.1 (loop.get_map event.2.not) = true then
      (⟨epoll_op.EPOLL_CTL_MOD, event.1,
        event_to_epoll event.2 ||| event_to_epoll event.2.not⟩ : epoll_ctl_call)
    else ⟨epoll_op.EPOLL_CTL_ADD, event.1, event_to_epoll event.2⟩) = call
  unfold epoll_event_loop.epoll_ctl
  rw [(interest_set_map loop event.2 _).1, (interest_set_map loop event.2 _).2.1]
  cases sys loop.interest call with
  | none =>
    simp only [Bool.not_false, if_true]
    congr 1
    obtain ⟨fd, d⟩ := event
    cases d <;>
      simp only [epoll_event_loop.set_map, epoll_event_loop.get_map] at hfind ⊢ <;>
      rw [event_map_erase_append_new _ _ _ hfind]
  | some interest =>
    simp only [Bool.not_true, Bool.false_eq_true, if_false]


theorem add_event_one_waiter_aux
    (sys : epoll_interest → epoll_ctl_call → Option epoll_interest)
    (now : Nat) (loop : epoll_event_loop) (event : Int × poll_type) (timeout : Option Nat)
    (future : Nat) (h : event_map_contains event.1 (loop.get_map event.2) = true) :
    loop.add_event sys now event timeout future
      = (some loop_exception.invalid_argument, loop) := by
  unfold epoll_event_loop.add_event
  simp only [event_map_emplace, h, if_true, Bool.not_false]

/-- C12: at most one waiter per (fd, direction).  When the (fd, direction) already has a
waiter, `add_event` throws `invalid_argument` and leaves the whole state as it is: both
waiter maps are unchanged and no `epoll_ctl` call is issued.  When the (fd, direction) is
new and the `epoll_ctl` call fails, `add_event` throws and both maps are as before the
call (the call is the only trace).  When the call succeeds, the waiter is in its map. -/
theorem add_event_one_waiter (sys : epoll_interest → epoll_ctl_call → Option epoll_interest)
    (now : Nat) (loop : epoll_event_loop) (event : Int × poll_type) (timeout : Option Nat)
    (future : Nat) :
    (event_map_contains event.1 (loop.get_map event.2) = true →
      loop.add_event sys now event timeout future
        = (some loop_exception.invalid_argument, loop)) ∧
    (event_map_contains event.1 (loop.get_map event.2) = false →
      sys loop.interest (loop.add_event_call event) = none →
      (loop.add_event sys now event timeout future).1 = some loop_exception.errno_exception ∧
      (loop.add_event sys now event timeout future).2._read_events = loop._read_events ∧
      (loop.add_event sys now event timeout future).2._write_events = loop._write_events ∧
      (loop.add_event sys now event timeout future).2.interest = loop.interest ∧
      (loop.add_event sys now event timeout future).2.calls
        = loop.calls ++ [loop.add_event_call event]) ∧
    (∀ interest : epoll_interest,
      event_map_contains event.1 (loop.get_map event.2) = false →
      sys loop.interest (loop.add_event_call event) = some interest →
      (loop.add_event sys now event timeout future).1 = none ∧
      (loop.add_event sys now event timeout future).2.get_map event.2
        = loop.get_map event.2 ++
            [(event.1, ⟨future, timeout.map (fun duration => now + duration)⟩)] ∧
      (loop.add_event sys now event timeout future).2.get_map event.2.not
        = loop.get_map event.2.not ∧
      (loop.add_event sys now event timeout future).2.interest = interest) := by
  refine ⟨?_, ?_, ?_⟩
  · intro h
    exact add_event_one_waiter_aux sys now loop event timeout future h
  · intro hnew hsys
    rw [add_event_call_eq sys now loop event timeout future hnew, hsys]
    exact ⟨rfl, rfl, rfl, rfl, rfl⟩
  · intro interest hnew hsys
    rw [add_event_call_eq sys now loop event timeout future hnew, hsys]
    obtain ⟨fd, d⟩ := event
    cases d <;> exact ⟨rfl, rfl, rfl, rfl⟩

/-- C12 at a concrete input: fd 3 has a read waiter in `example_loop`; a second read
waiter on it is refused and the state stays as it is. -/
theorem add_event_one_waiter_witness :
    example_loop.add_event kernel_epoll_ctl 10 (3, poll_type.read) (some 5) 9
      = (some loop_exception.invalid_argument, example_loop) :=
  (add_event_one_waiter kernel_epoll_ctl 10 example_loop (3, poll_type.read) (some 5) 9).1
    (by decide)

theorem remove_event_found (sys : epoll_interest → epoll_ctl_call → Option epoll_interest)
    (loop : epoll_event_loop) (event : Int × poll_type) (waiter : timed_future)
    (hfound : event_map_find event.1 (loop.get_map event.2) = some waiter) :
    loop.remove_event sys event =
      match sys loop.interest
          (if event_map_contains event.1 (loop.get_map event.2.not) then
            ⟨epoll_op.EPOLL_CTL_MOD, event.1, event_to_epoll event.2.not⟩
          else ⟨epoll_op.EPOLL_CTL_DEL, event.1, 0⟩) with
      | none =>
        (.error loop_exception.errno_exception,
          { (loop.set_map event.2 (event_map_erase event.1 (loop.get_map event.2))) with
            calls := loop.calls ++
              [if event_map_contains event.1 (loop.get_map event.2.not) then
                ⟨epoll_op.EPOLL_CTL_MOD, event.1, event_to_epoll event.2.not⟩
              else ⟨epoll_op.EPOLL_CTL_DEL, event.1, 0⟩] })
      | some interest =>
        (.ok (some waiter.future),
          { (loop.set_map event.2 (event_map_erase event.1 (loop.get_map event.2))) with
            interest := interest
            calls := loop.calls ++
              [if event_map_contains event.1 (loop.get_map event.2.not) then
                ⟨epoll_op.EPOLL_CTL_MOD, event.1, event_to_epoll event.2.not⟩
              else ⟨epoll_op.EPOLL_CTL_DEL, event.1, 0⟩] }) := by
  unfold epoll_event_loop.remove_event
  simp only [hfound]
  rw [← apply_ite (epoll_event_loop.epoll_ctl sys _)]
  generalize (if event_map_contains event.1 (loop.get_map event.2.not) = true then
      (⟨epoll_op.EPOLL_CTL_MOD, event.1, event_to_epoll event.2.not⟩ : epoll_ctl_call)
    else ⟨epoll_op.EPOLL_CTL_DEL, event.1, 0⟩) = call
  unfold epoll_event_loop.epoll_ctl
  rw [(interest_set_map loop event.2 _).1, (interest_set_map loop event.2 _).2.1]
  cases sys loop.interest call with
  | none => simp only [Bool.not_false, if_true]
  | some interest => simp only [Bool.not_true, Bool.false_eq_true, if_false]

/-- C15: when an fd has waiters in both directions and the ready event of one direction
`d` is processed (the `epoll_ctl` call succeeding), `remove_event` returns the future of
the `d`-waiter and removes that waiter only: the map of the opposite direction is
unchanged, in the map of `d` every other fd keeps its waiter, and the one `epoll_ctl`
call issued is `EPOLL_CTL_MOD` on the fd with the events of the opposite direction only;
`poll` schedules that one future.  When the fd has no `d`-waiter, `remove_event` returns
`nullopt` and the state is unchanged. -/
theorem remove_event_one_direction
    (sys : epoll_interest → epoll_ctl_call → Option epoll_interest)
    (loop : epoll_event_loop) (fd : Int) (d : poll_type) :
    (∀ (waiter other : timed_future) (interest : epoll_interest),
      event_map_find fd (loop.get_map d) = some waiter →
      event_map_find fd (loop.get_map d.not) = some other →
      sys loop.interest ⟨epoll_op.EPOLL_CTL_MOD, fd, event_to_epoll d.not⟩ = some interest →
      (loop.remove_event sys (fd, d)).1 = .ok (some waiter.future) ∧
      (loop.remove_event sys (fd, d)).2.get_map d = event_map_erase fd (loop.get_map d) ∧
      event_map_find fd ((loop.remove_event sys (fd, d)).2.get_map d) = none ∧
      (∀ fd1 : Int, fd1 ≠ fd →
        event_map_find fd1 ((loop.remove_event sys (fd, d)).2.get_map d)
          = event_map_find fd1 (loop.get_map d)) ∧
      (loop.remove_event sys (fd, d)).2.get_map d.not = loop.get_map d.not ∧
      (loop.remove_event sys (fd, d)).2.calls
        = loop.calls ++ [⟨epoll_op.EPOLL_CTL_MOD, fd, event_to_epoll d.not⟩] ∧
      (loop.remove_event sys (fd, d)).2.interest = interest ∧
      (loop.remove_event sys (fd, d)).2.timed_out = loop.timed_out ∧
      epoll_event_loop.poll_events sys loop [(fd, d)] []
        = (none, [waiter.future], (loop.remove_event sys (fd, d)).2)) ∧
    (event_map_find fd (loop.get_map d) = none →
      loop.remove_event sys (fd, d) = (.ok none, loop) ∧
      epoll_event_loop.poll_events sys loop [(fd, d)] [] = (none, [], loop)) := by
  constructor
  · intro waiter other interest hw ho hsys
    have hmod : event_map_contains fd (loop.get_map d.not) = true := by
      simp [event_map_contains, ho]
    have hre := remove_event_found sys loop (fd, d) waiter hw
    simp only [hmod, if_true, hsys] at hre
    have hpoll : epoll_event_loop.poll_events sys loop [(fd, d)] []
        = (none, [waiter.future], (loop.remove_event sys (fd, d)).2) := by
      simp only [epoll_event_loop.poll_events, hre, List.nil_append]
    rw [hre] at hpoll ⊢
    refine ⟨rfl, ?_, ?_, ?_, ?_, ?_, ?_, ?_, hpoll⟩
    · cases d <;> rfl
    · have : ({ (loop.set_map d (event_map_erase fd (loop.get_map d))) with
          interest := interest
          calls := loop.calls ++ [⟨epoll_op.EPOLL_CTL_MOD, fd, event_to_epoll d.not⟩] }
          : epoll_event_loop).get_map d = event_map_erase fd (loop.get_map d) := by
        cases d <;> rfl
      simp only [this]
      exact event_map_find_erase_self fd _
    · intro fd1 hne
      have : ({ (loop.set_map d (event_map_erase fd (loop.get_map d))) with
          interest := interest
          calls := loop.calls ++ [⟨epoll_op.EPOLL_CTL_MOD, fd, event_to_epoll d.not⟩] }
          : epoll_event_loop).get_map d = event_map_erase fd (loop.get_map d) := by
        cases d <;> rfl
      simp only [this]
      exact event_map_find_erase_other fd fd1 _ hne
    · cases d <;> rfl
    · cases d <;> rfl
    · cases d <;> rfl
    · cases d <;> rfl
  · intro hnone
    have hre : loop.remove_event sys (fd, d) = (.ok none, loop) := by
      unfold epoll_event_loop.remove_event
      simp only [hnone]
    refine ⟨hre, ?_⟩
    simp only [epoll_event_loop.poll_events, hre]

/-- C15 at a concrete input: in `example_loop` fd 3 has a read and a write waiter; the
read event removes the read waiter (future 1) and re-arms fd 3 for writing only. -/
theorem remove_event_one_direction_witness :
    epoll_event_loop.poll_events kernel_epoll_ctl example_loop [(3, poll_type.read)] []
      = (none, [1],
          ⟨[(4, ⟨5, some 90⟩)], [(3, ⟨2, none⟩)], [(4, 1), (3, 4)],
            [⟨epoll_op.EPOLL_CTL_MOD, 3, EPOLLOUT⟩], []⟩) := by
  have h := ((remove_event_one_direction kernel_epoll_ctl example_loop 3 poll_type.read).1
    ⟨1, some 40⟩ ⟨2, none⟩ [(4, 1), (3, 4)] (by decide) (by decide) (by decide)).2.2.2.2.2.2.2.2
  rw [h]
  rfl


theorem remove_before_map_eq (time_point_max now : Nat) (hnow : now < time_point_max)
    (m : event_map) :
    remove_before_map time_point_max now m =
      (m.filter (fun e => !e.2.expired now),
        (m.filter (fun e => e.2.expired now)).map (fun e => e.2.future)) := by
  induction m with
  | nil => rfl
  | cons e m ih =>
    obtain ⟨fd, waiter⟩ := e
    simp only [remove_before_map, ih]
    cases ht : waiter.timeout with
    | none =>
      have hexp : waiter.expired now = false := by simp [timed_future.expired, ht]
      have hle : ¬ (time_point_max ≤ now) := by omega
      simp [List.filter_cons, hexp, hle]
    | some deadline =>
      by_cases hd : deadline ≤ now
      · have hexp : waiter.expired now = true := by simp [timed_future.expired, ht, hd]
        simp [List.filter_cons, hexp, hd]
      · have hexp : waiter.expired now = false := by simp [timed_future.expired, ht, hd]
        simp [List.filter_cons, hexp, hd]

theorem get_timeout_loop_some (m : event_map) :
    ∀ (acc : Option Nat) (d : Nat), get_timeout_loop acc m = some d →
      (acc = some d ∨ ∃ e ∈ m, e.2.timeout = some d) ∧
      (∀ c, acc = some c → d ≤ c) ∧
      (∀ e ∈ m, ∀ t, e.2.timeout = some t → d ≤ t) := by
  induction m with
  | nil =>
    intro acc d h
    simp only [get_timeout_loop] at h
    subst h
    exact ⟨Or.inl rfl, fun c hc => by simp at hc; omega, fun e he => by simp at he⟩
  | cons e m ih =>
    intro acc d h
    obtain ⟨fd, waiter⟩ := e
    simp only [get_timeout_loop] at h
    cases ht : waiter.timeout with
    | none =>
      simp only [ht] at h
      obtain ⟨h1, h2, h3⟩ := ih acc d h
      refine ⟨?_, h2, ?_⟩
      · rcases h1 with h1 | ⟨e, he, hed⟩
        · exact Or.inl h1
        · exact Or.inr ⟨e, List.mem_cons_of_mem _ he, hed⟩
      · intro e he t het
        rcases List.mem_cons.1 he with rfl | he
        · simp [ht] at het
        · exact h3 e he t het
    | some deadline =>
      simp only [ht] at h
      cases hacc : acc with
      | none =>
        simp only [hacc] at h
        obtain ⟨h1, h2, h3⟩ := ih (some deadline) d h
        refine ⟨Or.inr ?_, fun c hc => by simp at hc, ?_⟩
        · rcases h1 with h1 | ⟨e, he, hed⟩
          · exact ⟨(fd, waiter), List.mem_cons_self _ _, by simpa [ht] using h1⟩
          · exact ⟨e, List.mem_cons_of_mem _ he, hed⟩
        · intro e he t het
          rcases List.mem_cons.1 he with rfl | he
          · simp only [ht, Option.some.injEq] at het
            subst het
            exact h2 deadline rfl
          · exact h3 e he t het
      | some current =>
        simp only [hacc] at h
        by_cases hlt : deadline < current
        · rw [if_pos hlt] at h
          obtain ⟨h1, h2, h3⟩ := ih (some deadline) d h
          have hdl := h2 deadline rfl
          refine ⟨Or.inr ?_, ?_, ?_⟩
          · rcases h1 with h1 | ⟨e, he, hed⟩
            · exact ⟨(fd, waiter), List.mem_cons_self _ _, by simpa [ht] using h1⟩
            · exact ⟨e, List.mem_cons_of_mem _ he, hed⟩
          · intro c hc
            simp only [Option.some.injEq] at hc
            omega
          · intro e he t het
            rcases List.mem_cons.1 he with rfl | he
            · simp only [ht, Option.some.injEq] at het
              omega
            · exact h3 e he t het
        · rw [if_neg hlt] at h
          obtain ⟨h1, h2, h3⟩ := ih (some current) d h
          have hdc := h2 current rfl
          refine ⟨?_, ?_, ?_⟩
          · rcases h1 with h1 | ⟨e, he, hed⟩
            · exact Or.inl h1
            · exact Or.inr ⟨e, List.mem_cons_of_mem _ he, hed⟩
          · intro c hc
            simp only [Option.some.injEq] at hc
            omega
          · intro e he t het
            rcases List.mem_cons.1 he with rfl | he
            · simp only [ht, Option.some.injEq] at het
              omega
            · exact h3 e he t het

theorem get_timeout_loop_none (m : event_map) :
    ∀ acc : Option Nat, get_timeout_loop acc m = none ↔
      acc = none ∧ ∀ e ∈ m, e.2.timeout = none := by
  induction m with
  | nil =>
    intro acc
    simp [get_timeout_loop]
  | cons e m ih =>
    intro acc
    obtain ⟨fd, waiter⟩ := e
    simp only [get_timeout_loop]
    cases ht : waiter.timeout with
    | none => simp [ih, ht]
    | some deadline =>
      cases acc with
      | none => simp [ih, ht]
      | some current =>
        by_cases hlt : deadline < current
        · simp [hlt, ih]
        · simp [hlt, ih]

/-- What `get_timeout()` returns: the least deadline of the waiters of both maps, and
`nullopt` exactly when no waiter has a deadline. -/
theorem get_timeout_least (loop : epoll_event_loop) :
    (∀ d, loop.get_timeout = some d →
      (∃ e ∈ loop._read_events ++ loop._write_events, e.2.timeout = some d) ∧
      (∀ e ∈ loop._read_events ++ loop._write_events, ∀ t, e.2.timeout = some t → d ≤ t)) ∧
    (loop.get_timeout = none ↔
      ∀ e ∈ loop._read_events ++ loop._write_events, e.2.timeout = none) := by
  unfold epoll_event_loop.get_timeout get_timeout_map
  simp only [epoll_event_loop.get_map]
  cases hr : get_timeout_loop none loop._read_events with
  | none =>
    have hrn := ((get_timeout_loop_none loop._read_events none).1 hr).2
    constructor
    · intro d hd
      simp only at hd
      obtain ⟨h1, _, h3⟩ := get_timeout_loop_some loop._write_events none d hd
      constructor
      · rcases h1 with h1 | ⟨e, he, hed⟩
        · simp at h1
        · exact ⟨e, List.mem_append_right _ he, hed⟩
      · intro e he t het
        rcases List.mem_append.1 he with he | he
        · rw [hrn e he] at het
          simp at het
        · exact h3 e he t het
    · simp only
      rw [get_timeout_loop_none]
      constructor
      · intro h e he
        rcases List.mem_append.1 he with he | he
        · exact hrn e he
        · exact h.2 e he
      · intro h
        exact ⟨rfl, fun e he => h e (List.mem_append_right _ he)⟩
  | some w =>
    obtain ⟨hw1, _, hw3⟩ := get_timeout_loop_some loop._read_events none w hr
    have hw1 : ∃ e ∈ loop._read_events, e.2.timeout = some w := by
      rcases hw1 with h | h
      · simp at h
      · exact h
    cases hwr : get_timeout_loop none loop._write_events with
    | none =>
      have hwn := ((get_timeout_loop_none loop._write_events none).1 hwr).2
      constructor
      · intro d hd
        simp only [Option.some.injEq] at hd
        subst hd
        obtain ⟨e, he, hed⟩ := hw1
        refine ⟨⟨e, List.mem_append_left _ he, hed⟩, ?_⟩
        intro e he t het
        rcases List.mem_append.1 he with he | he
        · exact hw3 e he t het
        · rw [hwn e he] at het
          simp at het
      · simp only [reduceCtorEq, false_iff, not_forall]
        obtain ⟨e, he, hed⟩ := hw1
        exact ⟨e, List.mem_append_left _ he, by simp [hed]⟩
    | some r =>
      obtain ⟨hr1, _, hr3⟩ := get_timeout_loop_some loop._write_events none r hwr
      have hr1 : ∃ e ∈ loop._write_events, e.2.timeout = some r := by
        rcases hr1 with h | h
        · simp at h
        · exact h
      constructor
      · intro d hd
        simp only [Option.some.injEq] at hd
        subst hd
        constructor
        · by_cases hle : r ≤ w
          · obtain ⟨e, he, hed⟩ := hr1
            exact ⟨e, List.mem_append_right _ he, by rw [hed, Nat.min_eq_left hle]⟩
          · obtain ⟨e, he, hed⟩ := hw1
            exact ⟨e, List.mem_append_left _ he,
              by rw [hed, Nat.min_eq_right (by omega)]⟩
        · intro e he t het
          rcases List.mem_append.1 he with he | he
          · have := hw3 e he t het
            exact Nat.le_trans (Nat.min_le_right _ _) this
          · have := hr3 e he t het
            exact Nat.le_trans (Nat.min_le_left _ _) this
      · simp only [reduceCtorEq, false_iff, not_forall]
        obtain ⟨e, he, hed⟩ := hw1
        exact ⟨e, List.mem_append_left _ he, by simp [hed]⟩

/-- C14: the expiry step of `poll`.  `now` is the value of `clock::now()` that `poll`
passes, a time point before `time_point::max()`.  `remove_before(now)` completes with a
timeout exception exactly the waiters whose deadline is at or before `now`, each once
(read map first), and removes exactly those from the maps; every other waiter stays with
its future and deadline; nothing else changes.  Afterwards `get_timeout()` returns a
deadline exactly when a remaining waiter has one (`nullopt` exactly when none has), the
deadline it returns is the least deadline of the remaining waiters, and it is strictly
later than `now`. -/
theorem remove_before_spec (time_point_max now : Nat) (loop : epoll_event_loop)
    (hnow : now < time_point_max) :
    (loop.remove_before time_point_max now)._read_events
      = loop._read_events.filter (fun e => !e.2.expired now) ∧
    (loop.remove_before time_point_max now)._write_events
      = loop._write_events.filter (fun e => !e.2.expired now) ∧
    (loop.remove_before time_point_max now).timed_out
      = loop.timed_out
        ++ (loop._read_events.filter (fun e => e.2.expired now)).map (fun e => e.2.future)
        ++ (loop._write_events.filter (fun e => e.2.expired now)).map (fun e => e.2.future) ∧
    (loop.remove_before time_point_max now).interest = loop.interest ∧
    (loop.remove_before time_point_max now).calls = loop.calls ∧
    (∀ d, (loop.remove_before time_point_max now).get_timeout = some d ↔
      (∃ e ∈ (loop.remove_before time_point_max now)._read_events
            ++ (loop.remove_before time_point_max now)._write_events, e.2.timeout = some d) ∧
      (∀ e ∈ (loop.remove_before time_point_max now)._read_events
            ++ (loop.remove_before time_point_max now)._write_events,
        ∀ t, e.2.timeout = some t → d ≤ t)) ∧
    ((loop.remove_before time_point_max now).get_timeout = none ↔
      ∀ e ∈ (loop.remove_before time_point_max now)._read_events
            ++ (loop.remove_before time_point_max now)._write_events, e.2.timeout = none) ∧
    (∀ d, (loop.remove_before time_point_max now).get_timeout = some d → now < d) := by
  have hr : (loop.remove_before time_point_max now)._read_events
      = loop._read_events.filter (fun e => !e.2.expired now) := by
    simp only [epoll_event_loop.remove_before, remove_before_map_eq _ _ hnow]
  have hw : (loop.remove_before time_point_max now)._write_events
      = loop._write_events.filter (fun e => !e.2.expired now) := by
    simp only [epoll_event_loop.remove_before, remove_before_map_eq _ _ hnow]
  have hleast := get_timeout_least (loop.remove_before time_point_max now)
  refine ⟨hr, hw, ?_, rfl, rfl, ?_, hleast.2, ?_⟩
  · simp only [epoll_event_loop.remove_before, remove_before_map_eq _ _ hnow]
  · intro d
    constructor
    · exact hleast.1 d
    · rintro ⟨⟨e, he, hed⟩, hmin⟩
      cases hg : (loop.remove_before time_point_max now).get_timeout with
      | none =>
        have hnone := hleast.2.1 hg e he
        rw [hed] at hnone
        exact absurd hnone (by simp)
      | some d1 =>
        obtain ⟨⟨e1, he1, hed1⟩, hmin1⟩ := hleast.1 d1 hg
        have h1 : d1 ≤ d := hmin1 e he d hed
        have h2 : d ≤ d1 := hmin e1 he1 d1 hed1
        have : d1 = d := by omega
        rw [this]
  · intro d hd
    obtain ⟨⟨e, he, hed⟩, _⟩ := hleast.1 d hd
    have hne : e.2.expired now = false := by
      rw [hr, hw] at he
      rcases List.mem_append.1 he with he | he
      · simpa using (List.mem_filter.1 he).2
      · simpa using (List.mem_filter.1 he).2
    simp only [timed_future.expired, hed, decide_eq_false_iff_not] at hne
    omega

/-- C14 at a concrete input: in `example_loop` at time 50 (with `time_point::max()` =
1000) the read waiter of fd 3 (deadline 40, future 1) is timed out and removed, the two
others stay, and the next deadline is 90. -/
theorem remove_before_spec_witness :
    (example_loop.remove_before 1000 50)._read_events = [(4, ⟨5, some 90⟩)] ∧
    (example_loop.remove_before 1000 50)._write_events = [(3, ⟨2, none⟩)] ∧
    (example_loop.remove_before 1000 50).timed_out = [1] ∧
    (example_loop.remove_before 1000 50).get_timeout = some 90 ∧
    50 < 90 := by
  have h := remove_before_spec 1000 50 example_loop (by decide)
  refine ⟨?_, ?_, ?_, by decide, h.2.2.2.2.2.2.2 90 (by decide)⟩
  · rw [h.1]; decide
  · rw [h.2.1]; decide
  · rw [h.2.2.1]; decide

/-- C13 (the code at the failing input): from the empty loop, `add_event` registers a
read waiter on fd 3 with a deadline (`EPOLL_CTL_ADD`), and the expiry step at the
deadline removes the waiter from the map without any `epoll_ctl` call: fd 3 has no waiter
left but is still registered for `EPOLLIN`, so the registration is leaked, and a new
`add_event` on fd 3 fails because its `EPOLL_CTL_ADD` finds the fd registered. -/
theorem remove_before_leaks_registration :
    (epoll_event_loop.empty.add_event kernel_epoll_ctl 0 (3, poll_type.read) (some 50) 7)
      = (none, ⟨[(3, ⟨7, some 50⟩)], [], [(3, EPOLLIN)],
          [⟨epoll_op.EPOLL_CTL_ADD, 3, EPOLLIN⟩], []⟩) ∧
    (epoll_event_loop.remove_before 1000
        (epoll_event_loop.empty.add_event kernel_epoll_ctl 0 (3, poll_type.read) (some 50) 7).2
        50)
      = ⟨[], [], [(3, EPOLLIN)], [⟨epoll_op.EPOLL_CTL_ADD, 3, EPOLLIN⟩], [7]⟩ ∧
    ¬ (epoll_event_loop.remove_before 1000
        (epoll_event_loop.empty.add_event kernel_epoll_ctl 0 (3, poll_type.read) (some 50) 7).2
        50).registered_as_wanted 3 ∧
    ((epoll_event_loop.remove_before 1000
        (epoll_event_loop.empty.add_event kernel_epoll_ctl 0 (3, poll_type.read) (some 50) 7).2
        50).add_event kernel_epoll_ctl 60 (3, poll_type.read) none 8).1
      = some loop_exception.errno_exception := by
  decide


theorem interest_find_append (fd k : Int) (v : Nat) (i : epoll_interest) :
    interest_find fd (i ++ [(k, v)])
      = match interest_find fd i with
        | some w => some w
        | none => if k = fd then some v else none := by
  induction i with
  | nil => simp [interest_find]
  | cons e i ih =>
    obtain ⟨k1, v1⟩ := e
    by_cases h : k1 = fd
    · simp [interest_find, h]
    · simp [interest_find, h, ih]

theorem interest_find_erase_self (fd : Int) (i : epoll_interest) :
    interest_find fd (interest_erase fd i) = none := by
  induction i with
  | nil => rfl
  | cons e i ih =>
    obtain ⟨k1, v1⟩ := e
    by_cases h : k1 = fd
    · simp [interest_erase, h, ih]
    · simp [interest_erase, interest_find, h, ih]

theorem interest_find_erase_other (fd k : Int) (i : epoll_interest) (h : k ≠ fd) :
    interest_find k (interest_erase fd i) = interest_find k i := by
  induction i with
  | nil => rfl
  | cons e i ih =>
    obtain ⟨k1, v1⟩ := e
    by_cases h1 : k1 = fd
    · simp only [interest_erase, h1, if_true, interest_find, ih]
      rw [if_neg (fun e => h e.symm)]
    · by_cases h2 : k1 = k
      · subst h2
        simp [interest_erase, interest_find, h1]
      · simp only [interest_erase, h1, if_false, interest_find, h2, ih]

theorem event_map_contains_append (fd k : Int) (v : timed_future) (m : event_map) :
    event_map_contains fd (m ++ [(k, v)]) = (event_map_contains fd m || decide (k = fd)) := by
  simp only [event_map_contains, event_map_find_append]
  cases event_map_find fd m with
  | some w => simp
  | none => by_cases h : k = fd <;> simp [h]

theorem event_map_contains_erase (fd k : Int) (m : event_map) :
    event_map_contains k (event_map_erase fd m)
      = (event_map_contains k m && !decide (k = fd)) := by
  by_cases h : k = fd
  · subst h
    simp [event_map_contains, event_map_find_erase_self]
  · simp [event_map_contains, event_map_find_erase_other fd k m h, h]

/-- What the kernel does with the interest of one fd on a successful call. -/
theorem kernel_epoll_ctl_find (interest interest1 : epoll_interest) (call : epoll_ctl_call)
    (h : kernel_epoll_ctl interest call = some interest1) (fd : Int) :
    interest_find fd interest1 =
      if fd = call.fd then
        (match call.op with
         | epoll_op.EPOLL_CTL_DEL => none
         | _ => some call.events)
      else interest_find fd interest := by
  obtain ⟨op, cfd, events⟩ := call
  cases op <;> simp only [kernel_epoll_ctl] at h
  · by_cases hreg : (interest_find cfd interest).isSome = true
    · simp [hreg] at h
    · simp only [hreg, Bool.false_eq_true, if_false, Option.some.injEq] at h
      subst h
      rw [interest_find_append]
      by_cases hfd : fd = cfd
      · subst hfd
        have : interest_find fd interest = none := by simpa using hreg
        simp [this]
      · have hfd1 : ¬ cfd = fd := fun e => hfd e.symm
        cases interest_find fd interest with
        | none => simp [hfd, hfd1]
        | some w => simp [hfd]
  · by_cases hreg : (interest_find cfd interest).isSome = true
    · simp only [hreg, if_true, Option.some.injEq] at h
      subst h
      rw [interest_find_append]
      by_cases hfd : fd = cfd
      · subst hfd
        simp [interest_find_erase_self]
      · have hfd1 : ¬ cfd = fd := fun e => hfd e.symm
        rw [interest_find_erase_other cfd fd interest hfd]
        cases interest_find fd interest with
        | none => simp [hfd, hfd1]
        | some w => simp [hfd]
    · simp [hreg] at h
  · by_cases hreg : (interest_find cfd interest).isSome = true
    · simp only [hreg, if_true, Option.some.injEq] at h
      subst h
      by_cases hfd : fd = cfd
      · subst hfd
        simp [interest_find_erase_self]
      · simp [interest_find_erase_other cfd fd interest hfd, hfd]
    · simp [hreg] at h

theorem add_event_call_fd (loop : epoll_event_loop) (event : Int × poll_type) :
    (loop.add_event_call event).fd = event.1 ∧
    (loop.add_event_call event).op ≠ epoll_op.EPOLL_CTL_DEL ∧
    (loop.add_event_call event).events =
      if event_map_contains event.1 (loop.get_map event.2.not) then
        event_to_epoll event.2 ||| event_to_epoll event.2.not
      else event_to_epoll event.2 := by
  unfold epoll_event_loop.add_event_call
  split <;> simp

/-- The two registration functions keep the interest list exact: a successful `add_event` and a successful
`remove_event` go from a state without leaked registration to a state without leaked
registration (they issue the `epoll_ctl` call that matches the change of the maps). -/
theorem add_remove_keep_registered (loop : epoll_event_loop)
    (hinv : ∀ fd, loop.registered_as_wanted fd) :
    (∀ (now : Nat) (event : Int × poll_type) (timeout : Option Nat) (future : Nat),
      (loop.add_event kernel_epoll_ctl now event timeout future).1 = none →
      ∀ fd, (loop.add_event kernel_epoll_ctl now event timeout future).2.registered_as_wanted
        fd) ∧
    (∀ (event : Int × poll_type) (r : Option Nat),
      (loop.remove_event kernel_epoll_ctl event).1 = .ok r →
      ∀ fd, (loop.remove_event kernel_epoll_ctl event).2.registered_as_wanted fd) := by
  constructor
  · intro now event timeout future hok fd
    by_cases hnew : event_map_contains event.1 (loop.get_map event.2) = true
    · have := (add_event_one_waiter_aux kernel_epoll_ctl now loop event timeout future hnew)
      rw [this] at hok
      simp at hok
    · have hnew : event_map_contains event.1 (loop.get_map event.2) = false := by
        simpa using hnew
      rw [add_event_call_eq kernel_epoll_ctl now loop event timeout future hnew] at hok ⊢
      cases hsys : kernel_epoll_ctl loop.interest (loop.add_event_call event) with
      | none => simp [hsys] at hok
      | some interest =>
        simp only [hsys]
        clear hok
        have hfind := kernel_epoll_ctl_find _ _ _ hsys fd
        obtain ⟨hcfd, hcop, hcev⟩ := add_event_call_fd loop event
        have hfind1 : interest_find fd interest =
            if fd = event.1 then some (loop.add_event_call event).events
            else interest_find fd loop.interest := by
          rw [hfind, hcfd]
          split
          · cases hop : (loop.add_event_call event).op <;> simp_all
          · rfl
        clear hfind
        have h0 := hinv fd
        obtain ⟨efd, d⟩ := event
        simp only at hnew hcev hfind1
        unfold epoll_event_loop.registered_as_wanted epoll_event_loop.wanted at h0 ⊢
        rw [hcev] at hfind1
        show interest_find fd interest = _
        rw [hfind1]
        by_cases hfd : fd = efd
        · subst hfd
          rw [if_pos rfl]
          cases d
          · simp only [epoll_event_loop.set_map, epoll_event_loop.get_map, poll_type.not,
              event_map_contains_append, if_true, if_false, reduceCtorEq] at hnew ⊢
            by_cases hw : event_map_contains fd loop._write_events = true <;>
              simp [hnew, hw, event_to_epoll, EPOLLIN, EPOLLOUT]
          · simp only [epoll_event_loop.set_map, epoll_event_loop.get_map, poll_type.not,
              event_map_contains_append, if_true, if_false, reduceCtorEq] at hnew ⊢
            by_cases hr : event_map_contains fd loop._read_events = true <;>
              simp [hnew, hr, event_to_epoll, EPOLLIN, EPOLLOUT]
        · rw [if_neg hfd, h0]
          have hfd1 : ¬ efd = fd := fun e => hfd e.symm
          cases d <;>
            simp only [epoll_event_loop.set_map, epoll_event_loop.get_map,
              event_map_contains_append, hfd1, decide_False, Bool.or_false]
  · intro event r hok fd
    cases hfound : event_map_find event.1 (loop.get_map event.2) with
    | none =>
      have hsame : loop.remove_event kernel_epoll_ctl event = (.ok none, loop) := by
        unfold epoll_event_loop.remove_event
        simp only [hfound]
      rw [hsame]
      exact hinv fd
    | some waiter =>
      have hhas : event_map_contains event.1 (loop.get_map event.2) = true := by
        simp [event_map_contains, hfound]
      rw [remove_event_found kernel_epoll_ctl loop event waiter hfound] at hok ⊢
      have h0 := hinv fd
      obtain ⟨efd, d⟩ := event
      simp only at hhas
      unfold epoll_event_loop.registered_as_wanted epoll_event_loop.wanted at h0 ⊢
      by_cases hmod : event_map_contains efd (loop.get_map d.not) = true
      · simp only [hmod, if_true] at hok ⊢
        cases hsys : kernel_epoll_ctl loop.interest
            ⟨epoll_op.EPOLL_CTL_MOD, efd, event_to_epoll d.not⟩ with
        | none => simp [hsys] at hok
        | some interest =>
          simp only [hsys]
          clear hok
          have hfind := kernel_epoll_ctl_find _ _ _ hsys fd
          show interest_find fd interest = _
          rw [hfind]
          by_cases hfd : fd = efd
          · subst hfd
            simp only [if_true]
            cases d <;>
              simp only [epoll_event_loop.set_map, epoll_event_loop.get_map, poll_type.not,
                event_map_contains_erase, if_true, if_false, reduceCtorEq] at hhas hmod ⊢ <;>
              simp [hhas, hmod, event_to_epoll, EPOLLIN, EPOLLOUT]
          · rw [if_neg hfd, h0]
            cases d <;>
              simp only [epoll_event_loop.set_map, epoll_event_loop.get_map,
                event_map_contains_erase, hfd, decide_False, Bool.not_false, Bool.and_true]
      · have hmod1 : event_map_contains efd (loop.get_map d.not) = false := by
          simpa using hmod
        simp only [hmod1, Bool.false_eq_true, if_false] at hok ⊢
        cases hsys : kernel_epoll_ctl loop.interest ⟨epoll_op.EPOLL_CTL_DEL, efd, 0⟩ with
        | none => simp [hsys] at hok
        | some interest =>
          simp only [hsys]
          clear hok
          have hfind := kernel_epoll_ctl_find _ _ _ hsys fd
          show interest_find fd interest = _
          rw [hfind]
          by_cases hfd : fd = efd
          · subst hfd
            simp only [if_true]
            cases d <;>
              simp only [epoll_event_loop.set_map, epoll_event_loop.get_map, poll_type.not,
                event_map_contains_erase, if_true, if_false, reduceCtorEq] at hhas hmod1 ⊢ <;>
              simp [hhas, hmod1, event_to_epoll, EPOLLIN, EPOLLOUT]
          · rw [if_neg hfd, h0]
            cases d <;>
              simp only [epoll_event_loop.set_map, epoll_event_loop.get_map,
                event_map_contains_erase, hfd, decide_False, Bool.not_false, Bool.and_true]

theorem match_node_exists (socket : basic_socket_stream) (request : http_request)
    (normalized : uri_abs_path) (f : http_filter) (p : List Nat)
    (h : f.«match» socket request normalized = some p) :
    ∃ F, f.node_at p = some F := by
  obtain ⟨hm, _⟩ := match_is_matching socket request normalized p f h
  obtain ⟨_, F, hF, _⟩ := is_matching_reached socket request normalized p f hm
  exact ⟨F, hF⟩

/-- C17: the status `on_connect` selects before a handler runs.  When parsing the request
fails with an HTTP or URI parse error, or the parsed target has no origin form, the one
response sent is 400 and `handle_request` is not invoked.  Otherwise (the normalization
of the path succeeding), when `match` returns no filter or the filter it returns has no
handler, the one response sent is 404 and `handle_request` is not invoked.  Otherwise
`handle_request` is invoked with the filter `match` returned, and when it returns
normally the `send` calls are those of the handler: `on_connect` itself sends nothing. -/
theorem on_connect_status_selection (srv : http_filter) (socket : basic_socket_stream)
    (normalize : String → Except thrown uri_abs_path)
    (handle_request : http_filter → http_request → uri_abs_path → handler_result) :
    (∀ e, e = thrown.http_parse_error ∨ e = thrown.uri_parse_error →
      server.on_connect srv socket (.error e) normalize handle_request
        = ⟨[(sender.on_connect, 400)], none⟩) ∧
    (∀ request text, request.uri = uri.other text →
      server.on_connect srv socket (.ok request) normalize handle_request
        = ⟨[(sender.on_connect, 400)], none⟩) ∧
    (∀ request org normalized, request.uri = uri.origin org →
      normalize org.path = .ok normalized →
      (srv.«match» socket request normalized = none ∨
        ∃ p F, srv.«match» socket request normalized = some p ∧ srv.node_at p = some F ∧
          F._config.handler = none) →
      server.on_connect srv socket (.ok request) normalize handle_request
        = ⟨[(sender.on_connect, 404)], none⟩) ∧
    (∀ request org normalized p, request.uri = uri.origin org →
      normalize org.path = .ok normalized →
      srv.«match» socket request normalized = some p →
      ∃ F, srv.node_at p = some F ∧
        (F._config.handler ≠ none →
          (server.on_connect srv socket (.ok request) normalize handle_request).handled
            = some p ∧
          ((handle_request F request normalized).failure = none →
            (server.on_connect srv socket (.ok request) normalize handle_request).sends
              = (handle_request F request normalized).sent.map
                  (fun code => (sender.handler, code))))) := by
  refine ⟨?_, ?_, ?_, ?_⟩
  · intro e he
    rcases he with rfl | rfl <;> rfl
  · intro request text huri
    simp only [server.on_connect, server.on_connect_try, huri]
    rfl
  · intro request org normalized huri hnorm hcase
    rcases hcase with hnone | ⟨p, F, hp, hF, hh⟩
    · simp only [server.on_connect, server.on_connect_try, huri, hnorm, hnone]
      rfl
    · simp only [server.on_connect, server.on_connect_try, huri, hnorm, hp, hF, hh]
      rfl
  · intro request org normalized p huri hnorm hp
    obtain ⟨F, hF⟩ := match_node_exists socket request normalized srv p hp
    refine ⟨F, hF, ?_⟩
    intro hh
    cases hcfg : F._config.handler with
    | none => exact absurd hcfg hh
    | some h =>
      constructor
      · simp only [server.on_connect, server.on_connect_try, huri, hnorm, hp, hF, hcfg]
        cases (handle_request F request normalized).failure with
        | none => rfl
        | some e => cases e <;> rfl
      · intro hok
        simp only [server.on_connect, server.on_connect_try, huri, hnorm, hp, hF, hcfg, hok]

/-- C17 at concrete inputs: on `example_server`, a request whose target has no origin
form gets 400; a `GET /` request reaches the static filter (child 0 of the root), and
with a handler that sends 200 and returns, that is the only response sent. -/
theorem on_connect_status_selection_witness :
    server.on_connect example_server ⟨none⟩
        (.ok ⟨"OPTIONS", uri.other "*", header_map.empty⟩) example_normalize send_and_return
      = ⟨[(sender.on_connect, 400)], none⟩ ∧
    (server.on_connect example_server ⟨none⟩ (.ok (example_request "GET")) example_normalize
        send_and_return).sends = [(sender.handler, 200)] := by
  have h := on_connect_status_selection example_server ⟨none⟩ example_normalize send_and_return
  refine ⟨h.2.1 _ "*" rfl, ?_⟩
  obtain ⟨F, hF, hrest⟩ := h.2.2.2 (example_request "GET") ⟨"/", none⟩ [] [0] rfl rfl (by decide)
  have hF1 : F = http_filter.mk_root
      ⟨[], [], [], some handler_config.static_file_config, none, none, []⟩ := by
    have : example_server.node_at [0] = some (http_filter.mk_root
        ⟨[], [], [], some handler_config.static_file_config, none, none, []⟩) := rfl
    rw [this] at hF
    exact (Option.some.inj hF).symm
  subst hF1
  exact (hrest (by simp [http_filter.mk_root, http_filter.of_config])).2 rfl

/-- C18 (the code at the failing input): on `example_server`, for a `GET /` request
whose handler sends its 200 response and then fails with a `std::exception`, `on_connect`
catches the exception and invokes `send` again, with 500, on the writer it had moved into
`handle_request`: `send` is invoked twice on the request's writer, and the 500 follows a
response that has been sent. -/
theorem on_connect_sends_after_handler_sent :
    server.on_connect example_server ⟨none⟩ (.ok (example_request "GET")) example_normalize
        send_then_fail
      = ⟨[(sender.handler, 200), (sender.on_connect, 500)], some [0]⟩ ∧
    (server.on_connect example_server ⟨none⟩ (.ok (example_request "GET")) example_normalize
        send_then_fail).sends.length = 2 := by
  decide

/-- Whatever the handler has sent, `on_connect` sends 500 after a handler that fails with
an exception other than a parse error: the `catch` clauses only set `unknown_error`, and
the `send` that follows does not look at what has been sent. -/
theorem on_connect_handler_failure (srv : http_filter) (socket : basic_socket_stream)
    (normalize : String → Except thrown uri_abs_path)
    (handle_request : http_filter → http_request → uri_abs_path → handler_result)
    (request : http_request) (org : uri_origin) (normalized : uri_abs_path) (p : List Nat)
    (F : http_filter) (e : thrown)
    (huri : request.uri = uri.origin org) (hnorm : normalize org.path = .ok normalized)
    (hp : srv.«match» socket request normalized = some p) (hF : srv.node_at p = some F)
    (hh : F._config.handler ≠ none)
    (hfail : (handle_request F request normalized).failure = some e)
    (he : e = thrown.std_exception ∨ e = thrown.unknown) :
    (server.on_connect srv socket (.ok request) normalize handle_request).sends
      = (handle_request F request normalized).sent.map (fun code => (sender.handler, code))
        ++ [(sender.on_connect, 500)] := by
  cases hcfg : F._config.handler with
  | none => exact absurd hcfg hh
  | some h =>
    simp only [server.on_connect, server.on_connect_try, huri, hnorm, hp, hF, hcfg, hfail]
    rcases he with rfl | rfl <;> rfl

theorem intercalate_go_append (x acc s : String) (segments : List String) :
    String.intercalate.go (x ++ acc) s segments = x ++ String.intercalate.go acc s segments := by
  induction segments generalizing acc with
  | nil => rfl
  | cons a rest ih =>
    simp only [String.intercalate.go]
    rw [← ih, String.append_assoc, String.append_assoc, String.append_assoc]

/-- Appending a normalized segment to a path that is not empty and does not end with a
separator puts one separator in between, and the result again does not end with one. -/
theorem fs_path_append_segment (path segment : String)
    (hpath : ∃ c, path.data.getLast? = some c ∧ c ≠ '/')
    (hseg : segment ≠ "" ∧ '/' ∉ segment.data) :
    fs_path_append path segment = path ++ "/" ++ segment ∧
    ∃ c, (path ++ "/" ++ segment).data.getLast? = some c ∧ c ≠ '/' := by
  obtain ⟨c, hc, hne⟩ := hpath
  obtain ⟨hs1, hs2⟩ := hseg
  have hdata : segment.data ≠ [] := fun h => hs1 (String.ext h)
  constructor
  · unfold fs_path_append
    have hhead : segment.data.head? ≠ some '/' := by
      intro h
      exact hs2 (List.mem_of_mem_head? h)
    rw [if_neg hhead, if_neg]
    rw [hc]
    simp [hne]
  · obtain ⟨d, hd⟩ : ∃ d, segment.data.getLast? = some d := by
      cases h : segment.data.getLast? with
      | none => exact absurd (List.getLast?_eq_none_iff.1 h) hdata
      | some d => exact ⟨d, rfl⟩
    refine ⟨d, ?_, ?_⟩
    · simp only [String.data_append]
      rw [List.getLast?_append, hd]
      rfl
    · intro h
      subst h
      exact hs2 (List.mem_of_mem_getLast? hd)

theorem handle_request_file_loop_go (segments : List String) :
    ∀ path : String, (∃ c, path.data.getLast? = some c ∧ c ≠ '/') →
      segments_normalized segments →
      handle_request_file_loop path segments = String.intercalate.go path "/" segments := by
  induction segments with
  | nil => intro path _ _; rfl
  | cons a rest ih =>
    intro path hpath hseg
    obtain ⟨h1, h2⟩ := fs_path_append_segment path a hpath (hseg a (List.mem_cons_self _ _))
    simp only [handle_request_file_loop, String.intercalate.go]
    rw [h1]
    exact ih _ h2 (fun s hs => hseg s (List.mem_cons_of_mem _ hs))

theorem handle_request_file_loop_root (segments : List String)
    (hseg : segments_normalized segments) :
    handle_request_file_loop "/" segments = "/" ++ "/".intercalate segments := by
  cases segments with
  | nil => rfl
  | cons a rest =>
    obtain ⟨hs1, hs2⟩ := hseg a (List.mem_cons_self _ _)
    have hdata : a.data ≠ [] := fun h => hs1 (String.ext h)
    have hfirst : fs_path_append "/" a = "/" ++ a := by
      unfold fs_path_append
      have hhead : a.data.head? ≠ some '/' := by
        intro h
        exact hs2 (List.mem_of_mem_head? h)
      rw [if_neg hhead, if_pos]
      right
      rfl
    have hlast : ∃ c, ("/" ++ a).data.getLast? = some c ∧ c ≠ '/' := by
      obtain ⟨d, hd⟩ : ∃ d, a.data.getLast? = some d := by
        cases h : a.data.getLast? with
        | none => exact absurd (List.getLast?_eq_none_iff.1 h) hdata
        | some d => exact ⟨d, rfl⟩
      refine ⟨d, ?_, ?_⟩
      · simp only [String.data_append]
        rw [List.getLast?_append, hd]
        rfl
      · intro h
        subst h
        exact hs2 (List.mem_of_mem_getLast? hd)
    simp only [handle_request_file_loop, String.intercalate]
    rw [hfirst, handle_request_file_loop_go rest _ hlast
      (fun s hs => hseg s (List.mem_cons_of_mem _ hs)), intercalate_go_append]

/-- C19: the residual path is preserved on redirect.  For a filter with match count `c`
and a normalized path `N`, whose segments from `N[c]` on are those of a normalized path
(not empty, without `/`), `handle_request` computes as `file` the string `/` followed by
the segments `N[c]`, ..., `N[n-1]` joined with `/` (just `/` when there is none), and
`handle_redirect`, for a context with that `file`, sends the configured code with the
one header `Location`, whose value is the configured root followed by that string. -/
theorem redirect_keeps_residual_path (filt : http_filter) (normalized : uri_abs_path)
    (redirect : redirect_config) (writer : http_response_writer)
    (hseg : segments_normalized (normalized.drop filt._match_count)) :
    server.handle_request_file filt normalized
      = "/" ++ "/".intercalate (normalized.drop filt._match_count) ∧
    handle_redirect writer ⟨redirect, server.handle_request_file filt normalized⟩
      = ⟨redirect.code,
          ⟨[("Location",
              redirect.root ++ ("/" ++ "/".intercalate (normalized.drop filt._match_count)))]⟩⟩ := by
  have h := handle_request_file_loop_root _ hseg
  refine ⟨h, ?_⟩
  unfold server.handle_request_file at *
  rw [h]
  rfl

/-- C19 at the input of the claim: for the filter `/api` (match count 1), the root
`/v2/api`, the code 301 and the request path `/api/x`, the residual file is `/x` and the
response is 301 with `Location: /v2/api/x`. -/
theorem redirect_keeps_residual_path_witness :
    example_api_filter._match_count = 1 ∧
    server.handle_request_file example_api_filter ["api", "x"] = "/x" ∧
    handle_redirect {} ⟨⟨"/v2/api", 301⟩, server.handle_request_file example_api_filter ["api", "x"]⟩
      = ⟨301, ⟨[("Location", "/v2/api/x")]⟩⟩ := by
  have h := redirect_keeps_residual_path example_api_filter ["api", "x"] ⟨"/v2/api", 301⟩ {}
    (by
      intro s hs
      have hs1 : s = "x" := by simpa [example_api_filter, http_filter.of_config, location_config] using hs
      subst hs1
      decide)
  refine ⟨rfl, ?_, ?_⟩
  · rw [h.1]; decide
  · rw [h.2]; decide

theorem eval_calls_unfold (socket : basic_socket_stream) (request : http_request)
    (normalized : uri_abs_path) (f : http_filter) :
    f.eval_calls socket request normalized =
      [] :: (if f.eval socket request normalized then
        http_filter.eval_calls_sub_filters socket request normalized 0 f._sub_filters
      else []) := by
  cases f
  simp only [http_filter.eval_calls]

theorem eval_calls_sub_filters_mem (socket : basic_socket_stream) (request : http_request)
    (normalized : uri_abs_path) (l : List http_filter) :
    ∀ (i : Nat) (q : List Nat),
      q ∈ http_filter.eval_calls_sub_filters socket request normalized i l →
      ∃ j c p, q = (i + j) :: p ∧ l[j]? = some c ∧
        p ∈ c.eval_calls socket request normalized := by
  induction l with
  | nil =>
    intro i q h
    simp [http_filter.eval_calls_sub_filters] at h
  | cons c l ih =>
    intro i q h
    simp only [http_filter.eval_calls_sub_filters, List.mem_append, List.mem_map] at h
    rcases h with ⟨p, hp, rfl⟩ | h
    · exact ⟨0, c, p, rfl, by simp, hp⟩
    · cases hc : c.«match» socket request normalized with
      | some m =>
        rw [hc] at h
        simp at h
      | none =>
        rw [hc] at h
        obtain ⟨j, d, p, hq, hj, hp⟩ := ih (i + 1) q h
        refine ⟨j + 1, d, p, ?_, by simpa using hj, hp⟩
        rw [hq]
        congr 1
        omega

/-- A node `eval` is called on during `match` exists, and `eval` was true for every
proper ancestor of it. -/
theorem eval_calls_reached (socket : basic_socket_stream) (request : http_request)
    (normalized : uri_abs_path) (p : List Nat) :
    ∀ f : http_filter, p ∈ f.eval_calls socket request normalized →
      f.reached socket request normalized p = true ∧ ∃ F, f.node_at p = some F := by
  induction p with
  | nil =>
    intro f _
    exact ⟨rfl, f, rfl⟩
  | cons i p ih =>
    intro f h
    rw [eval_calls_unfold] at h
    simp only [List.mem_cons, reduceCtorEq, false_or] at h
    cases he : f.eval socket request normalized with
    | false =>
      rw [he] at h
      simp at h
    | true =>
      rw [he] at h
      simp only [if_true] at h
      obtain ⟨j, c, q, hq, hj, hmem⟩ :=
        eval_calls_sub_filters_mem socket request normalized _ 0 _ h
      simp only [Nat.zero_add, List.cons.injEq] at hq
      obtain ⟨rfl, rfl⟩ := hq
      obtain ⟨hr, F, hF⟩ := ih c hmem
      simp only [http_filter.reached, http_filter.node_at, he, hj, Bool.true_and]
      exact ⟨hr, F, hF⟩

/-- In a tree built by `http_filter(config)`, a node `eval` is called on during `match`
has a match count that is at least the length of its location, and the difference is at
most the length of the path. -/
theorem built_eval_call_bounds (socket : basic_socket_stream) (request : http_request)
    (normalized : uri_abs_path) (cfg : config) (p : List Nat)
    (h : p ∈ (http_filter.mk_root cfg).eval_calls socket request normalized) :
    ∃ F, (http_filter.mk_root cfg).node_at p = some F ∧
      F._config.location.length ≤ F._match_count ∧
      size_t_sub F._match_count F._config.location.length
        = F._match_count - F._config.location.length ∧
      size_t_sub F._match_count F._config.location.length ≤ normalized.length := by
  obtain ⟨hr, F, hF⟩ := eval_calls_reached socket request normalized p _ h
  refine ⟨F, hF, ?_⟩
  unfold http_filter.mk_root at *
  obtain ⟨⟨cfg1, h1⟩, h2⟩ := built_reached socket request normalized p 0 cfg F hr hF
  have hmc : F._match_count
      = ((http_filter.of_config 0 cfg).ancestor_locations p).flatten.length
        + F._config.location.length := by
    rw [h1, of_config_match_count, of_config_config, Nat.zero_add]
  rw [List.drop_zero] at h2
  have hlen := h2.length_le
  rw [hmc, size_t_sub_add]
  exact ⟨by omega, by omega, hlen⟩

/-- C20: index safety of matching.  In a filter tree built by `http_filter(config)`, and
in a server that wraps such filters under its root filter with the empty config, for
every normalized path and every call of `eval` that `match` makes, the node `eval` is
called on has `location.size() <= match_count`, so `already_matched = match_count -
location.size()` does not wrap around, and `already_matched <= normalized.size()`, so
the iterator `normalized.begin() + already_matched` does not point past
`normalized.end()`. -/
theorem eval_index_safe (socket : basic_socket_stream) (request : http_request)
    (normalized : uri_abs_path) (p : List Nat) :
    (∀ cfg : config, p ∈ (http_filter.mk_root cfg).eval_calls socket request normalized →
      ∃ F, (http_filter.mk_root cfg).node_at p = some F ∧
        F._config.location.length ≤ F._match_count ∧
        size_t_sub F._match_count F._config.location.length
          = F._match_count - F._config.location.length ∧
        size_t_sub F._match_count F._config.location.length ≤ normalized.length) ∧
    (∀ cfgs : List config,
      p ∈ (http_filter.with_filters config.default
            (cfgs.map http_filter.mk_root)).eval_calls socket request normalized →
      ∃ F, (http_filter.with_filters config.default
            (cfgs.map http_filter.mk_root)).node_at p = some F ∧
        F._config.location.length ≤ F._match_count ∧
        size_t_sub F._match_count F._config.location.length
          = F._match_count - F._config.location.length ∧
        size_t_sub F._match_count F._config.location.length ≤ normalized.length) := by
  constructor
  · intro cfg h
    exact built_eval_call_bounds socket request normalized cfg p h
  · intro cfgs h
    cases p with
    | nil =>
      refine ⟨_, rfl, ?_⟩
      simp [http_filter.with_filters, config.default, size_t_sub]
    | cons i q =>
      rw [eval_calls_unfold] at h
      simp only [List.mem_cons, reduceCtorEq, false_or] at h
      cases he : (http_filter.with_filters config.default
          (cfgs.map http_filter.mk_root)).eval socket request normalized with
      | false =>
        rw [he] at h
        simp at h
      | true =>
        rw [he] at h
        simp only [if_true] at h
        obtain ⟨j, c, q1, hq, hj, hmem⟩ :=
          eval_calls_sub_filters_mem socket request normalized _ 0 _ h
        simp only [Nat.zero_add, List.cons.injEq] at hq
        obtain ⟨rfl, rfl⟩ := hq
        have hj1 : (cfgs.map http_filter.mk_root)[i]? = some c := hj
        rw [List.getElem?_map] at hj1
        cases hget : cfgs[i]? with
        | none =>
          rw [hget] at hj1
          simp at hj1
        | some cfg =>
          rw [hget] at hj1
          simp only [Option.map_some', Option.some.injEq] at hj1
          subst hj1
          obtain ⟨F, hF, hb⟩ := built_eval_call_bounds socket request normalized cfg q hmem
          refine ⟨F, ?_, hb⟩
          simp only [http_filter.node_at, http_filter.with_filters, List.getElem?_map, hget,
            Option.map_some']
          exact hF

/-- C20 at a concrete input: for the path `/a/b`, `match` on `example_tree` calls `eval`
on the root and on its first child `/a` (which matches, so the second child is not
tried); for that child `already_matched` is `1 - 1 = 0`. -/
theorem eval_index_safe_witness :
    example_tree.eval_calls ⟨none⟩ (example_request "GET") ["a", "b"] = [[], [0]] ∧
    ∃ F, example_tree.node_at [0] = some F ∧
      F._config.location.length ≤ F._match_count ∧
      size_t_sub F._match_count F._config.location.length
        = F._match_count - F._config.location.length ∧
      size_t_sub F._match_count F._config.location.length ≤ ["a", "b"].length :=
  ⟨by decide,
    (eval_index_safe ⟨none⟩ (example_request "GET") ["a", "b"] [0]).1 example_config
      (by decide)⟩

end cobra
